import Mathlib

/-!
# A shallow embedding of the `user_agent` parser

The Go package parses an HTTP User-Agent header into a record.  A Go string is
a sequence of bytes, modelled here as a list of natural numbers (every byte is
below 256).  Every positional access of the source (`xs[i]`, `s[n:]`) is a
checked operation returning a `Res`: an access out of range is the fault
`indexOutOfRange`, where the Go program would stop with a run-time error.
-/

namespace UAParse

/-! ## Strings and checked accesses -/

/-- A Go string: its bytes in order. -/
abbrev Str := List Nat

/-- The bytes of an ASCII literal (for ASCII the code point is the byte). -/
def bytes (s : String) : Str := s.toList.map Char.toNat

/-- The two ways in which a run of the model can fail to produce a value. -/
inductive Fault where
  | indexOutOfRange
  | outOfFuel
deriving DecidableEq, Repr

/-- The result of a fallible computation. -/
abbrev Res (α : Type) := Except Fault α

deriving instance DecidableEq for Except

/-- Checked positional access `xs[i]`. -/
def idx {α : Type} : List α → Nat → Res α
  | [], _ => .error .indexOutOfRange
  | a :: _, 0 => .ok a
  | _ :: l, n + 1 => idx l n

/-- Checked slice `s[n:]`. -/
def sliceFrom {α : Type} (s : List α) (n : Nat) : Res (List α) :=
  if n ≤ s.length then .ok (s.drop n) else .error .indexOutOfRange

/-- Checked slice `s[:n]`, the bound being a Go `int`. -/
def sliceTo {α : Type} (s : List α) (n : Int) : Res (List α) :=
  if 0 ≤ n ∧ n ≤ (s.length : Int) then .ok (s.take n.toNat) else .error .indexOutOfRange

/-- Go `strings.HasPrefix`. -/
def hasPrefix (s pre : Str) : Bool := pre.isPrefixOf s

/-- Go `strings.Index`: the offset of the first occurrence of `sep` in `s`
(`none` where Go returns -1). -/
def Index : Str → Str → Option Nat
  | [], sep => if sep.isPrefixOf [] then some 0 else none
  | c :: s, sep =>
    if sep.isPrefixOf (c :: s) then some 0 else (Index s sep).map (· + 1)

/-- Go `strings.Contains`. -/
def Contains (s sub : Str) : Bool := (Index s sub).isSome

/-- Go `strings.SplitN` for a non-empty separator and a count `n ≥ 0`: at most
`n` pieces, the last one being the unsplit remainder. -/
def SplitN (sep : Str) : Str → Nat → List Str
  | _, 0 => []
  | s, 1 => [s]
  | s, n + 2 =>
    match Index s sep with
    | none => [s]
    | some m => s.take m :: SplitN sep (s.drop (m + sep.length)) (n + 1)

/-- Go `strings.Split` for a non-empty separator: `SplitN` with a count that is
never reached (a string of `k` bytes has at most `k + 1` pieces). -/
def Split (s sep : Str) : List Str := SplitN sep s (s.length + 1)

/-- Go `strings.Join`. -/
def Join : List Str → Str → Str
  | [], _ => []
  | [a], _ => a
  | a :: b :: l, sep => a ++ sep ++ Join (b :: l) sep

/-- Go `strings.Replace` for a non-empty `old` and a count `n ≥ 0`: the first
`n` non-overlapping occurrences of `old` are replaced by `new`. -/
def ReplaceN (old new : Str) : Nat → Str → Str
  | 0, s => s
  | n + 1, s =>
    match Index s old with
    | none => s
    | some m => s.take m ++ new ++ ReplaceN old new n (s.drop (m + old.length))

/-- Go `strings.Replace(s, old, new, -1)` for a non-empty `old`: every
occurrence is replaced (there are at most `len(s)` of them). -/
def ReplaceAll (s old new : Str) : Str := ReplaceN old new s.length s

/-- Go `strings.Trim(s, " ")`: leading and trailing spaces removed. -/
def TrimSpaces (s : Str) : Str :=
  ((s.dropWhile (· == 32)).reverse.dropWhile (· == 32)).reverse

/-- The length of the UTF-8 encoding of a white-space rune (Go `unicode.IsSpace`)
at the front of `s`, and 0 when `s` does not start with one. -/
def spaceRuneLen : Str → Nat
  | [] => 0
  | c :: rest =>
    if c = 9 ∨ c = 10 ∨ c = 11 ∨ c = 12 ∨ c = 13 ∨ c = 32 then 1
    else match c, rest with
      | 0xC2, d :: _ => if d = 0x85 ∨ d = 0xA0 then 2 else 0
      | 0xE1, 0x9A :: 0x80 :: _ => 3
      | 0xE2, 0x80 :: d :: _ =>
        if (0x80 ≤ d ∧ d ≤ 0x8A) ∨ d = 0xA8 ∨ d = 0xA9 ∨ d = 0xAF then 3 else 0
      | 0xE2, 0x81 :: 0x9F :: _ => 3
      | 0xE3, 0x80 :: 0x80 :: _ => 3
      | _, _ => 0

/-- The length of the UTF-8 encoding of a white-space rune at the end of the
string whose reversal is `r`, and 0 when the string does not end with one. -/
def spaceRuneLenLast : Str → Nat
  | [] => 0
  | c :: rest =>
    if c = 9 ∨ c = 10 ∨ c = 11 ∨ c = 12 ∨ c = 13 ∨ c = 32 then 1
    else match c, rest with
      | 0x85, 0xC2 :: _ => 2
      | 0xA0, 0xC2 :: _ => 2
      | 0x80, 0x9A :: 0xE1 :: _ => 3
      | 0x9F, 0x81 :: 0xE2 :: _ => 3
      | 0x80, 0x80 :: 0xE3 :: _ => 3
      | d, 0x80 :: 0xE2 :: _ =>
        if (0x80 ≤ d ∧ d ≤ 0x8A) ∨ d = 0xA8 ∨ d = 0xA9 ∨ d = 0xAF then 3 else 0
      | _, _ => 0

/-- Leading white-space runes removed, at most `n` of them. -/
def trimLeftSpace : Nat → Str → Str
  | 0, s => s
  | n + 1, s =>
    if spaceRuneLen s = 0 then s else trimLeftSpace n (s.drop (spaceRuneLen s))

/-- Trailing white-space runes removed from the string whose reversal is `r`,
at most `n` of them; the result is reversed as well. -/
def trimRightSpace : Nat → Str → Str
  | 0, r => r
  | n + 1, r =>
    if spaceRuneLenLast r = 0 then r else trimRightSpace n (r.drop (spaceRuneLenLast r))

/-- Go `strings.TrimSpace`: leading and trailing white-space runes removed. -/
def TrimSpace (s : Str) : Str :=
  let l := trimLeftSpace s.length s
  (trimRightSpace l.length l.reverse).reverse

/-! ## The data model -/

/-- A section: the name of the product, its version and an optional comment
(the empty list is Go's nil slice: no comment). -/
structure Section where
  name : Str
  version : Str
  comment : List Str
deriving DecidableEq, Repr

/-- The information about the browser. -/
structure Browser where
  Engine : Str
  EngineVersion : Str
  Name : Str
  Version : Str
deriving DecidableEq, Repr

/-- All the information extracted from the User-Agent string. -/
structure UserAgent where
  ua : Str
  Mozilla : Str
  Platform : Str
  Os : Str
  Localization : Str
  Browser : Browser
  Bot : Bool
  Mobile : Bool
  Undecided : Bool
deriving DecidableEq, Repr

/-- The zero value of the record, Go's `UserAgent{}`. -/
def zeroUserAgent : UserAgent :=
  { ua := [], Mozilla := [], Platform := [], Os := [], Localization := [],
    Browser := { Engine := [], EngineVersion := [], Name := [], Version := [] },
    Bot := false, Mobile := false, Undecided := false }

/-- Full information on the operating system. -/
structure OSInfo where
  FullName : Str
  Name : Str
  Version : Str
deriving DecidableEq, Repr

/-! ## The tokenizer (`user_agent.go`) -/

/-- The loop of `readUntil`.  The first argument is the number of iterations
left, `len(ua) - i`: the loop condition `i < len(ua)` holds exactly when it is
positive.  The other arguments are the loop variables `i`, `catalan` and
`buffer`; the result is the buffer and the value stored in `*index`. -/
def readUntilLoop (ua : Str) (delimiter : Nat) (cat : Bool) :
    Nat → Nat → Nat → Str → Res (Str × Nat)
  | 0, i, _, buffer => .ok (buffer, i + 1)
  | n + 1, i, catalan, buffer => do
    let c ← idx ua i
    if c = delimiter then
      if catalan = 0 then .ok (buffer, i + 1)
      else readUntilLoop ua delimiter cat n (i + 1) (catalan - 1) (buffer ++ [c])
    else if cat = true ∧ c = 40 then
      readUntilLoop ua delimiter cat n (i + 1) (catalan + 1) (buffer ++ [c])
    else
      readUntilLoop ua delimiter cat n (i + 1) catalan (buffer ++ [c])

/-- Read from `ua` at `index` until the delimiter or the end of the string;
`cat` tells whether nested `(` are tracked.  Returns what has been read and
the new value of the cursor. -/
def readUntil (ua : Str) (index : Nat) (delimiter : Nat) (cat : Bool) : Res (Str × Nat) :=
  readUntilLoop ua delimiter cat (ua.length - index) index 0 []

/-- Parse a product: a name, or `Name/Version`. -/
def parseProduct (product : Str) : Res (Str × Str) :=
  let prod := SplitN (bytes "/") product 2
  if prod.length = 2 then do
    let a ← idx prod 0
    let b ← idx prod 1
    pure (a, b)
  else pure (product, [])

/-- Parse a section `Name/Version (comment)` at the cursor.  Returns the
section and the new value of the cursor. -/
def parseSection (ua : Str) (index : Nat) : Res (Section × Nat) := do
  let (buffer, index) ← readUntil ua index 32 false
  let (name, version) ← parseProduct buffer
  if index < ua.length then
    let c ← idx ua index
    if c = 40 then
      let index := index + 1
      let (buffer, index) ← readUntil ua index 41 true
      let comment := Split buffer (bytes "; ")
      let index := index + 1
      pure (⟨name, version, comment⟩, index)
    else pure (⟨name, version, []⟩, index)
  else pure (⟨name, version, []⟩, index)

/-- The body of `initialize`: one assignment per field of the receiver, in the
order of the source. -/
def initializeRecord (p : UserAgent) : UserAgent :=
  let p := { p with ua := [] }
  let p := { p with Mozilla := [] }
  let p := { p with Platform := [] }
  let p := { p with Os := [] }
  let p := { p with Localization := [] }
  let p := { p with Browser.Engine := [] }
  let p := { p with Browser.EngineVersion := [] }
  let p := { p with Browser.Name := [] }
  let p := { p with Browser.Version := [] }
  let p := { p with Bot := false }
  let p := { p with Mobile := false }
  { p with Undecided := false }

/-- The tokenizer loop of `Parse`: sections are read while the cursor is inside
the string.  The loop is not a counted one, so the first argument bounds the
number of iterations; `outOfFuel` is the result when the bound is reached with
the cursor still inside the string. -/
def parseLoop (ua : Str) : Nat → Nat → UserAgent → List Section → Res (UserAgent × List Section)
  | fuel, index, p, sections =>
    if index < ua.length then
      match fuel with
      | 0 => .error .outOfFuel
      | fuel + 1 => do
        let (s, index) ← parseSection ua index
        let p := if p.Mobile = false ∧ s.name = bytes "Mobile" then { p with Mobile := true } else p
        parseLoop ua fuel index p (sections ++ [s])
    else .ok (p, sections)

/-! ## The bot checks

`checkBot` and `googleBot` are methods of the record that belong to the bot
detection of the package, outside the parser.  Both may change the record;
`googleBot` also returns a verdict.  They are parameters of the model, so that
what is proved holds for every bot detection. -/

/-- The two bot checks the parser calls. -/
structure BotChecks where
  googleBot : UserAgent → UserAgent × Bool
  checkBot : UserAgent → List Section → UserAgent

/-! ## The browser classifier (`browser.go`) -/

/-- The function `ie11Regexp.FindStringSubmatch` for the pattern `^rv:(.+)$`:
the whole match and the group when `c` is `rv:` followed by at least one
character, none of them a line feed (which `.` does not match); Go's nil, the
empty list, otherwise. -/
def ie11FindStringSubmatch (c : Str) : List Str :=
  if hasPrefix c (bytes "rv:") = true ∧ c.drop 3 ≠ [] ∧ 10 ∉ c.drop 3 then [c, c.drop 3] else []

/-- The loop over the comment of the first section in the Internet Explorer 11
case: the version of the first token that matches, if any. -/
def ie11Loop : List Str → Res (Option Str)
  | [] => pure none
  | c :: rest =>
    let version := ie11FindStringSubmatch c
    if version.length > 0 then do
      let v ← idx version 1
      pure (some v)
    else ie11Loop rest

/-- The loop over the comment in the MSIE case: the first token starting with
`Trident/` decides, and ends the loop. -/
def tridentTokenLoop (p : UserAgent) : List Str → Res UserAgent
  | [] => pure p
  | v :: rest =>
    if hasPrefix v (bytes "Trident/") = true then do
      let t ← sliceFrom v 8
      if t = bytes "4.0" then pure { p with Browser.Version := bytes "8.0" }
      else if t = bytes "5.0" then pure { p with Browser.Version := bytes "9.0" }
      else if t = bytes "6.0" then pure { p with Browser.Version := bytes "10.0" }
      else pure p
    else tridentTokenLoop p rest

/-- Extract the information about the browser from the sections.  An element
of `sections` that has been read once is not read again. -/
def detectBrowser (p : UserAgent) (sections : List Section) : Res UserAgent := do
  let slen := sections.length
  let s0 ← idx sections 0
  if s0.name = bytes "Opera" then
    let p := { p with Browser.Name := bytes "Opera", Browser.Version := s0.version,
                      Browser.Engine := bytes "Presto" }
    if slen > 1 then
      let s1 ← idx sections 1
      pure { p with Browser.EngineVersion := s1.version }
    else pure p
  else if s0.name = bytes "Dalvik" then
    pure { p with Mozilla := bytes "5.0" }
  else if slen > 1 then
    let engine ← idx sections 1
    let p := { p with Browser.Engine := engine.name, Browser.EngineVersion := engine.version }
    if slen > 2 then
      let s2 ← idx sections 2
      let sectionIndex := if s2.version = [] ∧ slen > 3 then 3 else 2
      let sv ← idx sections sectionIndex
      let p := { p with Browser.Version := sv.version }
      if engine.name = bytes "AppleWebKit" then
        let last ← idx sections (slen - 1)
        if last.name = bytes "Edge" then
          pure { p with Browser.Name := bytes "Edge", Browser.Version := last.version,
                        Browser.Engine := bytes "EdgeHTML", Browser.EngineVersion := [] }
        else if last.name = bytes "OPR" then
          pure { p with Browser.Name := bytes "Opera", Browser.Version := last.version }
        else if sv.name = bytes "Chrome" then
          pure { p with Browser.Name := bytes "Chrome" }
        else if sv.name = bytes "Chromium" then
          pure { p with Browser.Name := bytes "Chromium" }
        else
          pure { p with Browser.Name := bytes "Safari" }
      else if engine.name = bytes "Gecko" then
        if s2.name = bytes "MRA" ∧ slen > 4 then
          let s4 ← idx sections 4
          pure { p with Browser.Version := s4.version, Browser.Name := s4.name }
        else
          pure { p with Browser.Name := s2.name }
      else if engine.name = bytes "like" ∧ s2.name = bytes "Gecko" then
        let p := { p with Browser.Engine := bytes "Trident",
                          Browser.Name := bytes "Internet Explorer" }
        match ← ie11Loop s0.comment with
        | some v => pure { p with Browser.Version := v }
        | none => pure { p with Browser.Version := [] }
      else pure p
    else pure p
  else if slen = 1 ∧ s0.comment.length > 1 then
    let comment := s0.comment
    let c0 ← idx comment 0
    let c1 ← idx comment 1
    if c0 = bytes "compatible" ∧ hasPrefix c1 (bytes "MSIE") = true then
      let p := { p with Browser.Engine := bytes "Trident",
                        Browser.Name := bytes "Internet Explorer" }
      let p ← tridentTokenLoop p comment
      if p.Browser.Version = [] then
        let t ← sliceFrom c1 4
        pure { p with Browser.Version := TrimSpace t }
      else pure p
    else pure p
  else pure p

/-! ## The operating system classifier (`operating_systems.go`) -/

/-- Normalize the name of the operating system: Windows NT versions get their
marketing name. -/
def normalizeOS (name : Str) : Res Str := do
  let sp := SplitN (bytes " ") name 3
  if sp.length ≠ 3 then pure name
  else
    let sp1 ← idx sp 1
    if sp1 ≠ bytes "NT" then pure name
    else
      let sp2 ← idx sp 2
      if sp2 = bytes "5.0" then pure (bytes "Windows 2000")
      else if sp2 = bytes "5.01" then pure (bytes "Windows 2000, Service Pack 1 (SP1)")
      else if sp2 = bytes "5.1" then pure (bytes "Windows XP")
      else if sp2 = bytes "5.2" then pure (bytes "Windows XP x64 Edition")
      else if sp2 = bytes "6.0" then pure (bytes "Windows Vista")
      else if sp2 = bytes "6.1" then pure (bytes "Windows 7")
      else if sp2 = bytes "6.2" then pure (bytes "Windows 8")
      else if sp2 = bytes "6.3" then pure (bytes "Windows 8.1")
      else if sp2 = bytes "10.0" then pure (bytes "Windows 10")
      else pure name

/-- The heuristic for a Webkit-powered browser. -/
def webkit (bot : BotChecks) (p : UserAgent) (comment : List Str) : Res UserAgent := do
  if p.Platform = bytes "webOS" then
    let p := { p with Browser.Name := p.Platform, Os := bytes "Palm" }
    if comment.length > 2 then
      let c2 ← idx comment 2
      pure { p with Localization := c2, Mobile := true }
    else pure { p with Mobile := true }
  else if p.Platform = bytes "Symbian" then
    let p := { p with Mobile := true, Browser.Name := p.Platform }
    let c0 ← idx comment 0
    pure { p with Os := c0 }
  else if p.Platform = bytes "Linux" then
    let p := { p with Mobile := true }
    let p := if p.Browser.Name = bytes "Safari" then { p with Browser.Name := bytes "Android" } else p
    let p ←
      if comment.length > 1 then do
        let c1 ← idx comment 1
        if c1 = bytes "U" then
          if comment.length > 2 then do
            let c2 ← idx comment 2
            pure { p with Os := c2 }
          else do
            let c0 ← idx comment 0
            pure { p with Mobile := false, Os := c0 }
        else pure { p with Os := c1 }
      else pure p
    if comment.length > 3 then
      let c3 ← idx comment 3
      pure { p with Localization := c3 }
    else if comment.length = 3 then
      pure (bot.googleBot p).1
    else pure p
  else if comment.length > 0 then
    let p ←
      if comment.length > 3 then do
        let c3 ← idx comment 3
        pure { p with Localization := c3 }
      else pure p
    let c0 ← idx comment 0
    let p ←
      if hasPrefix c0 (bytes "Windows NT") = true then do
        let os ← normalizeOS c0
        pure { p with Os := os }
      else if comment.length < 2 then
        pure { p with Localization := c0 }
      else if comment.length < 3 then
        let r := bot.googleBot p
        if r.2 = false then do
          let c1 ← idx comment 1
          let os ← normalizeOS c1
          pure { r.1 with Os := os }
        else pure r.1
      else do
        let c2 ← idx comment 2
        let os ← normalizeOS c2
        pure { p with Os := os }
    if p.Platform = bytes "BlackBerry" then
      let p := { p with Browser.Name := p.Platform }
      if p.Os = bytes "Touch" then pure { p with Os := p.Platform } else pure p
    else pure p
  else pure p

/-- The heuristic for a Gecko-powered browser. -/
def gecko (p : UserAgent) (comment : List Str) : Res UserAgent := do
  if comment.length > 1 then
    let c1 ← idx comment 1
    let p ←
      if c1 = bytes "U" then
        if comment.length > 2 then do
          let c2 ← idx comment 2
          let os ← normalizeOS c2
          pure { p with Os := os }
        else do
          let os ← normalizeOS c1
          pure { p with Os := os }
      else if p.Platform = bytes "Android" then do
        let pl ← normalizeOS c1
        pure { p with Mobile := true, Platform := pl, Os := p.Platform }
      else do
        let c0 ← idx comment 0
        if c0 = bytes "Mobile" ∨ c0 = bytes "Tablet" then
          pure { p with Mobile := true, Os := bytes "FirefoxOS" }
        else if p.Os = [] then
          let os ← normalizeOS c1
          pure { p with Os := os }
        else pure p
    if comment.length > 3 then
      let c3 ← idx comment 3
      if hasPrefix c3 (bytes "rv:") = false then pure { p with Localization := c3 } else pure p
    else pure p
  else pure p

/-- The loop of `trident` over the comment: a token starting with `IEMobile`
sets the mobile flag. -/
def ieMobileLoop (p : UserAgent) : List Str → UserAgent
  | [] => p
  | v :: rest =>
    if hasPrefix v (bytes "IEMobile") = true then { p with Mobile := true }
    else ieMobileLoop p rest

/-- The heuristic for Internet Explorer. -/
def trident (p : UserAgent) (comment : List Str) : Res UserAgent := do
  let p := { p with Platform := bytes "Windows" }
  let p ←
    if p.Os = [] then
      if comment.length > 2 then do
        let c2 ← idx comment 2
        let os ← normalizeOS c2
        pure { p with Os := os }
      else pure { p with Os := bytes "Windows NT 4.0" }
    else pure p
  pure (ieMobileLoop p comment)

/-- The heuristic for Opera. -/
def opera (p : UserAgent) (comment : List Str) : Res UserAgent := do
  let slen := comment.length
  let c0 ← idx comment 0
  if hasPrefix c0 (bytes "Windows") = true then
    let os ← normalizeOS c0
    let p := { p with Platform := bytes "Windows", Os := os }
    if slen > 2 then
      let c2 ← idx comment 2
      if slen > 3 ∧ hasPrefix c2 (bytes "MRA") = true then
        let c3 ← idx comment 3
        pure { p with Localization := c3 }
      else pure { p with Localization := c2 }
    else pure p
  else
    let p := if hasPrefix c0 (bytes "Android") = true then { p with Mobile := true } else p
    let p := { p with Platform := c0 }
    if slen > 1 then
      let c1 ← idx comment 1
      let p := { p with Os := c1 }
      if slen > 3 then
        let c3 ← idx comment 3
        pure { p with Localization := c3 }
      else pure p
    else pure { p with Os := c0 }

/-- The heuristic for the Dalvik virtual machine. -/
def dalvik (p : UserAgent) (comment : List Str) : Res UserAgent := do
  let slen := comment.length
  let c0 ← idx comment 0
  if hasPrefix c0 (bytes "Linux") = true then
    let p := { p with Platform := c0 }
    if slen > 2 then
      let c2 ← idx comment 2
      pure { p with Os := c2, Mobile := true }
    else pure { p with Mobile := true }
  else pure p

/-- The platform, from the comment of the first section. -/
def getPlatform (comment : List Str) : Res Str := do
  if comment.length > 0 then
    let c0 ← idx comment 0
    if c0 ≠ bytes "compatible" then
      if hasPrefix c0 (bytes "Windows") = true then pure (bytes "Windows")
      else if hasPrefix c0 (bytes "Symbian") = true then pure (bytes "Symbian")
      else if hasPrefix c0 (bytes "webOS") = true then pure (bytes "webOS")
      else if c0 = bytes "BB10" then pure (bytes "BlackBerry")
      else pure c0
    else pure []
  else pure []

/-- Detect some properties of the operating system from the first section. -/
def detectOS (bot : BotChecks) (p : UserAgent) (s : Section) : Res UserAgent := do
  if s.name = bytes "Mozilla" then
    let pl ← getPlatform s.comment
    let p := { p with Platform := pl }
    let p ←
      if p.Platform = bytes "Windows" ∧ s.comment.length > 0 then do
        let c0 ← idx s.comment 0
        let os ← normalizeOS c0
        pure { p with Os := os }
      else pure p
    if p.Browser.Engine = [] then pure { p with Undecided := true }
    else if p.Browser.Engine = bytes "Gecko" then gecko p s.comment
    else if p.Browser.Engine = bytes "AppleWebKit" then webkit bot p s.comment
    else if p.Browser.Engine = bytes "Trident" then trident p s.comment
    else pure p
  else if s.name = bytes "Opera" then
    if s.comment.length > 0 then opera p s.comment else pure p
  else if s.name = bytes "Dalvik" then
    if s.comment.length > 0 then dalvik p s.comment else pure p
  else pure { p with Undecided := true }

/-- The name and the version of the operating system, from the words of its
full name. -/
def osName (osSplit : List Str) : Res (Str × Str) := do
  if osSplit.length = 1 then
    let name ← idx osSplit 0
    pure (name, [])
  else
    let nameSplit ← sliceTo osSplit ((osSplit.length : Int) - 1)
    let version ← idx osSplit (osSplit.length - 1)
    let nameSplit ←
      if nameSplit.length ≥ 2 then do
        let n0 ← idx nameSplit 0
        let n1 ← idx nameSplit 1
        if n0 = bytes "Intel" ∧ n1 = bytes "Mac" then sliceFrom nameSplit 1 else pure nameSplit
      else pure nameSplit
    let name := Join nameSplit (bytes " ")
    if Contains version (bytes "x86") = true ∨ Contains version (bytes "i686") = true then
      pure (name, [])
    else if version = bytes "X" ∧ name = bytes "Mac OS" then
      pure (name ++ bytes " " ++ version, [])
    else pure (name, version)

/-- Combined information for the operating system (the method `OSInfo`). -/
def UserAgent.OSInfo (p : UserAgent) : Res OSInfo := do
  let os := ReplaceN (bytes "like Mac OS X") [] 1 p.Os
  let os := ReplaceN (bytes "CPU") [] 1 os
  let os := TrimSpaces os
  let osSplit := Split os (bytes " ")
  let osSplit ←
    if os = bytes "Windows XP x64 Edition" then sliceTo osSplit ((osSplit.length : Int) - 2)
    else pure osSplit
  let (name, version) ← osName osSplit
  let (name, version) ←
    if Contains name (bytes "/") = true then do
      let s := Split name (bytes "/")
      let a ← idx s 0
      let b ← idx s 1
      pure (a, b)
    else pure (name, version)
  let version := ReplaceAll version (bytes "_") (bytes ".")
  pure { FullName := p.Os, Name := name, Version := version }

/-! ## The entry point -/

/-- Parse the given User-Agent string into the record `p`. -/
def Parse (bot : BotChecks) (p : UserAgent) (ua : Str) : Res UserAgent := do
  let p := initializeRecord p
  let p := { p with ua := ua }
  let (p, sections) ← parseLoop ua ua.length 0 p []
  if sections.length > 0 then
    let s0 ← idx sections 0
    let p := if s0.name = bytes "Mozilla" then { p with Mozilla := s0.version } else p
    let p ← detectBrowser p sections
    let p ← detectOS bot p s0
    if p.Undecided = true then pure (bot.checkBot p sections) else pure p
  else pure p

/-- The function `New`: parse into a fresh record. -/
def New (bot : BotChecks) (ua : Str) : Res UserAgent := Parse bot zeroUserAgent ua

/-- The sections the tokenizer loop of `Parse` builds from `ua`. -/
def tokenize (ua : Str) : Res (List Section) :=
  (parseLoop ua ua.length 0 { initializeRecord zeroUserAgent with ua := ua } []).map Prod.snd

/-- Bot checks that leave the record alone and never report a bot. -/
def noBot : BotChecks := ⟨fun p => (p, false), fun p _ => p⟩

/-! ## Auxiliary definitions for the statements and proofs -/

/-- What the loop of `readUntil` computes from the unread bytes `s`, the cursor
`i`, the depth `catalan` and the buffer. -/
def readRest (delimiter : Nat) (cat : Bool) : Str → Nat → Nat → Str → Str × Nat
  | [], i, _, buffer => (buffer, i + 1)
  | c :: s, i, catalan, buffer =>
    if c = delimiter then
      if catalan = 0 then (buffer, i + 1)
      else readRest delimiter cat s (i + 1) (catalan - 1) (buffer ++ [c])
    else if cat = true ∧ c = 40 then
      readRest delimiter cat s (i + 1) (catalan + 1) (buffer ++ [c])
    else
      readRest delimiter cat s (i + 1) catalan (buffer ++ [c])

/-- Balanced parentheses: no prefix of `s` has more `)` than `(`, and the
totals are equal. -/
def Balanced (s : Str) : Prop :=
  (∀ n, n ≤ s.length → (s.take n).count 41 ≤ (s.take n).count 40) ∧ s.count 40 = s.count 41

instance (s : Str) : Decidable (Balanced s) := by
  unfold Balanced; infer_instance

/-- What `parseProduct` computes. -/
def productOf (product : Str) : Str × Str :=
  match Index product [47] with
  | none => (product, [])
  | some m => (product.take m, product.drop (m + 1))

/-- What `parseSection` computes; the comment is read when the byte at the
cursor, after the product, is `(`. -/
def sectionAt (ua : Str) (index : Nat) : Section × Nat :=
  let r := readRest 32 false (ua.drop index) index 0 []
  let pr := productOf r.1
  match ua.drop r.2 with
  | 40 :: rest =>
    let c := readRest 41 true rest (r.2 + 1) 0 []
    (⟨pr.1, pr.2, Split c.1 (bytes "; ")⟩, c.2 + 1)
  | _ => (⟨pr.1, pr.2, []⟩, r.2)


/-- The computation returns a value: no access out of range, no fuel missing. -/
def Returns {α : Type} (x : Res α) : Prop := ∃ r, x = Except.ok r

/-- The value `normalizeOS` returns (it always returns one). -/
def normOS (name : Str) : Str :=
  match normalizeOS name with
  | .ok r => r
  | .error _ => name

/-- The table of Windows NT versions and their marketing names. -/
def ntTable : List (Str × Str) :=
  [ (bytes "5.0", bytes "Windows 2000"),
    (bytes "5.01", bytes "Windows 2000, Service Pack 1 (SP1)"),
    (bytes "5.1", bytes "Windows XP"),
    (bytes "5.2", bytes "Windows XP x64 Edition"),
    (bytes "6.0", bytes "Windows Vista"),
    (bytes "6.1", bytes "Windows 7"),
    (bytes "6.2", bytes "Windows 8"),
    (bytes "6.3", bytes "Windows 8.1"),
    (bytes "10.0", bytes "Windows 10") ]

/-- The part of `Parse` that follows the tokenizer loop: the classification of
the sections. -/
def classify (bot : BotChecks) (p : UserAgent) (sections : List Section) : Res UserAgent := do
  if sections.length > 0 then
    let s0 ← idx sections 0
    let p := if s0.name = bytes "Mozilla" then { p with Mozilla := s0.version } else p
    let p ← detectBrowser p sections
    let p ← detectOS bot p s0
    if p.Undecided = true then pure (bot.checkBot p sections) else pure p
  else pure p

/-- Some section is named `Mobile`. -/
def hasMobileSection (sections : List Section) : Bool :=
  sections.any (fun s => decide (s.name = bytes "Mobile"))

/-- Every value the computation may return satisfies `P`. -/
def Sat {α : Type} (x : Res α) (P : α → Prop) : Prop := ∀ r, x = Except.ok r → P r


/-- The engine `detectBrowser` detects from the sections after a first section
named `Mozilla` is `AppleWebKit`: the second section is so named and, when
there are more sections, the last one is not named `Edge`. -/
def webkitEngine : List Section → Bool
  | [] => false
  | s1 :: rest =>
    decide (s1.name = bytes "AppleWebKit") &&
      (match rest.getLast? with
        | some last => decide (last.name ≠ bytes "Edge")
        | none => true)

/-- The sections lead the WebKit heuristic into its desktop Linux branch: the
first section is named `Mozilla` with the comment `Linux; U` and the detected
engine is `AppleWebKit`. -/
def webkitDesktopLinux : List Section → Bool
  | [] => false
  | s0 :: tail =>
    decide (s0.name = bytes "Mozilla") && decide (s0.comment = [bytes "Linux", bytes "U"]) &&
      webkitEngine tail

/-- A header of the first iPhone, with a section named `Mobile`. -/
def iphoneHeader : Str :=
  bytes "Mozilla/5.0 (iPhone; U; CPU like Mac OS X) AppleWebKit/420.1 (KHTML, like Gecko) Version/3.0 Mobile/4A102 Safari/419.3"

/-- The sections of `iphoneHeader`. -/
def iphoneSections : List Section :=
  [⟨bytes "Mozilla", bytes "5.0", [bytes "iPhone", bytes "U", bytes "CPU like Mac OS X"]⟩,
    ⟨bytes "AppleWebKit", bytes "420.1", [bytes "KHTML, like Gecko"]⟩,
    ⟨bytes "Version", bytes "3.0", []⟩, ⟨bytes "Mobile", bytes "4A102", []⟩,
    ⟨bytes "Safari", bytes "419.3", []⟩]

/-- The text of one section: the name, then `/` and the version when there is
a version, then ` (`, the comment tokens joined by `; `, and `)` when there is
a comment. -/
def renderSection (s : Section) : Str :=
  s.name ++ (if s.version = [] then [] else bytes "/" ++ s.version) ++
    (if s.comment = [] then [] else bytes " (" ++ Join s.comment (bytes "; ") ++ bytes ")")

/-- The header made of the given sections, separated by single spaces. -/
def render (secs : List Section) : Str := Join (secs.map renderSection) (bytes " ")

/-- A section of the grammar: the name is not empty, has no space and no `/`
and does not begin with `(`; the version has no space; no comment token
contains `; ` and the joined comment has balanced parentheses. -/
def WellFormed (s : Section) : Prop :=
  s.name ≠ [] ∧ 32 ∉ s.name ∧ 47 ∉ s.name ∧ s.name.head? ≠ some 40 ∧ 32 ∉ s.version ∧
    (∀ t ∈ s.comment, Contains t (bytes "; ") = false) ∧
    Balanced (Join s.comment (bytes "; "))

instance (s : Section) : Decidable (WellFormed s) := by
  unfold WellFormed; infer_instance

/-- The section whose version `detectBrowser` takes for the browser, given the
third section and the sections after it: the third one, or the fourth one when
the version of the third is empty and a fourth section exists. -/
def versionBearing (s2 : Section) (rest : List Section) : Section :=
  match rest with
  | s3 :: _ => if s2.version = [] then s3 else s2
  | [] => s2

/-- The UTF-8 encodings of the white-space runes (Go `unicode.IsSpace`): the six
ASCII ones, U+0085, U+00A0, U+1680, U+2000 to U+200A, U+2028, U+2029, U+202F,
U+205F and U+3000. -/
def spaceRunes : List Str :=
  [[9], [10], [11], [12], [13], [32], [0xC2, 0x85], [0xC2, 0xA0], [0xE1, 0x9A, 0x80],
    [0xE2, 0x80, 0x80], [0xE2, 0x80, 0x81], [0xE2, 0x80, 0x82], [0xE2, 0x80, 0x83],
    [0xE2, 0x80, 0x84], [0xE2, 0x80, 0x85], [0xE2, 0x80, 0x86], [0xE2, 0x80, 0x87],
    [0xE2, 0x80, 0x88], [0xE2, 0x80, 0x89], [0xE2, 0x80, 0x8A], [0xE2, 0x80, 0xA8],
    [0xE2, 0x80, 0xA9], [0xE2, 0x80, 0xAF], [0xE2, 0x81, 0x9F], [0xE3, 0x80, 0x80]]

/-- `v` is `s` with the surrounding white space trimmed: `s` is `v` between two
runs of white-space runes, and `v` neither starts nor ends with one. -/
def Trimmed (s v : Str) : Prop :=
  ∃ pre post : List Str, (∀ w ∈ pre, w ∈ spaceRunes) ∧ (∀ w ∈ post, w ∈ spaceRunes) ∧
    s = pre.flatten ++ v ++ post.flatten ∧
    (∀ w ∈ spaceRunes, ¬ w <+: v) ∧ (∀ w ∈ spaceRunes, ¬ w <:+ v)
/-! ## Basic facts about the checked accesses -/

@[simp] theorem ok_bind {α β : Type} (a : α) (f : α → Res β) :
    (Except.ok a >>= f) = f a := rfl

@[simp] theorem error_bind {α β : Type} (e : Fault) (f : α → Res β) :
    ((Except.error e : Res α) >>= f) = Except.error e := rfl

@[simp] theorem pure_eq_ok {α : Type} (a : α) : (pure a : Res α) = Except.ok a := rfl

@[simp] theorem idx_nil {α : Type} (i : Nat) :
    idx ([] : List α) i = Except.error Fault.indexOutOfRange := by
  cases i <;> rfl

@[simp] theorem idx_cons_zero {α : Type} (a : α) (l : List α) : idx (a :: l) 0 = Except.ok a := rfl

@[simp] theorem idx_cons_succ {α : Type} (a : α) (l : List α) (n : Nat) :
    idx (a :: l) (n + 1) = idx l n := rfl

theorem idx_append_length {α : Type} (pre : List α) (c : α) (rest : List α) :
    idx (pre ++ c :: rest) pre.length = Except.ok c := by
  induction pre with
  | nil => rfl
  | cons a pre ih => simpa using ih

theorem idx_of_lt {α : Type} (l : List α) (i : Nat) (h : i < l.length) :
    idx l i = Except.ok (l.get ⟨i, h⟩) := by
  induction l generalizing i with
  | nil => simp at h
  | cons a l ih =>
    cases i with
    | zero => rfl
    | succ i => simpa using ih i (by simpa using h)

theorem readUntilLoop_eq (d : Nat) (cat : Bool) (s : Str) :
    ∀ (pre : Str) (k : Nat) (b : Str),
      readUntilLoop (pre ++ s) d cat s.length pre.length k b
        = Except.ok (readRest d cat s pre.length k b) := by
  induction s with
  | nil => intro pre k b; rfl
  | cons c s ih =>
    intro pre k b
    have h1 : pre ++ c :: s = (pre ++ [c]) ++ s := by simp
    have h2 : pre.length + 1 = (pre ++ [c]).length := by simp
    simp only [List.length_cons, readUntilLoop, idx_append_length, ok_bind, readRest]
    split_ifs
    · rfl
    · rw [h1, h2]; exact ih _ _ _
    · rw [h1, h2]; exact ih _ _ _
    · rw [h1, h2]; exact ih _ _ _

/-- The function `readUntil` always returns: its result is a function of the
bytes from the cursor on. -/
theorem readUntil_eq (ua : Str) (index d : Nat) (cat : Bool) :
    readUntil ua index d cat = Except.ok (readRest d cat (ua.drop index) index 0 []) := by
  unfold readUntil
  by_cases h : index ≤ ua.length
  · have h3 := readUntilLoop_eq d cat (ua.drop index) (ua.take index) 0 []
    simp only [List.take_append_drop, List.length_drop, List.length_take,
      Nat.min_eq_left h] at h3
    exact h3
  · have h4 : ua.length - index = 0 := by omega
    have h5 : ua.drop index = [] := List.drop_eq_nil_of_le (by omega)
    rw [h4, h5]; rfl

theorem readRest_snd_gt (d : Nat) (cat : Bool) (s : Str) :
    ∀ (i k : Nat) (b : Str), i < (readRest d cat s i k b).2 := by
  induction s with
  | nil => intro i k b; simp [readRest]
  | cons c s ih =>
    intro i k b
    simp only [readRest]
    split_ifs
    · simp
    · exact Nat.lt_trans (Nat.lt_succ_self i) (ih _ _ _)
    · exact Nat.lt_trans (Nat.lt_succ_self i) (ih _ _ _)
    · exact Nat.lt_trans (Nat.lt_succ_self i) (ih _ _ _)

/-- Reading a comment whose parentheses are closed at depth `k`: the read ends
at the first `)` met at depth 0. -/
theorem readRest_nested (s : Str) :
    ∀ (rest : Str) (i k : Nat) (b : Str),
      (∀ n, n ≤ s.length → (s.take n).count 41 ≤ k + (s.take n).count 40) →
      k + s.count 40 = s.count 41 →
      readRest 41 true (s ++ 41 :: rest) i k b = (b ++ s, i + s.length + 1) := by
  induction s with
  | nil =>
    intro rest i k b _ htot
    have hk : k = 0 := by simpa using htot
    simp [readRest, hk]
  | cons c s ih =>
    intro rest i k b hpre htot
    have hstep : ∀ k2 : Nat,
        (∀ n, n ≤ s.length → (s.take n).count 41 ≤ k2 + (s.take n).count 40) →
        k2 + s.count 40 = s.count 41 →
        readRest 41 true (s ++ 41 :: rest) (i + 1) k2 (b ++ [c])
          = (b ++ c :: s, i + (c :: s).length + 1) := by
      intro k2 h1 h2
      rw [ih rest (i + 1) k2 (b ++ [c]) h1 h2]
      simp; omega
    by_cases hc : c = 41
    · subst hc
      have h1 := hpre 1 (by simp)
      simp at h1
      have hk : k ≠ 0 := by omega
      simp only [List.cons_append, readRest, if_true, if_neg hk]
      apply hstep
      · intro n hn
        have h2 := hpre (n + 1) (by simpa using hn)
        simp at h2
        omega
      · simp at htot; omega
    · by_cases hc2 : c = 40
      · subst hc2
        simp only [List.cons_append, readRest, if_neg hc, true_and, if_true]
        apply hstep
        · intro n hn
          have h2 := hpre (n + 1) (by simpa using hn)
          simp at h2
          omega
        · simp at htot; omega
      · simp only [List.cons_append, readRest, if_neg hc, hc2, and_false, if_false]
        apply hstep
        · intro n hn
          have h2 := hpre (n + 1) (by simpa using hn)
          simp [List.count_cons, hc, hc2] at h2
          omega
        · simp [List.count_cons, hc, hc2] at htot
          omega

theorem readRest_balanced (s rest : Str) (i : Nat) (h : Balanced s) :
    readRest 41 true (s ++ 41 :: rest) i 0 [] = (s, i + s.length + 1) := by
  have := readRest_nested s rest i 0 [] (by simpa using h.1) (by simpa using h.2)
  simpa using this

/-- Claim C2: for a string `s` with balanced parentheses, `readUntil` started at
the first byte of `s` in `pre ++ s ++ ")" ++ rest`, with delimiter `)` and
nested grouping, returns exactly `s` and leaves the cursor one past the
closing `)` that follows `s`. -/
theorem readUntil_balanced_comment (pre s rest : Str) (h : Balanced s) :
    readUntil (pre ++ s ++ bytes ")" ++ rest) pre.length 41 true
      = Except.ok (s, pre.length + s.length + 1) := by
  rw [readUntil_eq]
  have hd : (pre ++ s ++ bytes ")" ++ rest).drop pre.length = s ++ 41 :: rest := by
    have : bytes ")" = [41] := by decide
    simp [this, List.append_assoc]
  rw [hd, readRest_balanced s rest pre.length h]

theorem readUntil_balanced_comment_witness :
    Balanced (bytes "X11; (a (b) c); U") ∧
    readUntil (bytes "Mozilla/5.0 (" ++ bytes "X11; (a (b) c); U" ++ bytes ")" ++ bytes " Gecko")
        (bytes "Mozilla/5.0 (").length 41 true
      = Except.ok (bytes "X11; (a (b) c); U",
          (bytes "Mozilla/5.0 (").length + (bytes "X11; (a (b) c); U").length + 1) :=
  ⟨by decide, readUntil_balanced_comment _ _ _ (by decide)⟩

/-! ## Totality of the tokenizer -/

theorem bytes_slash : bytes "/" = [47] := by decide

theorem bytes_semi : bytes "; " = [59, 32] := by decide

theorem bytes_space : bytes " " = [32] := by decide

theorem parseProduct_eq (product : Str) : parseProduct product = Except.ok (productOf product) := by
  unfold parseProduct productOf
  rw [bytes_slash]
  cases h : Index product [47] with
  | none => simp [SplitN, h]
  | some m => simp [SplitN, h]

theorem drop_eq_cons_idx {α : Type} (l : List α) (j : Nat) (h : j < l.length) :
    l.drop j = l.get ⟨j, h⟩ :: l.drop (j + 1) := by
  simp

theorem parseSection_eq (ua : Str) (index : Nat) :
    parseSection ua index = Except.ok (sectionAt ua index) := by
  unfold parseSection sectionAt
  simp only [readUntil_eq, ok_bind, parseProduct_eq]
  rcases readRest 32 false (ua.drop index) index 0 [] with ⟨buf, j⟩
  rcases productOf buf with ⟨name, version⟩
  by_cases hj : j < ua.length
  · have hd := drop_eq_cons_idx ua j hj
    simp only [hj, if_true, idx_of_lt ua j hj, ok_bind]
    by_cases hc : ua.get ⟨j, hj⟩ = 40
    · rw [hc] at hd
      simp only [hc, if_true, hd]
      rcases readRest 41 true (ua.drop (j + 1)) (j + 1) 0 [] with ⟨buf2, j2⟩
      rfl
    · simp only [hc, if_false, hd]
      split
      · rename_i heq
        exact absurd (List.cons.inj heq).1 hc
      · rfl
  · have hd : ua.drop j = [] := List.drop_eq_nil_of_le (by omega)
    simp only [hj, if_false, hd]
    rfl

theorem sectionAt_snd_gt (ua : Str) (index : Nat) : index < (sectionAt ua index).2 := by
  unfold sectionAt
  have h1 := readRest_snd_gt 32 false (ua.drop index) index 0 []
  simp only
  split
  · have h2 := readRest_snd_gt 41 true (by assumption)
      ((readRest 32 false (ua.drop index) index 0 []).2 + 1) 0 []
    simp only
    omega
  · exact h1

/-- The tokenizer loop never runs out of fuel when the fuel covers the bytes
that are left, and it appends at most one section per byte left. -/
theorem parseLoop_ok (ua : Str) :
    ∀ (fuel index : Nat) (p : UserAgent) (secs : List Section),
      ua.length ≤ fuel + index →
      ∃ q out, parseLoop ua fuel index p secs = Except.ok (q, out) ∧
        out.length ≤ secs.length + (ua.length - index) := by
  intro fuel
  induction fuel with
  | zero =>
    intro index p secs h
    have hi : ¬ index < ua.length := by omega
    refine ⟨p, secs, ?_, by omega⟩
    unfold parseLoop
    simp [hi]
  | succ fuel ih =>
    intro index p secs h
    by_cases hi : index < ua.length
    · have hgt := sectionAt_snd_gt ua index
      unfold parseLoop
      simp only [hi, if_true, parseSection_eq, ok_bind]
      rcases hs : sectionAt ua index with ⟨s, j⟩
      rw [hs] at hgt
      simp only at hgt
      obtain ⟨q, out, h1, h2⟩ := ih j
        (if p.Mobile = false ∧ s.name = bytes "Mobile" then { p with Mobile := true } else p)
        (secs ++ [s]) (by omega)
      refine ⟨q, out, h1, ?_⟩
      simp at h2
      omega
    · refine ⟨p, secs, ?_, by omega⟩
      unfold parseLoop
      simp [hi]

/-- Claim C6: every call of `parseSection` returns with the cursor advanced by
at least one byte, and the tokenizer loop of `Parse`, run with the length of
the input as its bound, terminates with at most as many sections as the input
has bytes. -/
theorem tokenizer_terminates :
    (∀ (ua : Str) (index : Nat), ∃ s j, parseSection ua index = Except.ok (s, j) ∧ index < j) ∧
    (∀ (ua : Str) (p : UserAgent), ∃ q secs,
      parseLoop ua ua.length 0 p [] = Except.ok (q, secs) ∧ secs.length ≤ ua.length) := by
  constructor
  · intro ua index
    exact ⟨(sectionAt ua index).1, (sectionAt ua index).2, parseSection_eq ua index,
      sectionAt_snd_gt ua index⟩
  · intro ua p
    obtain ⟨q, out, h1, h2⟩ := parseLoop_ok ua ua.length 0 p [] (by omega)
    exact ⟨q, out, h1, by simpa using h2⟩

/-! ## Totality of the classifiers -/

theorem returns_ok {α : Type} (a : α) : Returns (Except.ok a : Res α) := ⟨a, rfl⟩

theorem returns_ite {α : Type} (c : Prop) [Decidable c] (a b : Res α)
    (ha : Returns a) (hb : Returns b) : Returns (if c then a else b) := by
  split_ifs <;> assumption

theorem returns_bind {α β : Type} (x : Res α) (f : α → Res β)
    (hx : Returns x) (hf : ∀ a, Returns (f a)) : Returns (x >>= f) := by
  obtain ⟨a, ha⟩ := hx
  rw [ha]
  exact hf a

theorem normalizeOS_ok (name : Str) : Returns (normalizeOS name) := by
  unfold normalizeOS
  by_cases h : (SplitN (bytes " ") name 3).length = 3
  · obtain ⟨a, b, c, habc⟩ := List.length_eq_three.mp h
    simp only [habc, bind_pure_comp, pure_eq_ok]
    simp
    repeat' first | exact returns_ok _ | apply returns_ite
  · simp [h]
    exact returns_ok _

theorem normalizeOS_eq (name : Str) : normalizeOS name = Except.ok (normOS name) := by
  obtain ⟨r, hr⟩ := normalizeOS_ok name
  simp [normOS, hr]

theorem idx_cons_length {α : Type} (l : List α) :
    ∀ a : α, Returns (idx (a :: l) l.length) := by
  induction l with
  | nil => intro a; exact ⟨a, rfl⟩
  | cons b l ih => intro a; simpa using ih b

theorem getPlatform_ok (comment : List Str) : Returns (getPlatform comment) := by
  rcases comment with _ | ⟨c0, rest⟩ <;> simp [getPlatform] <;>
    repeat' first | exact returns_ok _ | apply returns_ite

theorem gecko_ok (p : UserAgent) (comment : List Str) : Returns (gecko p comment) := by
  rcases comment with _ | ⟨c0, _ | ⟨c1, _ | ⟨c2, _ | ⟨c3, rest⟩⟩⟩⟩ <;>
    simp [gecko, normalizeOS_eq] <;>
    repeat' first | exact returns_ok _ | apply returns_ite

theorem trident_ok (p : UserAgent) (comment : List Str) : Returns (trident p comment) := by
  rcases comment with _ | ⟨c0, _ | ⟨c1, _ | ⟨c2, rest⟩⟩⟩ <;>
    simp [trident, normalizeOS_eq] <;>
    repeat' first | exact returns_ok _ | apply returns_ite

theorem opera_ok (p : UserAgent) (comment : List Str) (h : comment ≠ []) :
    Returns (opera p comment) := by
  rcases comment with _ | ⟨c0, _ | ⟨c1, _ | ⟨c2, _ | ⟨c3, rest⟩⟩⟩⟩ <;>
    simp [opera, normalizeOS_eq] at h ⊢ <;>
    repeat' first | exact returns_ok _ | apply returns_ite

theorem dalvik_ok (p : UserAgent) (comment : List Str) (h : comment ≠ []) :
    Returns (dalvik p comment) := by
  rcases comment with _ | ⟨c0, _ | ⟨c1, _ | ⟨c2, rest⟩⟩⟩ <;>
    simp [dalvik] at h ⊢ <;>
    repeat' first | exact returns_ok _ | apply returns_ite

theorem webkit_ok (bot : BotChecks) (p : UserAgent) (comment : List Str)
    (h : p.Platform = bytes "Symbian" → comment ≠ []) :
    Returns (webkit bot p comment) := by
  rcases comment with _ | ⟨c0, _ | ⟨c1, _ | ⟨c2, _ | ⟨c3, rest⟩⟩⟩⟩
  · have h2 : ¬ p.Platform = bytes "Symbian" := fun e => h e rfl
    simp [webkit, h2]
    repeat' first | exact returns_ok _ | apply returns_ite
  all_goals
    simp [webkit, normalizeOS_eq]
    repeat' first | exact returns_ok _ | apply returns_ite

theorem ie11Loop_ok (comment : List Str) : Returns (ie11Loop comment) := by
  induction comment with
  | nil => exact returns_ok _
  | cons c rest ih =>
    unfold ie11Loop
    by_cases h : hasPrefix c (bytes "rv:") = true ∧ c.drop 3 ≠ [] ∧ 10 ∉ c.drop 3
    · simp [ie11FindStringSubmatch, h]
      exact returns_ok _
    · simp only [ie11FindStringSubmatch, h, if_false]
      simpa using ih

theorem hasPrefix_length (s pre : Str) (h : hasPrefix s pre = true) : pre.length ≤ s.length := by
  unfold hasPrefix at h
  exact (List.isPrefixOf_iff_prefix.mp h).length_le

theorem tridentTokenLoop_ok (p : UserAgent) (comment : List Str) :
    Returns (tridentTokenLoop p comment) := by
  induction comment with
  | nil => exact returns_ok _
  | cons v rest ih =>
    unfold tridentTokenLoop
    by_cases h : hasPrefix v (bytes "Trident/") = true
    · have hl : 8 ≤ v.length := hasPrefix_length v _ h
      simp [h, sliceFrom, hl]
      repeat' first | exact returns_ok _ | apply returns_ite
    · simp only [h]
      simpa using ih

theorem returns_map {α β : Type} (x : Res α) (f : α → β) (hx : Returns x) :
    Returns (f <$> x) := by
  obtain ⟨a, ha⟩ := hx
  rw [ha]
  exact ⟨f a, rfl⟩

theorem detectBrowser_ok (p : UserAgent) (sections : List Section) (h : sections ≠ []) :
    Returns (detectBrowser p sections) := by
  rcases sections with _ | ⟨s0, _ | ⟨s1, _ | ⟨s2, _ | ⟨s3, _ | ⟨s4, rest⟩⟩⟩⟩⟩
  · exact absurd rfl h
  · rcases s0 with ⟨name, version, comment⟩
    rcases comment with _ | ⟨c0, _ | ⟨c1, crest⟩⟩
    · simp [detectBrowser]
      repeat' first | exact returns_ok _ | apply returns_ite
    · simp [detectBrowser]
      repeat' first | exact returns_ok _ | apply returns_ite
    · by_cases hm : hasPrefix c1 (bytes "MSIE") = true
      · have hl : 4 ≤ c1.length := hasPrefix_length c1 _ hm
        simp [detectBrowser, hm, sliceFrom, hl]
        repeat' first
          | exact returns_ok _
          | exact tridentTokenLoop_ok _ _
          | apply returns_ite
          | apply returns_bind
          | intro _
      · simp [detectBrowser, hm]
        repeat' first | exact returns_ok _ | apply returns_ite
  all_goals
    simp [detectBrowser]
    repeat' first
      | exact returns_ok _
      | exact idx_cons_length _ _
      | exact ie11Loop_ok _
      | apply returns_ite
      | apply returns_bind
      | apply returns_map
      | intro _
      | split

theorem detectOS_ok (bot : BotChecks) (p : UserAgent) (s : Section) :
    Returns (detectOS bot p s) := by
  rcases s with ⟨name, version, comment⟩
  rcases comment with _ | ⟨c0, rest⟩
  · simp [detectOS, getPlatform]
    repeat' first
      | exact returns_ok _
      | exact gecko_ok _ _
      | exact trident_ok _ _
      | exact webkit_ok _ _ _ (fun h => absurd h (by decide))
      | apply returns_ite
  · simp [detectOS, normalizeOS_eq]
    repeat' first
      | exact returns_ok _
      | exact getPlatform_ok _
      | exact gecko_ok _ _
      | exact trident_ok _ _
      | exact opera_ok _ _ (List.cons_ne_nil _ _)
      | exact dalvik_ok _ _ (List.cons_ne_nil _ _)
      | exact webkit_ok _ _ _ (fun _ => List.cons_ne_nil _ _)
      | apply returns_ite
      | apply returns_bind
      | apply returns_map
      | intro _

/-- Claim C1: for every input string and whatever the bot checks do, `Parse`
returns a record: no section sequence, comment or string is accessed out of
range (and the tokenizer loop does not run out of fuel). -/
theorem Parse_never_out_of_range (bot : BotChecks) (p : UserAgent) (ua : Str) :
    ∃ r, Parse bot p ua = Except.ok r := by
  unfold Parse
  obtain ⟨q, secs, hq, _⟩ := parseLoop_ok ua ua.length 0
    { initializeRecord p with ua := ua } [] (by omega)
  simp only [hq, ok_bind]
  rcases secs with _ | ⟨s0, rest⟩
  · simp
  · have h1 := detectBrowser_ok
      (if s0.name = bytes "Mozilla" then { q with Mozilla := s0.version } else q)
      (s0 :: rest) (List.cons_ne_nil _ _)
    obtain ⟨q1, hq1⟩ := h1
    obtain ⟨q2, hq2⟩ := detectOS_ok bot q1 s0
    simp only [List.length_cons, idx_cons_zero, ok_bind, hq1, hq2]
    simp
    split_ifs <;> simp

/-! ## Empty input and runs of spaces -/

theorem sectionAt_spaces (m i : Nat) (h : i < m) :
    sectionAt (List.replicate m 32) i = (⟨[], [], []⟩, i + 1) := by
  unfold sectionAt
  obtain ⟨k, hk⟩ : ∃ k, m - i = k + 1 := ⟨m - i - 1, by omega⟩
  have h1 : (List.replicate m 32).drop i = 32 :: List.replicate k 32 := by
    rw [List.drop_replicate, hk, List.replicate_succ]
  have h2 : (List.replicate m 32).drop (i + 1) = List.replicate k 32 := by
    rw [List.drop_replicate]
    congr 1
    omega
  simp only [h1, readRest, if_true, h2]
  cases k with
  | zero => rfl
  | succ k => rfl

theorem parseLoop_spaces (m : Nat) (p : UserAgent) :
    ∀ (fuel i : Nat) (secs : List Section), i ≤ m → m ≤ fuel + i →
      parseLoop (List.replicate m 32) fuel i p secs
        = Except.ok (p, secs ++ List.replicate (m - i) ⟨[], [], []⟩) := by
  intro fuel
  induction fuel with
  | zero =>
    intro i secs h1 h2
    have : m - i = 0 := by omega
    unfold parseLoop
    simp [this]
    omega
  | succ fuel ih =>
    intro i secs h1 h2
    unfold parseLoop
    by_cases hi : i < m
    · have hne : ¬ (([] : Str) = bytes "Mobile") := by decide
      simp only [List.length_replicate, hi, if_true, parseSection_eq, ok_bind,
        sectionAt_spaces m i hi, hne, and_false, if_false]
      rw [ih (i + 1) _ (by omega) (by omega)]
      have : m - i = (m - (i + 1)) + 1 := by omega
      rw [this, List.replicate_succ]
      simp
    · have : m - i = 0 := by omega
      simp [hi, this]

theorem detectBrowser_blank (p : UserAgent) (n : Nat)
    (hp : p.Browser = ⟨[], [], [], []⟩) :
    detectBrowser p (List.replicate (n + 1) ⟨[], [], []⟩) = Except.ok p := by
  have h1 : ¬ (([] : Str) = bytes "Opera") := by decide
  have h2 : ¬ (([] : Str) = bytes "Dalvik") := by decide
  have h3 : ¬ (([] : Str) = bytes "AppleWebKit") := by decide
  have h4 : ¬ (([] : Str) = bytes "Gecko") := by decide
  have h5 : ¬ (([] : Str) = bytes "like") := by decide
  rcases p with ⟨ua, mz, pl, os, lo, br, bo, mo, un⟩
  simp only at hp
  subst hp
  rcases n with _ | _ | _ | _ | n <;>
    simp [List.replicate_succ, detectBrowser, h1, h2, h3, h4, h5]

theorem detectOS_blank (bot : BotChecks) (p : UserAgent) :
    detectOS bot p ⟨[], [], []⟩ = Except.ok { p with Undecided := true } := by
  have h1 : ¬ (([] : Str) = bytes "Mozilla") := by decide
  have h2 : ¬ (([] : Str) = bytes "Opera") := by decide
  have h3 : ¬ (([] : Str) = bytes "Dalvik") := by decide
  simp [detectOS, h1, h2, h3]

/-- Claim C5, as amended: for the empty input the tokenizer yields no section
and `Parse` leaves every field at its default.  An input of `n + 1` spaces
yields `n + 1` sections with empty name, empty version and no comment, so the
classifiers do run: `detectBrowser` changes nothing, `detectOS` sets
`Undecided`, and the record is handed to `checkBot`. -/
theorem Parse_empty_and_spaces (bot : BotChecks) (p : UserAgent) (n : Nat) :
    tokenize [] = Except.ok [] ∧
    Parse bot p [] = Except.ok zeroUserAgent ∧
    tokenize (List.replicate (n + 1) 32) = Except.ok (List.replicate (n + 1) ⟨[], [], []⟩) ∧
    Parse bot p (List.replicate (n + 1) 32)
      = Except.ok (bot.checkBot
          { zeroUserAgent with ua := List.replicate (n + 1) 32, Undecided := true }
          (List.replicate (n + 1) ⟨[], [], []⟩)) := by
  refine ⟨by decide, ?_, ?_, ?_⟩
  · simp [Parse, parseLoop, initializeRecord, zeroUserAgent]
  · unfold tokenize
    rw [List.length_replicate, parseLoop_spaces (n + 1) _ (n + 1) 0 [] (by omega) (by omega)]
    simp [Except.map]
  · have h1 : ¬ (([] : Str) = bytes "Mozilla") := by decide
    simp only [Parse, List.length_replicate,
      parseLoop_spaces (n + 1) _ (n + 1) 0 [] (Nat.zero_le _) (Nat.le_refl _)]
    have hidx : idx (List.replicate (n + 1) (⟨[], [], []⟩ : Section)) 0
        = Except.ok ⟨[], [], []⟩ := by simp [List.replicate_succ]
    simp only [ok_bind, List.nil_append, Nat.sub_zero, List.length_replicate, hidx, h1,
      if_false]
    rw [detectBrowser_blank _ n (by simp [initializeRecord])]
    simp [detectOS_blank, initializeRecord, zeroUserAgent]

/-- Claim C5 fails for an input of spaces: a single space yields one (empty)
section, and with bot checks that change nothing the record has `Undecided`
set. -/
theorem spaces_yield_sections :
    tokenize (bytes " ") = Except.ok [⟨[], [], []⟩] ∧
    (∀ c ∈ bytes " ", c = 32) ∧
    Parse noBot zeroUserAgent (bytes " ")
      = Except.ok { zeroUserAgent with ua := bytes " ", Undecided := true } := by
  decide

/-! ## `normalizeOS` -/

theorem Index_nil_single (d : Nat) : Index [] [d] = none := by
  simp [Index, List.isPrefixOf]

theorem Index_cons_single (c d : Nat) (s : Str) :
    Index (c :: s) [d] = if c = d then some 0 else (Index s [d]).map (· + 1) := by
  by_cases h : c = d
  · simp [Index, List.isPrefixOf, h]
  · have h2 : ¬ d = c := fun e => h e.symm
    simp [Index, List.isPrefixOf, h, h2]

theorem Index_single_of_not_mem (d : Nat) (x r : Str) (h : d ∉ x) :
    Index (x ++ d :: r) [d] = some x.length := by
  induction x with
  | nil => simp [Index_cons_single]
  | cons c x ih =>
    have hc : ¬ c = d := fun e => h (by simp [e])
    have hx : d ∉ x := fun e => h (by simp [e])
    simp [Index_cons_single, hc, ih hx]

theorem Index_single_none_of_not_mem (d : Nat) (x : Str) (h : d ∉ x) :
    Index x [d] = none := by
  induction x with
  | nil => exact Index_nil_single d
  | cons c x ih =>
    have hc : ¬ c = d := fun e => h (by simp [e])
    have hx : d ∉ x := fun e => h (by simp [e])
    simp [Index_cons_single, hc, ih hx]

theorem Index_single_some (d : Nat) (s : Str) :
    ∀ m, Index s [d] = some m → d ∉ s.take m ∧ s = s.take m ++ d :: s.drop (m + 1) := by
  induction s with
  | nil => intro m h; simp [Index_nil_single] at h
  | cons c s ih =>
    intro m h
    rw [Index_cons_single] at h
    by_cases hc : c = d
    · simp [hc] at h
      subst h
      simp [hc]
    · simp only [hc, if_false, Option.map_eq_some'] at h
      obtain ⟨m2, h2, h3⟩ := h
      subst h3
      obtain ⟨h4, h5⟩ := ih m2 h2
      refine ⟨?_, ?_⟩
      · simp only [List.take_succ_cons, List.mem_cons, not_or]
        exact ⟨fun e => hc e.symm, h4⟩
      · simp only [List.take_succ_cons, List.drop_succ_cons, List.cons_append]
        rw [← h5]

theorem ntSwitch_eq (c name : Str) :
    (if c = bytes "5.0" then (Except.ok (bytes "Windows 2000") : Res Str)
      else if c = bytes "5.01" then Except.ok (bytes "Windows 2000, Service Pack 1 (SP1)")
      else if c = bytes "5.1" then Except.ok (bytes "Windows XP")
      else if c = bytes "5.2" then Except.ok (bytes "Windows XP x64 Edition")
      else if c = bytes "6.0" then Except.ok (bytes "Windows Vista")
      else if c = bytes "6.1" then Except.ok (bytes "Windows 7")
      else if c = bytes "6.2" then Except.ok (bytes "Windows 8")
      else if c = bytes "6.3" then Except.ok (bytes "Windows 8.1")
      else if c = bytes "10.0" then Except.ok (bytes "Windows 10")
      else Except.ok name) = Except.ok ((ntTable.lookup c).getD name) := by
  by_cases h1 : c = bytes "5.0"
  · subst h1; rfl
  by_cases h2 : c = bytes "5.01"
  · subst h2; rfl
  by_cases h3 : c = bytes "5.1"
  · subst h3; rfl
  by_cases h4 : c = bytes "5.2"
  · subst h4; rfl
  by_cases h5 : c = bytes "6.0"
  · subst h5; rfl
  by_cases h6 : c = bytes "6.1"
  · subst h6; rfl
  by_cases h7 : c = bytes "6.2"
  · subst h7; rfl
  by_cases h8 : c = bytes "6.3"
  · subst h8; rfl
  by_cases h9 : c = bytes "10.0"
  · subst h9; rfl
  have e1 : (c == bytes "5.0") = false := by simpa using h1
  have e2 : (c == bytes "5.01") = false := by simpa using h2
  have e3 : (c == bytes "5.1") = false := by simpa using h3
  have e4 : (c == bytes "5.2") = false := by simpa using h4
  have e5 : (c == bytes "6.0") = false := by simpa using h5
  have e6 : (c == bytes "6.1") = false := by simpa using h6
  have e7 : (c == bytes "6.2") = false := by simpa using h7
  have e8 : (c == bytes "6.3") = false := by simpa using h8
  have e9 : (c == bytes "10.0") = false := by simpa using h9
  simp only [h1, h2, h3, h4, h5, h6, h7, h8, h9, if_false, ntTable, List.lookup,
    e1, e2, e3, e4, e5, e6, e7, e8, e9, Option.getD]

theorem normalizeOS_of_split (name a b c : Str)
    (h : SplitN (bytes " ") name 3 = [a, b, c]) :
    normalizeOS name
      = Except.ok (if b = bytes "NT" then (ntTable.lookup c).getD name else name) := by
  unfold normalizeOS
  simp only [h, List.length_cons, List.length_nil, ne_eq, not_true, if_false, idx_cons_succ,
    idx_cons_zero, ok_bind, pure_eq_ok, ite_not, Nat.reduceAdd]
  by_cases hb : b = bytes "NT"
  · simp only [hb, if_true]
    exact ntSwitch_eq c name
  · simp only [hb, if_false]

theorem normalizeOS_of_not_split (name : Str)
    (h : (SplitN (bytes " ") name 3).length ≠ 3) : normalizeOS name = Except.ok name := by
  unfold normalizeOS
  simp [h]

theorem lookup_mem {α β : Type} [BEq α] [LawfulBEq α] (l : List (α × β)) (k : α) (v : β)
    (h : l.lookup k = some v) : (k, v) ∈ l := by
  induction l with
  | nil => simp [List.lookup] at h
  | cons kv l ih =>
    rcases kv with ⟨k2, v2⟩
    simp only [List.lookup] at h
    by_cases hk : (k == k2) = true
    · simp only [hk, Option.some.injEq] at h
      have : k = k2 := by simpa using hk
      simp [this, h]
    · have hk2 : (k == k2) = false := by simpa using hk
      simp only [hk2] at h
      exact List.mem_cons_of_mem _ (ih h)

theorem normalizeOS_table (x v m : Str) (hx : 32 ∉ x) (hm : (v, m) ∈ ntTable) :
    normalizeOS (x ++ bytes " NT " ++ v) = Except.ok m := by
  have hsp : SplitN (bytes " ") (x ++ bytes " NT " ++ v) 3 = [x, bytes "NT", v] := by
    have e : x ++ bytes " NT " ++ v = x ++ 32 :: (78 :: 84 :: 32 :: v) := by
      have : bytes " NT " = [32, 78, 84, 32] := by decide
      simp [this]
    have e2 : Index (78 :: 84 :: 32 :: v) [32] = some 2 := by
      simp [Index_cons_single]
    rw [e, bytes_space]
    simp only [SplitN, Index_single_of_not_mem 32 x _ hx, List.take_left', List.length_singleton,
      List.drop_left', e2]
    have : bytes "NT" = [78, 84] := by decide
    simp [this, e2]
  rw [normalizeOS_of_split _ _ _ _ hsp]
  simp only [if_true]
  simp only [ntTable, List.mem_cons, Prod.mk.injEq, List.mem_singleton, List.not_mem_nil,
    or_false] at hm
  rcases hm with h | h | h | h | h | h | h | h | h <;>
    (obtain ⟨h1, h2⟩ := h; subst h1; subst h2; rfl)

theorem splitN3_shape (name a b c : Str) (h : SplitN (bytes " ") name 3 = [a, b, c]) :
    32 ∉ a ∧ name = a ++ bytes " " ++ b ++ bytes " " ++ c := by
  rw [bytes_space] at h ⊢
  simp only [SplitN] at h
  cases h1 : Index name [32] with
  | none => simp [h1] at h
  | some m =>
    simp only [h1, List.length_singleton] at h
    cases h2 : Index (name.drop (m + 1)) [32] with
    | none => simp [h2] at h
    | some m2 =>
      simp only [h2, List.cons.injEq, and_true] at h
      obtain ⟨ha, hb, hc⟩ := h
      obtain ⟨h3, h4⟩ := Index_single_some 32 name m h1
      obtain ⟨_, h6⟩ := Index_single_some 32 _ m2 h2
      rw [ha] at h3 h4
      rw [hb, hc] at h6
      refine ⟨h3, ?_⟩
      rw [h4]
      conv_lhs => rw [h6]
      simp

/-- Claim C7: `normalizeOS` rewrites exactly the strings `x ++ " NT " ++ v`
with no space in `x` and `v` a version of the table, to the marketing name of
`v`, whatever `x` is; every other string is returned unchanged.  In particular
`Windows NT 6.1` becomes `Windows 7` and `Windows NT 6.1.1` is unchanged. -/
theorem normalizeOS_spec :
    (∀ x v m : Str, 32 ∉ x → (v, m) ∈ ntTable →
      normalizeOS (x ++ bytes " NT " ++ v) = Except.ok m) ∧
    (∀ name : Str,
      (¬ ∃ x v m : Str, 32 ∉ x ∧ (v, m) ∈ ntTable ∧ name = x ++ bytes " NT " ++ v) →
      normalizeOS name = Except.ok name) ∧
    normalizeOS (bytes "Windows NT 6.1") = Except.ok (bytes "Windows 7") ∧
    normalizeOS (bytes "Windows NT 6.1.1") = Except.ok (bytes "Windows NT 6.1.1") := by
  refine ⟨normalizeOS_table, ?_, by decide, by decide⟩
  intro name hno
  by_cases hlen : (SplitN (bytes " ") name 3).length = 3
  · obtain ⟨a, b, c, habc⟩ := List.length_eq_three.mp hlen
    rw [normalizeOS_of_split _ _ _ _ habc]
    by_cases hb : b = bytes "NT"
    · simp only [hb, if_true]
      cases hl : ntTable.lookup c with
      | none => rfl
      | some m =>
        exfalso
        apply hno
        obtain ⟨h1, h2⟩ := splitN3_shape name a b c habc
        refine ⟨a, c, m, h1, ?_, ?_⟩
        · exact lookup_mem _ _ _ hl
        · rw [h2, hb]
          have e1 : bytes " NT " = [32, 78, 84, 32] := by decide
          have e2 : bytes "NT" = [78, 84] := by decide
          simp [e1, e2, bytes_space]
    · simp only [hb, if_false]
  · exact normalizeOS_of_not_split name hlen

/-! ## `OSInfo` -/

theorem Index_none_of_head (c : Nat) (pt s : Str) (h : c ∉ s) : Index s (c :: pt) = none := by
  induction s with
  | nil => simp [Index, List.isPrefixOf]
  | cons a s ih =>
    have ha : ¬ c = a := fun e => h (by simp [e])
    have hs : c ∉ s := fun e => h (by simp [e])
    simp [Index, List.isPrefixOf, ha, ih hs]

theorem Index_single_none (d : Nat) (s : Str) (h : Index s [d] = none) : d ∉ s := by
  induction s with
  | nil => simp
  | cons c s ih =>
    rw [Index_cons_single] at h
    by_cases hc : c = d
    · simp [hc] at h
    · simp only [hc, if_false, Option.map_eq_none'] at h
      simp only [List.mem_cons, not_or]
      exact ⟨fun e => hc e.symm, ih h⟩

theorem SplitN_cons_sep (d : Nat) (x r : Str) (n : Nat) (h : d ∉ x) :
    SplitN [d] (x ++ d :: r) (n + 2) = x :: SplitN [d] r (n + 1) := by
  simp [SplitN, Index_single_of_not_mem d x r h]

theorem SplitN_no_sep (d : Nat) (x : Str) (n : Nat) (h : d ∉ x) :
    SplitN [d] x (n + 1) = [x] := by
  cases n with
  | zero => simp [SplitN]
  | succ n => simp [SplitN, Index_single_none_of_not_mem d x h]

theorem map_underscore_id (l : Str) (h : 95 ∉ l) :
    l.map (fun c => if c = 95 then 46 else c) = l := by
  induction l with
  | nil => rfl
  | cons a l ih =>
    have ha : ¬ a = 95 := fun e => h (by simp [e])
    have hl : 95 ∉ l := fun e => h (by simp [e])
    simp [ha, ih hl]

/-- Underscores replaced by periods, byte by byte. -/
theorem ReplaceN_underscore (n : Nat) :
    ∀ v : Str, v.length ≤ n →
      ReplaceN [95] [46] n v = v.map (fun c => if c = 95 then 46 else c) := by
  induction n with
  | zero =>
    intro v hv
    have : v = [] := List.length_eq_zero.mp (by omega)
    subst this
    rfl
  | succ n ih =>
    intro v hv
    simp only [ReplaceN]
    cases h : Index v [95] with
    | none =>
      have hm := Index_single_none 95 v h
      simp only
      exact (map_underscore_id v hm).symm
    | some m =>
      obtain ⟨h1, h2⟩ := Index_single_some 95 v m h
      have hlen : (v.drop (m + 1)).length ≤ n := by
        have := congrArg List.length h2
        simp at this
        simp
        omega
      simp only [List.length_singleton]
      rw [ih _ hlen]
      conv_rhs => rw [h2]
      simp only [List.map_append, List.map_cons, if_true, List.append_assoc, List.singleton_append]
      rw [map_underscore_id _ h1]

theorem dropWhile_head_ne (s : Str) (a : Nat) (t : Str) (hs : s = a :: t) (ha : a ≠ 32) :
    s.dropWhile (· == 32) = s := by
  subst hs
  have : (a == 32) = false := by simpa using ha
  simp [List.dropWhile, this]

theorem TrimSpaces_id (s : Str) (a b : Nat) (t u : Str) (hs : s = a :: t) (ha : a ≠ 32)
    (hr : s.reverse = b :: u) (hb : b ≠ 32) : TrimSpaces s = s := by
  unfold TrimSpaces
  rw [dropWhile_head_ne s a t hs ha, dropWhile_head_ne s.reverse b u hr hb, List.reverse_reverse]

theorem osName_intel_mac (v : Str) (h1 : 120 ∉ v) (h2 : 105 ∉ v) (h3 : v ≠ bytes "X") :
    osName [bytes "Intel", bytes "Mac", bytes "OS", bytes "X", v]
      = Except.ok (bytes "Mac OS X", v) := by
  have e1 : Contains v (bytes "x86") = false := by
    have : bytes "x86" = 120 :: [56, 54] := by decide
    simp [Contains, this, Index_none_of_head 120 _ v h1]
  have e2 : Contains v (bytes "i686") = false := by
    have : bytes "i686" = 105 :: [54, 56, 54] := by decide
    simp [Contains, this, Index_none_of_head 105 _ v h2]
  have e3 : Join [bytes "Mac", bytes "OS", bytes "X"] (bytes " ") = bytes "Mac OS X" := by decide
  simp [osName, sliceTo, sliceFrom, e1, e2, e3, h3]

/-- Claim C8: for a non-empty version `v` of decimal digits and underscores, a
record whose `Os` is `Intel Mac OS X ` followed by `v` has an `OSInfo` with
that `Os` as `FullName`, the name `Mac OS X` and the version `v` with every
underscore replaced by a period. -/
theorem OSInfo_intel_mac (p : UserAgent) (v : Str) (hv : v ≠ [])
    (hd : ∀ c ∈ v, (48 ≤ c ∧ c ≤ 57) ∨ c = 95)
    (hos : p.Os = bytes "Intel Mac OS X " ++ v) :
    p.OSInfo = Except.ok
      { FullName := bytes "Intel Mac OS X " ++ v,
        Name := bytes "Mac OS X",
        Version := v.map (fun c => if c = 95 then 46 else c) } := by
  have hnot : ∀ c : Nat, ¬ ((48 ≤ c ∧ c ≤ 57) ∨ c = 95) → c ∉ v := fun c hc hm => hc (hd c hm)
  have h32 : 32 ∉ v := hnot 32 (by omega)
  have h108 : 108 ∉ v := hnot 108 (by omega)
  have h67 : 67 ∉ v := hnot 67 (by omega)
  have h120 : 120 ∉ v := hnot 120 (by omega)
  have h105 : 105 ∉ v := hnot 105 (by omega)
  have h88 : 88 ∉ v := hnot 88 (by omega)
  have hX : v ≠ bytes "X" := by
    intro e
    apply h88
    rw [e]
    decide
  have eos : bytes "Intel Mac OS X " ++ v
      = 73 :: 110 :: 116 :: 101 :: 108 :: 32 :: 77 :: 97 :: 99 :: 32 :: 79 :: 83 :: 32 :: 88 :: 32 :: v := by
    have : bytes "Intel Mac OS X " = [73, 110, 116, 101, 108, 32, 77, 97, 99, 32, 79, 83, 32, 88, 32] := by
      decide
    rw [this]; rfl
  have el : Index (bytes "Intel Mac OS X " ++ v) (bytes "like Mac OS X") = none := by
    have : bytes "like Mac OS X" = 108 :: [105, 107, 101, 32, 77, 97, 99, 32, 79, 83, 32, 88] := by
      decide
    rw [eos, this]
    simp [Index, List.isPrefixOf, Index_none_of_head 108 _ v h108]
  have ec : Index (bytes "Intel Mac OS X " ++ v) (bytes "CPU") = none := by
    have : bytes "CPU" = 67 :: [80, 85] := by decide
    rw [eos, this]
    simp [Index, List.isPrefixOf, Index_none_of_head 67 _ v h67]
  have etrim : TrimSpaces (bytes "Intel Mac OS X " ++ v) = bytes "Intel Mac OS X " ++ v := by
    obtain ⟨b, u, hb⟩ : ∃ b u, v.reverse = b :: u := by
      cases hr : v.reverse with
      | nil => exact absurd (List.reverse_eq_nil_iff.mp hr) hv
      | cons b u => exact ⟨b, u, rfl⟩
    have hbm : b ∈ v := by
      have : b ∈ v.reverse := by rw [hb]; simp
      simpa using this
    have hb32 : b ≠ 32 := fun e => h32 (e ▸ hbm)
    refine TrimSpaces_id _ 73 b _ (u ++ (bytes "Intel Mac OS X ").reverse) eos (by decide) ?_ hb32
    rw [List.reverse_append, hb]
    rfl
  have esplit : Split (bytes "Intel Mac OS X " ++ v) (bytes " ")
      = [bytes "Intel", bytes "Mac", bytes "OS", bytes "X", v] := by
    unfold Split
    rw [bytes_space, eos]
    have a1 : (32 : Nat) ∉ [73, 110, 116, 101, 108] := by decide
    have a2 : (32 : Nat) ∉ [77, 97, 99] := by decide
    have a3 : (32 : Nat) ∉ [79, 83] := by decide
    have a4 : (32 : Nat) ∉ [88] := by decide
    have s1 := SplitN_cons_sep 32 [73, 110, 116, 101, 108]
      (77 :: 97 :: 99 :: 32 :: 79 :: 83 :: 32 :: 88 :: 32 :: v) (v.length + 14) a1
    have s2 := SplitN_cons_sep 32 [77, 97, 99] (79 :: 83 :: 32 :: 88 :: 32 :: v) (v.length + 13) a2
    have s3 := SplitN_cons_sep 32 [79, 83] (88 :: 32 :: v) (v.length + 12) a3
    have s4 := SplitN_cons_sep 32 [88] v (v.length + 11) a4
    have s5 := SplitN_no_sep 32 v (v.length + 11) h32
    simp only [List.cons_append, List.nil_append] at s1 s2 s3 s4
    simp only [List.length_cons]
    rw [s1, s2, s3, s4, s5]
    rfl
  have ene : ¬ (bytes "Intel Mac OS X " ++ v = bytes "Windows XP x64 Edition") := by
    rw [eos]
    have : bytes "Windows XP x64 Edition" = 87 :: (bytes "indows XP x64 Edition") := by decide
    rw [this]
    simp
  have eslash : Contains (bytes "Mac OS X") (bytes "/") = false := by decide
  have erep : ReplaceAll v (bytes "_") (bytes ".") = v.map (fun c => if c = 95 then 46 else c) := by
    have u1 : bytes "_" = [95] := by decide
    have u2 : bytes "." = [46] := by decide
    unfold ReplaceAll
    rw [u1, u2]
    exact ReplaceN_underscore v.length v (Nat.le_refl _)
  simp only [UserAgent.OSInfo, hos, ReplaceN, el, ec, etrim, esplit, ene, if_false, pure_eq_ok,
    ok_bind, osName_intel_mac v h120 h105 hX, eslash, Bool.false_eq_true, erep]

theorem OSInfo_intel_mac_witness :
    bytes "10_6_8" ≠ [] ∧
    (∀ c ∈ bytes "10_6_8", (48 ≤ c ∧ c ≤ 57) ∨ c = 95) ∧
    (UserAgent.OSInfo { zeroUserAgent with Os := bytes "Intel Mac OS X " ++ bytes "10_6_8" })
      = Except.ok
        { FullName := bytes "Intel Mac OS X " ++ bytes "10_6_8",
          Name := bytes "Mac OS X",
          Version := (bytes "10_6_8").map (fun c => if c = 95 then 46 else c) } :=
  ⟨by decide, by decide, OSInfo_intel_mac _ (bytes "10_6_8") (by decide) (by decide) rfl⟩

/-! ## `Parse` as tokenizer followed by classification -/

theorem Parse_eq_classify (bot : BotChecks) (p : UserAgent) (ua : Str) :
    Parse bot p ua
      = parseLoop ua ua.length 0 { zeroUserAgent with ua := ua } [] >>=
          fun r => classify bot r.1 r.2 := rfl

theorem parseLoop_record (ua : Str) :
    ∀ (fuel index : Nat) (p q : UserAgent) (acc out : List Section),
      parseLoop ua fuel index p acc = Except.ok (q, out) →
      ∃ new, out = acc ++ new ∧
        q = { p with Mobile := p.Mobile || hasMobileSection new } := by
  intro fuel
  induction fuel with
  | zero =>
    intro index p q acc out h
    unfold parseLoop at h
    by_cases hi : index < ua.length
    · simp [hi] at h
    · simp [hi] at h
      refine ⟨[], by simp [h.2], ?_⟩
      simp [hasMobileSection, h.1]
  | succ fuel ih =>
    intro index p q acc out h
    unfold parseLoop at h
    by_cases hi : index < ua.length
    · simp only [hi, if_true, parseSection_eq, ok_bind] at h
      obtain ⟨new, h1, h2⟩ := ih _ _ _ _ _ h
      refine ⟨(sectionAt ua index).1 :: new, by simp [h1], ?_⟩
      rw [h2]
      by_cases hm : (sectionAt ua index).1.name = bytes "Mobile"
      · cases hpm : p.Mobile <;> simp [hasMobileSection, hm, hpm]
      · cases hpm : p.Mobile <;> simp [hasMobileSection, hm, hpm]
    · simp [hi] at h
      refine ⟨[], by simp [h.2], ?_⟩
      simp [hasMobileSection, h.1]

/-- The record and the sections `Parse` classifies, in terms of `tokenize`. -/
theorem Parse_of_tokenize (bot : BotChecks) (p : UserAgent) (ua : Str) (secs : List Section)
    (h : tokenize ua = Except.ok secs) :
    Parse bot p ua
      = classify bot { zeroUserAgent with ua := ua, Mobile := hasMobileSection secs } secs := by
  rw [Parse_eq_classify]
  unfold tokenize at h
  have e : ({ initializeRecord zeroUserAgent with ua := ua } : UserAgent)
      = { zeroUserAgent with ua := ua } := rfl
  rw [e] at h
  cases hl : parseLoop ua ua.length 0 { zeroUserAgent with ua := ua } [] with
  | error e => simp [hl, Except.map] at h
  | ok r =>
    rcases r with ⟨q, out⟩
    simp only [hl, Except.map, Except.ok.injEq] at h
    subst h
    obtain ⟨new, h1, h2⟩ := parseLoop_record ua _ _ _ _ _ _ hl
    simp only [List.nil_append] at h1
    subst h1
    simp only [ok_bind, h2]
    rfl

theorem idx_getLast? {α : Type} (l : List α) (x : α) (h : l.getLast? = some x) :
    idx l (l.length - 1) = Except.ok x := by
  induction l with
  | nil => simp at h
  | cons a l ih =>
    cases l with
    | nil =>
      simp at h
      simp [h]
    | cons b l =>
      rw [List.getLast?_cons_cons] at h
      have := ih h
      simpa using this

theorem hasPrefix_windows (c0 : Str) (h : hasPrefix c0 (bytes "Windows NT") = true) :
    hasPrefix c0 (bytes "Windows") = true ∧ c0 ≠ bytes "compatible" := by
  unfold hasPrefix at h ⊢
  rw [List.isPrefixOf_iff_prefix] at h ⊢
  constructor
  · exact List.IsPrefix.trans (by decide) h
  · intro e
    rw [e] at h
    revert h
    decide

/-- Claim C9: a header of at least three sections, the first named `Mozilla`
with a first comment token starting with `Windows NT`, the second named
`AppleWebKit`, the third named `Chrome` with a non-empty version, the last
named neither `Edge` nor `OPR`, is parsed as Chrome on AppleWebKit, platform
Windows, with the normalized first comment token as operating system; the
result is the same whatever the bot checks are.  The Chrome 41 header of the
specification gives `Windows 7`. -/
theorem Parse_chrome_on_windows (bot : BotChecks) (p : UserAgent) (ua : Str)
    (s0 s1 s2 last : Section) (rest : List Section) (c0 : Str) (crest : List Str)
    (htok : tokenize ua = Except.ok (s0 :: s1 :: s2 :: rest))
    (h0 : s0.name = bytes "Mozilla") (hc : s0.comment = c0 :: crest)
    (hw : hasPrefix c0 (bytes "Windows NT") = true)
    (h1 : s1.name = bytes "AppleWebKit")
    (h2 : s2.name = bytes "Chrome") (h2v : s2.version ≠ [])
    (hl : (s0 :: s1 :: s2 :: rest).getLast? = some last)
    (hle : last.name ≠ bytes "Edge") (hlo : last.name ≠ bytes "OPR") :
    (∃ r, Parse bot p ua = Except.ok r ∧
      r.Browser.Name = bytes "Chrome" ∧ r.Browser.Engine = bytes "AppleWebKit" ∧
      r.Platform = bytes "Windows" ∧ normalizeOS c0 = Except.ok r.Os ∧
      ∀ bot2 : BotChecks, Parse bot2 p ua = Except.ok r) ∧
    (∃ r, Parse bot p (bytes "Mozilla/5.0 (Windows NT 6.1; WOW64) AppleWebKit/537.36 (KHTML, like Gecko) Chrome/41.0.2228.0 Safari/537.36") = Except.ok r ∧
      r.Browser.Name = bytes "Chrome" ∧ r.Browser.Engine = bytes "AppleWebKit" ∧
      r.Platform = bytes "Windows" ∧ r.Os = bytes "Windows 7") := by
  obtain ⟨hw1, hw2⟩ := hasPrefix_windows c0 hw
  have hlast := idx_getLast? _ _ hl
  simp only [List.length_cons] at hlast
  have key : ∀ b : BotChecks, ∃ r, Parse b p ua = Except.ok r ∧
      r.Browser.Name = bytes "Chrome" ∧ r.Browser.Engine = bytes "AppleWebKit" ∧
      r.Platform = bytes "Windows" ∧ normalizeOS c0 = Except.ok r.Os ∧
      r = { ua := ua, Mozilla := s0.version, Platform := bytes "Windows", Os := normOS c0,
            Localization := (crest.get? 2).getD [],
            Browser := ⟨bytes "AppleWebKit", s1.version, bytes "Chrome", s2.version⟩,
            Bot := false, Mobile := hasMobileSection (s0 :: s1 :: s2 :: rest),
            Undecided := false } := by
    intro b
    rw [Parse_of_tokenize b p ua _ htok]
    rcases s0 with ⟨n0, v0, cm0⟩
    rcases s1 with ⟨n1, v1, cm1⟩
    rcases s2 with ⟨n2, v2, cm2⟩
    simp only at h0 hc h1 h2 h2v
    subst h0 hc h1 h2
    have hdb : ∀ q : UserAgent, detectBrowser q
        (⟨bytes "Mozilla", v0, c0 :: crest⟩ :: ⟨bytes "AppleWebKit", v1, cm1⟩ ::
          ⟨bytes "Chrome", v2, cm2⟩ :: rest)
        = Except.ok { q with Browser := ⟨bytes "AppleWebKit", v1, bytes "Chrome", v2⟩ } := by
      intro q
      have e1 : ¬ bytes "Mozilla" = bytes "Opera" := by decide
      have e2 : ¬ bytes "Mozilla" = bytes "Dalvik" := by decide
      simp only [detectBrowser, List.length_cons, idx_cons_zero, idx_cons_succ, ok_bind, e1, e2,
        if_false, h2v, false_and, hlast, hle, hlo, pure_eq_ok, if_true]
      simp
    have e3 : ¬ bytes "AppleWebKit" = ([] : Str) := by decide
    have e4 : ¬ bytes "AppleWebKit" = bytes "Gecko" := by decide
    have e5 : ¬ bytes "Windows" = bytes "webOS" := by decide
    have e6 : ¬ bytes "Windows" = bytes "Symbian" := by decide
    have e7 : ¬ bytes "Windows" = bytes "Linux" := by decide
    have e8 : ¬ bytes "Windows" = bytes "BlackBerry" := by decide
    simp only [classify, List.length_cons, idx_cons_zero, ok_bind, if_true, hdb]
    rcases crest with _ | ⟨c1, _ | ⟨c2, _ | ⟨c3, cr⟩⟩⟩ <;>
      simp [detectOS, getPlatform, hw1, hw2, normalizeOS_eq, webkit, hw, e3, e4, e5, e6, e7, e8,
        zeroUserAgent]
  refine ⟨?_, ?_⟩
  · obtain ⟨r, hr1, hr2, hr3, hr4, hr5, hr6⟩ := key bot
    refine ⟨r, hr1, hr2, hr3, hr4, hr5, ?_⟩
    intro bot2
    obtain ⟨r2, hq1, _, _, _, _, hq6⟩ := key bot2
    rw [hq1, hq6, hr6]
  · have e := Parse_of_tokenize bot p (bytes "Mozilla/5.0 (Windows NT 6.1; WOW64) AppleWebKit/537.36 (KHTML, like Gecko) Chrome/41.0.2228.0 Safari/537.36")
      [⟨bytes "Mozilla", bytes "5.0", [bytes "Windows NT 6.1", bytes "WOW64"]⟩,
        ⟨bytes "AppleWebKit", bytes "537.36", [bytes "KHTML, like Gecko"]⟩,
        ⟨bytes "Chrome", bytes "41.0.2228.0", []⟩, ⟨bytes "Safari", bytes "537.36", []⟩]
      (by decide)
    rw [e]
    refine ⟨_, rfl, ?_, ?_, ?_, ?_⟩ <;> rfl

theorem Parse_chrome_on_windows_witness :
    tokenize (bytes "Mozilla/5.0 (Windows NT 6.1; WOW64) AppleWebKit/537.36 (KHTML, like Gecko) Chrome/41.0.2228.0 Safari/537.36")
      = Except.ok
        [⟨bytes "Mozilla", bytes "5.0", [bytes "Windows NT 6.1", bytes "WOW64"]⟩,
          ⟨bytes "AppleWebKit", bytes "537.36", [bytes "KHTML, like Gecko"]⟩,
          ⟨bytes "Chrome", bytes "41.0.2228.0", []⟩, ⟨bytes "Safari", bytes "537.36", []⟩] ∧
    hasPrefix (bytes "Windows NT 6.1") (bytes "Windows NT") = true ∧
    ∃ r, Parse noBot zeroUserAgent (bytes "Mozilla/5.0 (Windows NT 6.1; WOW64) AppleWebKit/537.36 (KHTML, like Gecko) Chrome/41.0.2228.0 Safari/537.36") = Except.ok r ∧
      r.Browser.Name = bytes "Chrome" ∧ r.Browser.Engine = bytes "AppleWebKit" ∧
      r.Platform = bytes "Windows" ∧ normalizeOS (bytes "Windows NT 6.1") = Except.ok r.Os ∧
      ∀ bot2 : BotChecks, Parse bot2 zeroUserAgent (bytes "Mozilla/5.0 (Windows NT 6.1; WOW64) AppleWebKit/537.36 (KHTML, like Gecko) Chrome/41.0.2228.0 Safari/537.36") = Except.ok r :=
  ⟨by decide, by decide,
    (Parse_chrome_on_windows noBot zeroUserAgent _
      ⟨bytes "Mozilla", bytes "5.0", [bytes "Windows NT 6.1", bytes "WOW64"]⟩
      ⟨bytes "AppleWebKit", bytes "537.36", [bytes "KHTML, like Gecko"]⟩
      ⟨bytes "Chrome", bytes "41.0.2228.0", []⟩ ⟨bytes "Safari", bytes "537.36", []⟩
      [⟨bytes "Safari", bytes "537.36", []⟩] (bytes "Windows NT 6.1") [bytes "WOW64"]
      (by decide) (by decide) rfl (by decide) (by decide) (by decide) (by decide) (by decide)
      (by decide) (by decide)).1⟩

/-! ## What `TrimSpace` removes -/

theorem spaceRuneLen_of_rune (w t : Str) (hw : w ∈ spaceRunes) :
    spaceRuneLen (w ++ t) = w.length ∧ w.length ≠ 0 := by
  simp only [spaceRunes, List.mem_cons, List.mem_singleton, List.not_mem_nil, or_false] at hw
  rcases hw with h | h | h | h | h | h | h | h | h | h | h | h | h | h | h | h | h | h | h | h |
    h | h | h | h | h <;> subst h <;> simp [spaceRuneLen]

theorem spaceRuneLen_rune (s : Str) (h : spaceRuneLen s ≠ 0) :
    ∃ w t, w ∈ spaceRunes ∧ s = w ++ t ∧ spaceRuneLen s = w.length := by
  obtain ⟨k, hk⟩ : ∃ k, spaceRuneLen s = k := ⟨_, rfl⟩
  rw [hk] at h ⊢
  unfold spaceRuneLen at hk
  split at hk
  · exact absurd hk.symm h
  · rename_i c rest
    split_ifs at hk with hc
    · subst hk
      refine ⟨[c], rest, ?_, rfl, rfl⟩
      rcases hc with e | e | e | e | e | e <;> subst e <;> simp [spaceRunes]
    · split at hk
      · rename_i d tl
        split_ifs at hk with hd
        · subst hk
          refine ⟨[0xC2, d], tl, ?_, rfl, rfl⟩
          rcases hd with e | e <;> subst e <;> simp [spaceRunes]
        · exact absurd hk.symm h
      · rename_i tl
        subst hk
        exact ⟨[0xE1, 0x9A, 0x80], tl, by simp [spaceRunes], rfl, rfl⟩
      · rename_i d tl
        split_ifs at hk with hd
        · subst hk
          refine ⟨[0xE2, 0x80, d], tl, ?_, rfl, rfl⟩
          rcases hd with ⟨e1, e2⟩ | e | e | e
          · interval_cases d <;> simp [spaceRunes]
          · subst e; simp [spaceRunes]
          · subst e; simp [spaceRunes]
          · subst e; simp [spaceRunes]
        · exact absurd hk.symm h
      · rename_i tl
        subst hk
        exact ⟨[0xE2, 0x81, 0x9F], tl, by simp [spaceRunes], rfl, rfl⟩
      · rename_i tl
        subst hk
        exact ⟨[0xE3, 0x80, 0x80], tl, by simp [spaceRunes], rfl, rfl⟩
      · exact absurd hk.symm h

theorem spaceRuneLenLast_of_rune (w t : Str) (hw : w ∈ spaceRunes) :
    spaceRuneLenLast (w.reverse ++ t) = w.length ∧ w.length ≠ 0 := by
  simp only [spaceRunes, List.mem_cons, List.mem_singleton, List.not_mem_nil, or_false] at hw
  rcases hw with h | h | h | h | h | h | h | h | h | h | h | h | h | h | h | h | h | h | h | h |
    h | h | h | h | h <;> subst h <;> exact ⟨rfl, by decide⟩

set_option maxHeartbeats 4000000 in
theorem spaceRuneLenLast_rune (r : Str) (h : spaceRuneLenLast r ≠ 0) :
    ∃ w t, w ∈ spaceRunes ∧ r = w.reverse ++ t ∧ spaceRuneLenLast r = w.length := by
  obtain ⟨k, hk⟩ : ∃ k, spaceRuneLenLast r = k := ⟨_, rfl⟩
  rw [hk] at h ⊢
  unfold spaceRuneLenLast at hk
  split at hk
  · exact absurd hk.symm h
  · rename_i c rest
    split_ifs at hk with hc
    · subst hk
      refine ⟨[c], rest, ?_, rfl, rfl⟩
      rcases hc with e | e | e | e | e | e <;> subst e <;> simp [spaceRunes]
    · split at hk
      · rename_i tl
        subst hk
        exact ⟨[0xC2, 0x85], tl, by simp [spaceRunes], rfl, rfl⟩
      · rename_i tl
        subst hk
        exact ⟨[0xC2, 0xA0], tl, by simp [spaceRunes], rfl, rfl⟩
      · rename_i tl
        subst hk
        exact ⟨[0xE1, 0x9A, 0x80], tl, by simp [spaceRunes], rfl, rfl⟩
      · rename_i tl
        subst hk
        exact ⟨[0xE2, 0x81, 0x9F], tl, by simp [spaceRunes], rfl, rfl⟩
      · rename_i tl
        subst hk
        exact ⟨[0xE3, 0x80, 0x80], tl, by simp [spaceRunes], rfl, rfl⟩
      · rename_i d tl
        split_ifs at hk with hd
        · subst hk
          refine ⟨[0xE2, 0x80, c], tl, ?_, rfl, rfl⟩
          rcases hd with ⟨e1, e2⟩ | e | e | e
          · interval_cases c <;> simp [spaceRunes]
          · subst e; simp [spaceRunes]
          · subst e; simp [spaceRunes]
          · subst e; simp [spaceRunes]
        · exact absurd hk.symm h
      · exact absurd hk.symm h

theorem trimLeftSpace_spec (n : Nat) (s : Str) :
    (∃ pre : List Str, (∀ w ∈ pre, w ∈ spaceRunes) ∧ s = pre.flatten ++ trimLeftSpace n s) ∧
    (s.length ≤ n → spaceRuneLen (trimLeftSpace n s) = 0) := by
  induction n generalizing s with
  | zero =>
    refine ⟨⟨[], by simp, by simp [trimLeftSpace]⟩, ?_⟩
    intro hl
    have : s = [] := List.length_eq_zero.mp (Nat.le_zero.mp hl)
    subst this
    rfl
  | succ n ih =>
    unfold trimLeftSpace
    by_cases h0 : spaceRuneLen s = 0
    · rw [if_pos h0]
      exact ⟨⟨[], by simp, by simp⟩, fun _ => h0⟩
    · rw [if_neg h0]
      obtain ⟨w, t, hw, hs, hk⟩ := spaceRuneLen_rune s h0
      have hwl := (spaceRuneLen_of_rune w t hw).2
      have hd : s.drop (spaceRuneLen s) = t := by
        rw [hk, hs, List.drop_left]
      rw [hd]
      obtain ⟨⟨pre, hp1, hp2⟩, hz⟩ := ih t
      refine ⟨⟨w :: pre, ?_, ?_⟩, ?_⟩
      · intro x hx
        rcases List.mem_cons.mp hx with e | e
        · rw [e]; exact hw
        · exact hp1 x e
      · rw [List.flatten_cons, List.append_assoc, ← hp2, hs]
      · intro hl
        apply hz
        rw [hs, List.length_append] at hl
        omega

theorem trimRightSpace_spec (n : Nat) (r : Str) :
    (∃ post : List Str, (∀ w ∈ post, w ∈ spaceRunes) ∧
      r.reverse = (trimRightSpace n r).reverse ++ post.flatten) ∧
    (r.length ≤ n → spaceRuneLenLast (trimRightSpace n r) = 0) := by
  induction n generalizing r with
  | zero =>
    refine ⟨⟨[], by simp, by simp [trimRightSpace]⟩, ?_⟩
    intro hl
    have : r = [] := List.length_eq_zero.mp (Nat.le_zero.mp hl)
    subst this
    rfl
  | succ n ih =>
    unfold trimRightSpace
    by_cases h0 : spaceRuneLenLast r = 0
    · rw [if_pos h0]
      exact ⟨⟨[], by simp, by simp⟩, fun _ => h0⟩
    · rw [if_neg h0]
      obtain ⟨w, t, hw, hs, hk⟩ := spaceRuneLenLast_rune r h0
      have hwl := (spaceRuneLenLast_of_rune w t hw).2
      have hd : r.drop (spaceRuneLenLast r) = t := by
        rw [hk, hs, ← List.length_reverse w, List.drop_left]
      rw [hd]
      obtain ⟨⟨post, hp1, hp2⟩, hz⟩ := ih t
      refine ⟨⟨post ++ [w], ?_, ?_⟩, ?_⟩
      · intro x hx
        rcases List.mem_append.mp hx with e | e
        · exact hp1 x e
        · rw [List.mem_singleton.mp e]; exact hw
      · rw [hs, List.reverse_append, List.reverse_reverse, hp2]
        simp
      · intro hl
        apply hz
        rw [hs, List.length_append, List.length_reverse] at hl
        omega

theorem TrimSpace_trimmed (s : Str) : Trimmed s (TrimSpace s) := by
  obtain ⟨⟨pre, hpre, hs⟩, hz⟩ := trimLeftSpace_spec s.length s
  obtain ⟨⟨post, hpost, hl⟩, hz2⟩ :=
    trimRightSpace_spec (trimLeftSpace s.length s).length (trimLeftSpace s.length s).reverse
  have hz1 := hz (Nat.le_refl _)
  have hz3 := hz2 (by rw [List.length_reverse])
  rw [List.reverse_reverse] at hl
  have hv : TrimSpace s
      = (trimRightSpace (trimLeftSpace s.length s).length
          (trimLeftSpace s.length s).reverse).reverse := rfl
  refine ⟨pre, post, hpre, hpost, ?_, ?_, ?_⟩
  · rw [hv, List.append_assoc, ← hl]
    exact hs
  · intro w hw hpx
    obtain ⟨t, ht⟩ := hpx
    have h1 := spaceRuneLen_of_rune w (t ++ post.flatten) hw
    rw [← List.append_assoc, ht, hv, ← hl, hz1] at h1
    exact h1.2 h1.1.symm
  · intro w hw hsx
    obtain ⟨t, ht⟩ := hsx
    have h1 := spaceRuneLenLast_of_rune w t.reverse hw
    have e : w.reverse ++ t.reverse
        = trimRightSpace (trimLeftSpace s.length s).length
            (trimLeftSpace s.length s).reverse := by
      rw [← List.reverse_append, ht, hv, List.reverse_reverse]
    rw [e, hz3] at h1
    exact h1.2 h1.1.symm

/-! ## The MSIE case of `detectBrowser` -/

theorem tridentTokenLoop_eq (p : UserAgent) (comment : List Str) :
    tridentTokenLoop p comment
      = Except.ok
        (match comment.find? (fun v => hasPrefix v (bytes "Trident/")) with
        | some t =>
          if t.drop 8 = bytes "4.0" then { p with Browser.Version := bytes "8.0" }
          else if t.drop 8 = bytes "5.0" then { p with Browser.Version := bytes "9.0" }
          else if t.drop 8 = bytes "6.0" then { p with Browser.Version := bytes "10.0" }
          else p
        | none => p) := by
  induction comment with
  | nil => rfl
  | cons v rest ih =>
    unfold tridentTokenLoop
    by_cases h : hasPrefix v (bytes "Trident/") = true
    · have hl : 8 ≤ v.length := hasPrefix_length v _ h
      simp only [h, if_true, sliceFrom, hl, ok_bind, List.find?_cons_of_pos, pure_eq_ok]
      split_ifs <;> rfl
    · have h2 : hasPrefix v (bytes "Trident/") = false := by simpa using h
      simp only [h2, Bool.false_eq_true, if_false]
      rw [ih, List.find?_cons_of_neg _ (by simp [h2])]

/-- The MSIE case of `detectBrowser` on a record whose browser version is
empty, the state `Parse` calls it in. -/
theorem msie_on_fresh_record (p : UserAgent) (s : Section) (c1 : Str) (crest : List Str)
    (hv : p.Browser.Version = [])
    (hn1 : s.name ≠ bytes "Opera") (hn2 : s.name ≠ bytes "Dalvik")
    (hc : s.comment = bytes "compatible" :: c1 :: crest)
    (hm : hasPrefix c1 (bytes "MSIE") = true) :
    ∃ r, detectBrowser p [s] = Except.ok r ∧
      r.Browser.Engine = bytes "Trident" ∧ r.Browser.Name = bytes "Internet Explorer" ∧
      (∀ t, s.comment.find? (fun v => hasPrefix v (bytes "Trident/")) = some t →
        (t.drop 8 = bytes "4.0" → r.Browser.Version = bytes "8.0") ∧
        (t.drop 8 = bytes "5.0" → r.Browser.Version = bytes "9.0") ∧
        (t.drop 8 = bytes "6.0" → r.Browser.Version = bytes "10.0") ∧
        (t.drop 8 ≠ bytes "4.0" → t.drop 8 ≠ bytes "5.0" → t.drop 8 ≠ bytes "6.0" →
          r.Browser.Version = TrimSpace (c1.drop 4))) ∧
      (s.comment.find? (fun v => hasPrefix v (bytes "Trident/")) = none →
        r.Browser.Version = TrimSpace (c1.drop 4)) := by
  rcases s with ⟨n, v, cm⟩
  simp only at hn1 hn2 hc
  subst hc
  have hl : 4 ≤ c1.length := hasPrefix_length c1 _ hm
  have e1 : ¬ bytes "8.0" = ([] : Str) := by decide
  have e2 : ¬ bytes "9.0" = ([] : Str) := by decide
  have e3 : ¬ bytes "10.0" = ([] : Str) := by decide
  have e45 : ¬ bytes "4.0" = bytes "5.0" := by decide
  have e46 : ¬ bytes "4.0" = bytes "6.0" := by decide
  have e56 : ¬ bytes "5.0" = bytes "6.0" := by decide
  simp only [detectBrowser, List.length_cons, List.length_nil, idx_cons_zero, idx_cons_succ,
    ok_bind, hn1, hn2, if_false, pure_eq_ok, tridentTokenLoop_eq]
  simp only [Nat.zero_add, gt_iff_lt, Nat.lt_irrefl, if_false, true_and, Nat.lt_add_left_iff_pos,
    Nat.zero_lt_succ, Nat.lt_add_one, if_true, hm, and_self]
  cases hf : List.find? (fun v => hasPrefix v (bytes "Trident/")) (bytes "compatible" :: c1 :: crest) with
  | none =>
    simp [hv, sliceFrom, hl]
  | some t =>
    simp only
    by_cases h4 : t.drop 8 = bytes "4.0"
    · simp [h4, e1, e45, e46]
    · by_cases h5 : t.drop 8 = bytes "5.0"
      · simp [h5, e2, e56, Ne.symm e45]
      · by_cases h6 : t.drop 8 = bytes "6.0"
        · simp [h6, e3, Ne.symm e46, Ne.symm e56]
        · simp [h4, h5, h6, hv, sliceFrom, hl]

theorem Parse_msie9 (bot : BotChecks) (p : UserAgent) :
    ∃ r,
      Parse bot p (bytes "Mozilla/5.0 (compatible; MSIE 9.0; Windows NT 6.1; Trident/5.0)")
        = Except.ok r ∧
      r.Browser.Name = bytes "Internet Explorer" ∧ r.Browser.Version = bytes "9.0" ∧
      r.Browser.Engine = bytes "Trident" ∧ r.Platform = bytes "Windows" := by
  have e := Parse_of_tokenize bot p
    (bytes "Mozilla/5.0 (compatible; MSIE 9.0; Windows NT 6.1; Trident/5.0)")
    [⟨bytes "Mozilla", bytes "5.0",
      [bytes "compatible", bytes "MSIE 9.0", bytes "Windows NT 6.1", bytes "Trident/5.0"]⟩]
    (by decide)
  rw [e]
  refine ⟨_, rfl, ?_, ?_, ?_, ?_⟩ <;> rfl

theorem Parse_msie7 (bot : BotChecks) (p : UserAgent) :
    ∃ r,
      Parse bot p (bytes "Mozilla/4.0 (compatible; MSIE 7.0; Windows NT 6.1; Trident/7.0)")
        = Except.ok r ∧
      r.Browser.Name = bytes "Internet Explorer" ∧ r.Browser.Version = bytes "7.0" ∧
      r.Browser.Engine = bytes "Trident" := by
  have e := Parse_of_tokenize bot p
    (bytes "Mozilla/4.0 (compatible; MSIE 7.0; Windows NT 6.1; Trident/7.0)")
    [⟨bytes "Mozilla", bytes "4.0",
      [bytes "compatible", bytes "MSIE 7.0", bytes "Windows NT 6.1", bytes "Trident/7.0"]⟩]
    (by decide)
  rw [e]
  refine ⟨_, rfl, ?_, ?_, ?_⟩ <;> rfl

/-- Claim C10: for a header of exactly one section, named neither `Opera` nor
`Dalvik`, whose comment starts with `compatible` and a token starting with
`MSIE`, `detectBrowser`, run by `Parse` on the record `q`, sets the engine
`Trident`, the name `Internet Explorer`, and the version `8.0`, `9.0`, `10.0`
when the first token starting with `Trident/` has the suffix `4.0`, `5.0`,
`6.0`; otherwise the version is the second token after its first four bytes
with the surrounding white space trimmed: that text stands between two runs of
white-space runes and neither starts nor ends with one.  The MSIE 9 header of
the specification gives version `9.0`; a header with `MSIE 7.0` and the token
`Trident/7.0`, which is outside the table, gives `7.0`. -/
theorem detectBrowser_msie (bot : BotChecks) (p : UserAgent) (ua : Str) (s : Section)
    (c1 : Str) (crest : List Str)
    (htok : tokenize ua = Except.ok [s])
    (hn1 : s.name ≠ bytes "Opera") (hn2 : s.name ≠ bytes "Dalvik")
    (hc : s.comment = bytes "compatible" :: c1 :: crest)
    (hm : hasPrefix c1 (bytes "MSIE") = true) :
    (∃ q r,
      Parse bot p ua
        = (detectBrowser q [s] >>= fun r1 => detectOS bot r1 s >>= fun r2 =>
            if r2.Undecided = true then pure (bot.checkBot r2 [s]) else pure r2) ∧
      detectBrowser q [s] = Except.ok r ∧
      r.Browser.Engine = bytes "Trident" ∧ r.Browser.Name = bytes "Internet Explorer" ∧
      (∀ t, s.comment.find? (fun v => hasPrefix v (bytes "Trident/")) = some t →
        (t.drop 8 = bytes "4.0" → r.Browser.Version = bytes "8.0") ∧
        (t.drop 8 = bytes "5.0" → r.Browser.Version = bytes "9.0") ∧
        (t.drop 8 = bytes "6.0" → r.Browser.Version = bytes "10.0") ∧
        (t.drop 8 ≠ bytes "4.0" → t.drop 8 ≠ bytes "5.0" → t.drop 8 ≠ bytes "6.0" →
          r.Browser.Version = TrimSpace (c1.drop 4) ∧
          Trimmed (c1.drop 4) r.Browser.Version)) ∧
      (s.comment.find? (fun v => hasPrefix v (bytes "Trident/")) = none →
        r.Browser.Version = TrimSpace (c1.drop 4) ∧
        Trimmed (c1.drop 4) r.Browser.Version)) ∧
    (∃ r,
      Parse bot p (bytes "Mozilla/5.0 (compatible; MSIE 9.0; Windows NT 6.1; Trident/5.0)")
        = Except.ok r ∧
      r.Browser.Name = bytes "Internet Explorer" ∧ r.Browser.Version = bytes "9.0" ∧
      r.Browser.Engine = bytes "Trident" ∧ r.Platform = bytes "Windows") ∧
    (∃ r,
      Parse bot p (bytes "Mozilla/4.0 (compatible; MSIE 7.0; Windows NT 6.1; Trident/7.0)")
        = Except.ok r ∧
      r.Browser.Name = bytes "Internet Explorer" ∧ r.Browser.Version = bytes "7.0" ∧
      r.Browser.Engine = bytes "Trident") := by
  refine ⟨?_, Parse_msie9 bot p, Parse_msie7 bot p⟩
  · have hp := Parse_of_tokenize bot p ua [s] htok
    obtain ⟨r, h1, h2⟩ := msie_on_fresh_record
      (if s.name = bytes "Mozilla" then
        { ({ zeroUserAgent with ua := ua, Mobile := hasMobileSection [s] } : UserAgent) with
          Mozilla := s.version }
       else { zeroUserAgent with ua := ua, Mobile := hasMobileSection [s] })
      s c1 crest (by split_ifs <;> rfl) hn1 hn2 hc hm
    obtain ⟨hE, hN, hT, hF⟩ := h2
    refine ⟨_, r, ?_, h1, hE, hN, ?_, ?_⟩
    · rw [hp]
      simp [classify]
    · intro t ht
      refine ⟨(hT t ht).1, (hT t ht).2.1, (hT t ht).2.2.1, ?_⟩
      intro a b c
      have e := (hT t ht).2.2.2 a b c
      refine ⟨e, ?_⟩
      rw [e]
      exact TrimSpace_trimmed _
    · intro hnone
      have e := hF hnone
      refine ⟨e, ?_⟩
      rw [e]
      exact TrimSpace_trimmed _

theorem detectBrowser_msie_witness :
    tokenize (bytes "Mozilla/4.0 (compatible; MSIE 7.0; Windows NT 6.1; Trident/7.0)")
      = Except.ok [⟨bytes "Mozilla", bytes "4.0",
          [bytes "compatible", bytes "MSIE 7.0", bytes "Windows NT 6.1", bytes "Trident/7.0"]⟩] ∧
    hasPrefix (bytes "MSIE 7.0") (bytes "MSIE") = true ∧
    ∃ q r, detectBrowser q
        [⟨bytes "Mozilla", bytes "4.0",
          [bytes "compatible", bytes "MSIE 7.0", bytes "Windows NT 6.1", bytes "Trident/7.0"]⟩]
        = Except.ok r ∧
      r.Browser.Engine = bytes "Trident" ∧ r.Browser.Name = bytes "Internet Explorer" ∧
      r.Browser.Version = bytes "7.0" ∧ Trimmed (bytes " 7.0") r.Browser.Version :=
  ⟨by decide, by decide,
    match (detectBrowser_msie noBot zeroUserAgent
      (bytes "Mozilla/4.0 (compatible; MSIE 7.0; Windows NT 6.1; Trident/7.0)")
      ⟨bytes "Mozilla", bytes "4.0",
        [bytes "compatible", bytes "MSIE 7.0", bytes "Windows NT 6.1", bytes "Trident/7.0"]⟩
      (bytes "MSIE 7.0") [bytes "Windows NT 6.1", bytes "Trident/7.0"]
      (by decide) (by decide) (by decide) rfl (by decide)).1 with
    | ⟨q, r, _, h1, h2, h3, h4, _⟩ =>
      ⟨q, r, h1, h2, h3,
        ((h4 (bytes "Trident/7.0") (by decide)).2.2.2
          (by decide) (by decide) (by decide)).1.trans (by decide),
        ((h4 (bytes "Trident/7.0") (by decide)).2.2.2
          (by decide) (by decide) (by decide)).2⟩⟩

/-! ## The mobile flag -/

theorem sat_ok {α : Type} (a : α) (P : α → Prop) (h : P a) : Sat (Except.ok a) P := by
  intro r hr
  cases hr
  exact h

theorem sat_ite {α : Type} (c : Prop) [Decidable c] (a b : Res α) (P : α → Prop)
    (ha : c → Sat a P) (hb : ¬ c → Sat b P) : Sat (if c then a else b) P := by
  split_ifs with h
  · exact ha h
  · exact hb h

theorem sat_bind {α β : Type} (x : Res α) (f : α → Res β) (P : β → Prop)
    (h : ∀ a, x = Except.ok a → Sat (f a) P) : Sat (x >>= f) P := by
  intro r hr
  cases hx : x with
  | error e => rw [hx] at hr; cases hr
  | ok a => rw [hx] at hr; exact h a hx r hr

theorem sat_mono {α : Type} (x : Res α) (P Q : α → Prop) (h : Sat x P) (hpq : ∀ a, P a → Q a) :
    Sat x Q := fun r hr => hpq r (h r hr)

theorem gecko_mobile (q : UserAgent) (comment : List Str) (hq : q.Mobile = true) :
    Sat (gecko q comment) (fun r => r.Mobile = true ∧ r.Undecided = q.Undecided) := by
  intro r h
  rcases comment with _ | ⟨c0, _ | ⟨c1, _ | ⟨c2, _ | ⟨c3, rest⟩⟩⟩⟩ <;>
    simp [gecko, normalizeOS_eq] at h <;>
    (try split_ifs at h) <;> (try simp at h) <;> subst h <;> simp [hq]

theorem ieMobileLoop_mobile (q : UserAgent) (comment : List Str) (hq : q.Mobile = true) :
    (ieMobileLoop q comment).Mobile = true ∧
      (ieMobileLoop q comment).Undecided = q.Undecided := by
  induction comment with
  | nil => exact ⟨hq, rfl⟩
  | cons v rest ih =>
    unfold ieMobileLoop
    split_ifs
    · exact ⟨rfl, rfl⟩
    · exact ih

theorem trident_mobile (q : UserAgent) (comment : List Str) (hq : q.Mobile = true) :
    Sat (trident q comment) (fun r => r.Mobile = true ∧ r.Undecided = q.Undecided) := by
  intro r h
  rcases comment with _ | ⟨c0, _ | ⟨c1, _ | ⟨c2, rest⟩⟩⟩ <;>
    simp [trident, normalizeOS_eq] at h <;>
    (try split_ifs at h) <;> (try simp at h) <;> subst h <;>
    exact ieMobileLoop_mobile _ _ (by simp [hq])

theorem opera_mobile (q : UserAgent) (comment : List Str) (hq : q.Mobile = true) :
    Sat (opera q comment) (fun r => r.Mobile = true ∧ r.Undecided = q.Undecided) := by
  intro r h
  rcases comment with _ | ⟨c0, _ | ⟨c1, _ | ⟨c2, _ | ⟨c3, rest⟩⟩⟩⟩ <;>
    simp [opera, normalizeOS_eq] at h <;>
    (try split_ifs at h) <;> (try simp at h) <;> subst h <;> simp [hq]

theorem dalvik_mobile (q : UserAgent) (comment : List Str) (hq : q.Mobile = true) :
    Sat (dalvik q comment) (fun r => r.Mobile = true ∧ r.Undecided = q.Undecided) := by
  intro r h
  rcases comment with _ | ⟨c0, _ | ⟨c1, _ | ⟨c2, rest⟩⟩⟩ <;>
    simp [dalvik] at h <;>
    (try split_ifs at h) <;> (try simp at h) <;> subst h <;> simp [hq]
theorem webkit_mobile (bot : BotChecks) (q : UserAgent) (comment : List Str)
    (hq : q.Mobile = true) (hgb : ∀ x, (bot.googleBot x).1.Mobile = x.Mobile) :
    Sat (webkit bot q comment) (fun r =>
      r.Mobile = !(decide (q.Platform = bytes "Linux") && decide (comment.length = 2)
        && decide (comment.get? 1 = some (bytes "U")))) := by
  intro r h
  by_cases h1 : q.Platform = bytes "Linux"
  · rcases comment with _ | ⟨c0, _ | ⟨c1, _ | ⟨c2, _ | ⟨c3, rest⟩⟩⟩⟩ <;>
      simp [webkit, h1, bytes] at h <;>
      (try split_ifs at h) <;> (try simp at h) <;> subst h <;> simp_all [bytes]
  · by_cases h2 : q.Platform = bytes "webOS"
    · rcases comment with _ | ⟨c0, _ | ⟨c1, _ | ⟨c2, _ | ⟨c3, rest⟩⟩⟩⟩ <;>
        simp [webkit, h2, bytes] at h <;>
        subst h <;> simp_all [bytes]
    · by_cases h3 : q.Platform = bytes "Symbian"
      · rcases comment with _ | ⟨c0, _ | ⟨c1, _ | ⟨c2, _ | ⟨c3, rest⟩⟩⟩⟩ <;>
          simp [webkit, h3, bytes] at h <;>
          subst h <;> simp_all [bytes]
      · rcases comment with _ | ⟨c0, _ | ⟨c1, _ | ⟨c2, _ | ⟨c3, rest⟩⟩⟩⟩ <;>
          simp [webkit, h1, h2, h3, normalizeOS_eq] at h <;>
          (try split_ifs at h) <;> (try simp at h) <;> subst h <;> simp [h1, hq, hgb]

theorem getPlatform_linux (c0 pl : Str) (rest : List Str)
    (h : getPlatform (c0 :: rest) = Except.ok pl) :
    pl = bytes "Linux" ↔ c0 = bytes "Linux" := by
  simp only [getPlatform, List.length_cons, gt_iff_lt, Nat.zero_lt_succ, if_true, idx_cons_zero,
    ok_bind, pure_eq_ok] at h
  split_ifs at h with h1 h2 h3 h4 h5 <;> simp only [Except.ok.injEq] at h <;> subst h
  · constructor
    · intro e; exact absurd e (by decide)
    · intro e; rw [e] at h2; revert h2; decide
  · constructor
    · intro e; exact absurd e (by decide)
    · intro e; rw [e] at h3; revert h3; decide
  · constructor
    · intro e; exact absurd e (by decide)
    · intro e; rw [e] at h4; revert h4; decide
  · constructor
    · intro e; exact absurd e (by decide)
    · intro e; rw [e] at h5; revert h5; decide
  · rfl
  · constructor
    · intro e; exact absurd e (by decide)
    · intro e; rw [e] at h1; revert h1; decide

theorem detectOS_mobile (bot : BotChecks) (q : UserAgent) (s : Section)
    (hq : q.Mobile = true) (hgb : ∀ x, (bot.googleBot x).1.Mobile = x.Mobile) :
    Sat (detectOS bot q s) (fun r =>
      r.Mobile = !(decide (s.name = bytes "Mozilla")
        && decide (q.Browser.Engine = bytes "AppleWebKit")
        && decide (s.comment = [bytes "Linux", bytes "U"]))) := by
  rcases s with ⟨name, version, comment⟩
  unfold detectOS
  simp only
  apply sat_ite
  · intro hm
    apply sat_bind
    intro pl hpl
    dsimp only
    have hdisp : ∀ y : UserAgent, y.Mobile = true → y.Browser = q.Browser → y.Platform = pl →
        Sat (if y.Browser.Engine = [] then pure { y with Undecided := true }
          else if y.Browser.Engine = bytes "Gecko" then gecko y comment
          else if y.Browser.Engine = bytes "AppleWebKit" then webkit bot y comment
          else if y.Browser.Engine = bytes "Trident" then trident y comment
          else pure y)
        (fun r => r.Mobile = !(decide (name = bytes "Mozilla")
          && decide (q.Browser.Engine = bytes "AppleWebKit")
          && decide (comment = [bytes "Linux", bytes "U"]))) := by
      intro y hy1 hy2 hy3
      rw [hy2]
      apply sat_ite
      · intro he
        apply sat_ok
        simp [he, hy1, bytes]
      · intro _
        apply sat_ite
        · intro he
          refine sat_mono _ _ _ (gecko_mobile y comment hy1) ?_
          intro a ha
          simp [he, ha.1, bytes]
        · intro _
          apply sat_ite
          · intro he
            refine sat_mono _ _ _ (webkit_mobile bot y comment hy1 hgb) ?_
            intro a ha
            rw [ha, hy3]
            simp only [hm, he, decide_True, Bool.true_and]
            congr 1
            rcases comment with _ | ⟨c0, _ | ⟨c1, _ | ⟨c2, rest⟩⟩⟩
            · simp
            · simp
            · have := getPlatform_linux c0 pl _ hpl
              by_cases hc0 : c0 = bytes "Linux"
              · have hpl2 : pl = bytes "Linux" := this.mpr hc0
                simp [hc0, hpl2]
              · have hpl2 : ¬ pl = bytes "Linux" := fun e => hc0 (this.mp e)
                simp [hc0, hpl2]
            · simp
          · intro he
            apply sat_ite
            · intro he2
              refine sat_mono _ _ _ (trident_mobile y comment hy1) ?_
              intro a ha
              simp [he, ha.1]
            · intro _
              apply sat_ok
              simp [he, hy1]
    apply sat_ite
    · intro _
      apply sat_bind
      intro c0 _
      apply sat_bind
      intro os _
      simp only [pure_eq_ok, ok_bind]
      exact hdisp { q with Platform := pl, Os := os } hq rfl rfl
    · intro _
      simp only [pure_eq_ok, ok_bind]
      exact hdisp { q with Platform := pl } hq rfl rfl
  · intro hm
    apply sat_ite
    · intro _
      apply sat_ite
      · intro _
        refine sat_mono _ _ _ (opera_mobile q comment hq) ?_
        intro a ha
        simp [hm, ha.1]
      · intro _
        apply sat_ok
        simp [hm, hq]
    · intro _
      apply sat_ite
      · intro _
        apply sat_ite
        · intro _
          refine sat_mono _ _ _ (dalvik_mobile q comment hq) ?_
          intro a ha
          simp [hm, ha.1]
        · intro _
          apply sat_ok
          simp [hm, hq]
      · intro _
        apply sat_ok
        simp [hm, hq]

theorem tridentTokenLoop_frame (p a : UserAgent) (comment : List Str)
    (h : tridentTokenLoop p comment = Except.ok a) :
    a.Mobile = p.Mobile ∧ a.Browser.Engine = p.Browser.Engine := by
  rw [tridentTokenLoop_eq] at h
  simp only [Except.ok.injEq] at h
  subst h
  split
  · split_ifs <;> exact ⟨rfl, rfl⟩
  · exact ⟨rfl, rfl⟩

theorem detectBrowser_mobile (q : UserAgent) (secs : List Section) :
    Sat (detectBrowser q secs) (fun r => r.Mobile = q.Mobile) := by
  rcases secs with _ | ⟨s0, _ | ⟨s1, _ | ⟨s2, _ | ⟨s3, _ | ⟨s4, rest⟩⟩⟩⟩⟩
  · intro r h
    simp [detectBrowser] at h
  · unfold detectBrowser
    simp only [List.length_cons, List.length_nil, idx_cons_zero, ok_bind, pure_eq_ok]
    apply sat_ite
    · intro _
      apply sat_ite
      · intro h; simp at h
      · intro _; apply sat_ok; rfl
    · intro _
      apply sat_ite
      · intro _; apply sat_ok; rfl
      · intro _
        apply sat_ite
        · intro h; simp at h
        · intro _
          apply sat_ite
          · intro _
            apply sat_bind
            intro c0 _
            apply sat_bind
            intro c1 _
            apply sat_ite
            · intro _
              apply sat_bind
              intro a ha
              have hf := (tridentTokenLoop_frame _ _ _ ha).1
              apply sat_ite
              · intro _
                apply sat_bind
                intro t _
                apply sat_ok
                exact hf
              · intro _
                apply sat_ok
                exact hf
            · intro _; apply sat_ok; rfl
          · intro _; apply sat_ok; rfl
  case cons.cons.cons.cons.cons =>
    obtain ⟨o, ho⟩ := ie11Loop_ok s0.comment
    obtain ⟨l, hl⟩ := idx_cons_length rest s4
    cases o <;> simp [detectBrowser, ho, hl] <;>
      repeat' first
        | (apply sat_ite <;> intro _)
        | (apply sat_ok; rfl)
        | (apply sat_bind; intro _ _)
  all_goals
    obtain ⟨o, ho⟩ := ie11Loop_ok s0.comment
    cases o <;> simp [detectBrowser, ho] <;>
      repeat' first
        | (apply sat_ite <;> intro _)
        | (apply sat_ok; rfl)
        | (apply sat_bind; intro _ _)

theorem detectBrowser_engine (q : UserAgent) (s0 : Section) (tail : List Section)
    (h0 : s0.name = bytes "Mozilla") (hq : q.Browser.Engine = []) :
    Sat (detectBrowser q (s0 :: tail))
      (fun r => decide (r.Browser.Engine = bytes "AppleWebKit") = webkitEngine tail) := by
  have e1 : ¬ bytes "Mozilla" = bytes "Opera" := by decide
  have e2 : ¬ bytes "Mozilla" = bytes "Dalvik" := by decide
  have e3 : ¬ bytes "Trident" = bytes "AppleWebKit" := by decide
  have e4 : ¬ bytes "EdgeHTML" = bytes "AppleWebKit" := by decide
  have e5 : ¬ ([] : Str) = bytes "AppleWebKit" := by decide
  rcases tail with _ | ⟨s1, _ | ⟨s2, rest⟩⟩
  · unfold detectBrowser
    simp only [List.length_cons, List.length_nil, idx_cons_zero, ok_bind, pure_eq_ok, h0, e1, e2,
      if_false]
    apply sat_ite
    · intro h; simp at h
    · intro _
      apply sat_ite
      · intro _
        apply sat_bind
        intro c0 _
        apply sat_bind
        intro c1 _
        apply sat_ite
        · intro _
          apply sat_bind
          intro a ha
          have hf := (tridentTokenLoop_frame _ _ _ ha).2
          apply sat_ite
          · intro _
            apply sat_bind
            intro t _
            apply sat_ok
            simp [hf, e3, webkitEngine]
          · intro _
            apply sat_ok
            simp [hf, e3, webkitEngine]
        · intro _; apply sat_ok; simp [hq, e5, webkitEngine]
      · intro _; apply sat_ok; simp [hq, e5, webkitEngine]
  · simp [detectBrowser, h0, e1, e2]
    apply sat_ok
    simp [webkitEngine]
  · obtain ⟨o, ho⟩ := ie11Loop_ok s0.comment
    obtain ⟨last, hgl⟩ : ∃ last, (s2 :: rest).getLast? = some last := by
      cases h : (s2 :: rest).getLast? with
      | none => simp at h
      | some x => exact ⟨x, rfl⟩
    have hl := idx_getLast? (s2 :: rest) last hgl
    simp only [List.length_cons, Nat.add_sub_cancel] at hl
    have hw : webkitEngine (s1 :: s2 :: rest)
        = (decide (s1.name = bytes "AppleWebKit") && decide (last.name ≠ bytes "Edge")) := by
      simp only [webkitEngine, hgl]
    rw [hw]
    cases o <;> simp [detectBrowser, ho, hl, h0, e1, e2] <;>
      repeat' first
        | (apply sat_ite <;> intro _)
        | (apply sat_ok; simp_all; done)
        | (refine sat_bind (idx _ _) _ _ ?_; intro _ _)

/-- Claim C4, as amended: when some tokenized section is named `Mobile` and the
bot checks leave the mobile flag alone, the record produced by `Parse` has
`Mobile = true`, except when the WebKit heuristic takes its desktop Linux
branch (first section `Mozilla` with the comment `Linux; U`, detected engine
`AppleWebKit`), which resets the flag: then `Mobile = false`. -/
theorem Parse_mobile_flag (bot : BotChecks) (p : UserAgent) (ua : Str) (secs : List Section)
    (htok : tokenize ua = Except.ok secs)
    (hmob : hasMobileSection secs = true)
    (hgb : ∀ x, (bot.googleBot x).1.Mobile = x.Mobile)
    (hcb : ∀ x s, (bot.checkBot x s).Mobile = x.Mobile) :
    ∃ r, Parse bot p ua = Except.ok r ∧ r.Mobile = !webkitDesktopLinux secs := by
  rw [Parse_of_tokenize bot p ua secs htok, hmob]
  rcases secs with _ | ⟨s0, tail⟩
  · simp [hasMobileSection] at hmob
  · unfold classify
    simp only [List.length_cons, gt_iff_lt, Nat.zero_lt_succ, if_true, idx_cons_zero, ok_bind]
    generalize hq1 : (if s0.name = bytes "Mozilla" then
      ({ ({ zeroUserAgent with ua := ua, Mobile := true } : UserAgent) with
          Mozilla := s0.version } : UserAgent)
      else { zeroUserAgent with ua := ua, Mobile := true }) = q1
    have hq1m : q1.Mobile = true := by
      rw [← hq1]; split_ifs <;> rfl
    have hq1e : q1.Browser.Engine = [] := by
      rw [← hq1]; split_ifs <;> rfl
    obtain ⟨q2, hq2⟩ := detectBrowser_ok q1 (s0 :: tail) (List.cons_ne_nil _ _)
    have hq2m : q2.Mobile = true := (detectBrowser_mobile q1 (s0 :: tail) q2 hq2).trans hq1m
    obtain ⟨q3, hq3⟩ := detectOS_ok bot q2 s0
    have hq3m := detectOS_mobile bot q2 s0 hq2m hgb q3 hq3
    have hfin : q3.Mobile = !webkitDesktopLinux (s0 :: tail) := by
      rw [hq3m]
      by_cases hm : s0.name = bytes "Mozilla"
      · have he := detectBrowser_engine q1 s0 tail hm hq1e q2 hq2
        simp only at he
        simp only [webkitDesktopLinux, hm, he, decide_True, Bool.true_and]
        rw [Bool.and_comm]
      · simp [webkitDesktopLinux, hm]
    simp only [hq2, hq3, ok_bind, pure_eq_ok]
    split_ifs
    · exact ⟨_, rfl, (hcb _ _).trans hfin⟩
    · exact ⟨_, rfl, hfin⟩

set_option maxHeartbeats 4000000 in
theorem Parse_mobile_flag_witness :
    tokenize iphoneHeader = Except.ok iphoneSections ∧
    hasMobileSection iphoneSections = true ∧
    ∃ r, Parse noBot zeroUserAgent iphoneHeader = Except.ok r ∧
      r.Mobile = !webkitDesktopLinux iphoneSections :=
  ⟨by decide, by decide,
    Parse_mobile_flag noBot zeroUserAgent iphoneHeader iphoneSections (by decide) (by decide)
      (fun _ => rfl) (fun _ _ => rfl)⟩

/-- Claim C4 fails as stated: this header has a section named `Mobile`, yet with
bot checks that change nothing `Parse` ends with `Mobile = false`, because the
WebKit heuristic resets the flag for the comment `Linux; U`. -/
theorem mobile_flag_reset :
    tokenize (bytes "Mozilla/5.0 (Linux; U) AppleWebKit/1 Mobile/1")
      = Except.ok
        [⟨bytes "Mozilla", bytes "5.0", [bytes "Linux", bytes "U"]⟩,
          ⟨bytes "AppleWebKit", bytes "1", []⟩, ⟨bytes "Mobile", bytes "1", []⟩] ∧
    (Parse noBot zeroUserAgent (bytes "Mozilla/5.0 (Linux; U) AppleWebKit/1 Mobile/1")).map
        (fun r => r.Mobile) = Except.ok false := by
  decide

/-! ## The tokenizer round trip -/

theorem readRest_space (w : Str) (hw : 32 ∉ w) (tl : Str)
    (htl : tl = [] ∨ ∃ r, tl = 32 :: r) :
    ∀ (i : Nat) (b : Str), readRest 32 false (w ++ tl) i 0 b = (b ++ w, i + w.length + 1) := by
  induction w with
  | nil =>
    intro i b
    rcases htl with h | ⟨r, h⟩ <;> subst h <;> simp [readRest]
  | cons c w ih =>
    intro i b
    have hc : ¬ c = 32 := fun e => hw (by simp [e])
    have hw2 : 32 ∉ w := fun e => hw (by simp [e])
    have e : (c :: w) ++ tl = c :: (w ++ tl) := rfl
    rw [e]
    simp only [readRest, hc, if_false, Bool.false_eq_true, false_and]
    rw [ih hw2]
    simp
    omega

theorem productOf_render (name version : Str) (hn : 47 ∉ name) :
    productOf (name ++ (if version = [] then [] else bytes "/" ++ version)) = (name, version) := by
  unfold productOf
  by_cases hv : version = []
  · simp [hv, Index_single_none_of_not_mem 47 name hn]
  · simp [hv, bytes_slash, Index_single_of_not_mem 47 name version hn]

theorem Index_semi_append (t r : Str) (h : Index t [59, 32] = none) :
    Index (t ++ 59 :: 32 :: r) [59, 32] = some t.length := by
  induction t with
  | nil => simp [Index, List.isPrefixOf]
  | cons c t ih =>
    simp only [Index] at h
    split_ifs at h with hp
    simp only [Option.map_eq_none'] at h
    have hp2 : ¬ List.isPrefixOf [59, 32] (c :: (t ++ 59 :: 32 :: r)) = true := by
      cases t with
      | nil =>
        simp [List.isPrefixOf]
      | cons d t =>
        simpa [List.isPrefixOf] using hp
    have e : (c :: t) ++ 59 :: 32 :: r = c :: (t ++ 59 :: 32 :: r) := rfl
    rw [e, Index, if_neg hp2, ih h]
    rfl

theorem SplitN_join (toks : List Str) (hne : toks ≠ [])
    (h : ∀ t ∈ toks, Index t [59, 32] = none) :
    ∀ n, toks.length ≤ n → SplitN [59, 32] (Join toks [59, 32]) n = toks := by
  induction toks with
  | nil => exact absurd rfl hne
  | cons t rest ih =>
    intro n hn
    cases rest with
    | nil =>
      have ht := h t (by simp)
      rcases n with _ | _ | n
      · simp at hn
      · simp [SplitN, Join]
      · simp [SplitN, Join, ht]
    | cons t2 rest =>
      have ht := h t (by simp)
      rcases n with _ | _ | n
      · simp at hn
      · simp at hn
      · have hi := Index_semi_append t (Join (t2 :: rest) [59, 32]) ht
        have e : Join (t :: t2 :: rest) [59, 32] = t ++ 59 :: 32 :: Join (t2 :: rest) [59, 32] := by
          simp [Join]
        rw [e]
        simp only [SplitN, hi]
        have e2 : List.drop (t.length + [59, 32].length) (t ++ 59 :: 32 :: Join (t2 :: rest) [59, 32])
            = Join (t2 :: rest) [59, 32] := by
          have : t ++ 59 :: 32 :: Join (t2 :: rest) [59, 32]
              = (t ++ [59, 32]) ++ Join (t2 :: rest) [59, 32] := by simp
          rw [this]
          have hl : t.length + [59, 32].length = (t ++ [59, 32]).length := by simp
          rw [hl, List.drop_left']
          rfl
        rw [e2, List.take_left']
        · rw [ih (by simp) (fun x hx => h x (by simp [hx])) (n + 1) (by simp at hn ⊢; omega)]
        · rfl

theorem Join_length_semi (toks : List Str) :
    toks.length ≤ (Join toks [59, 32]).length + 1 := by
  induction toks with
  | nil => simp
  | cons t rest ih =>
    cases rest with
    | nil => simp [Join]
    | cons t2 rest =>
      simp only [Join, List.length_cons, List.length_append, List.length_nil] at ih ⊢
      omega

theorem Split_join (toks : List Str) (hne : toks ≠ [])
    (h : ∀ t ∈ toks, Contains t (bytes "; ") = false) :
    Split (Join toks (bytes "; ")) (bytes "; ") = toks := by
  unfold Split
  rw [bytes_semi]
  apply SplitN_join toks hne
  · intro t ht
    have := h t ht
    rw [bytes_semi] at this
    simpa [Contains] using this
  · exact Join_length_semi toks
theorem sectionAt_no_comment (ua : Str) (i : Nat) (buf : Str) (j : Nat) (name version : Str)
    (h1 : readRest 32 false (ua.drop i) i 0 [] = (buf, j))
    (h2 : productOf buf = (name, version))
    (h3 : ∀ rest, ua.drop j ≠ 40 :: rest) :
    sectionAt ua i = (⟨name, version, []⟩, j) := by
  unfold sectionAt
  rw [h1]
  -- the equation of the second alternative asks for `h3`, found among the hypotheses
  simp only [h2]

theorem sectionAt_comment (ua : Str) (i : Nat) (buf : Str) (j : Nat) (name version : Str)
    (rest cbuf : Str) (k : Nat)
    (h1 : readRest 32 false (ua.drop i) i 0 [] = (buf, j))
    (h2 : productOf buf = (name, version))
    (h3 : ua.drop j = 40 :: rest)
    (h4 : readRest 41 true rest (j + 1) 0 [] = (cbuf, k)) :
    sectionAt ua i = (⟨name, version, Split cbuf (bytes "; ")⟩, k + 1) := by
  unfold sectionAt
  simp only [h1, h2, h3, h4]

theorem sectionAt_render (pre : Str) (s : Section) (tl : Str) (hs : WellFormed s)
    (htl : tl = [] ∨ ∃ c r, tl = 32 :: c :: r ∧ c ≠ 40) :
    sectionAt (pre ++ renderSection s ++ tl) pre.length
      = (s, pre.length + (renderSection s).length + 1) := by
  obtain ⟨_, hn32, hn47, _, hv32, hct, hbal⟩ := hs
  rcases s with ⟨name, version, comment⟩
  simp only at hn32 hn47 hv32 hct hbal
  have hp32 : 32 ∉ name ++ (if version = [] then [] else bytes "/" ++ version) := by
    by_cases hv : version = []
    · simpa [hv] using hn32
    · simp [hv, bytes_slash, hn32, hv32]
  have hprod := productOf_render name version hn47
  generalize hpd : name ++ (if version = [] then [] else bytes "/" ++ version) = prod at hp32 hprod
  by_cases hc : comment = []
  · subst hc
    have hr : renderSection ⟨name, version, []⟩ = prod := by
      simp [renderSection, hpd]
    rw [hr]
    have hd : (pre ++ prod ++ tl).drop pre.length = prod ++ tl := by
      rw [List.append_assoc, List.drop_left']
      rfl
    have htl2 : tl = [] ∨ ∃ r, tl = 32 :: r := by
      rcases htl with h | ⟨c, r, h, _⟩
      · exact Or.inl h
      · exact Or.inr ⟨c :: r, h⟩
    have h1 := readRest_space prod hp32 tl htl2 pre.length []
    rw [← hd, List.nil_append] at h1
    apply sectionAt_no_comment _ _ _ _ _ _ h1 hprod
    intro rest
    rcases htl with h | ⟨c, r, h, hc40⟩
    · subst h
      rw [List.drop_eq_nil_of_le (by simp)]
      exact List.noConfusion
    · subst h
      have e : pre ++ prod ++ 32 :: c :: r = (pre ++ prod ++ [32]) ++ c :: r := by simp
      have hl : pre.length + prod.length + 1 = (pre ++ prod ++ [32]).length := by
        simp only [List.length_append, List.length_singleton]
      rw [e, hl, List.drop_left']
      · intro heq
        exact hc40 (List.cons.inj heq).1
      · rfl
  · have hr : renderSection ⟨name, version, comment⟩
        = prod ++ 32 :: 40 :: (Join comment (bytes "; ") ++ [41]) := by
      have e1 : bytes " (" = [32, 40] := by decide
      have e2 : bytes ")" = [41] := by decide
      simp [renderSection, hpd, hc, e1, e2]
    rw [hr]
    have hd : (pre ++ (prod ++ 32 :: 40 :: (Join comment (bytes "; ") ++ [41])) ++ tl).drop
        pre.length = prod ++ 32 :: (40 :: (Join comment (bytes "; ") ++ 41 :: tl)) := by
      rw [List.append_assoc, List.drop_left']
      · simp
      · rfl
    have h1 := readRest_space prod hp32 (32 :: (40 :: (Join comment (bytes "; ") ++ 41 :: tl)))
      (Or.inr ⟨_, rfl⟩) pre.length []
    rw [← hd, List.nil_append] at h1
    have h3 : (pre ++ (prod ++ 32 :: 40 :: (Join comment (bytes "; ") ++ [41])) ++ tl).drop
        (pre.length + prod.length + 1) = 40 :: (Join comment (bytes "; ") ++ 41 :: tl) := by
      have e : pre ++ (prod ++ 32 :: 40 :: (Join comment (bytes "; ") ++ [41])) ++ tl
          = (pre ++ prod ++ [32]) ++ 40 :: (Join comment (bytes "; ") ++ 41 :: tl) := by simp
      have hl : pre.length + prod.length + 1 = (pre ++ prod ++ [32]).length := by
        simp only [List.length_append, List.length_singleton]
      rw [e, hl, List.drop_left']
      rfl
    have h4 := readRest_balanced (Join comment (bytes "; ")) tl (pre.length + prod.length + 1 + 1)
      hbal
    rw [sectionAt_comment _ _ _ _ _ _ _ _ _ h1 hprod h3 h4, Split_join comment hc hct]
    simp
    omega
theorem render_cons_cons (s s2 : Section) (t : List Section) :
    render (s :: s2 :: t) = renderSection s ++ 32 :: render (s2 :: t) := by
  simp [render, Join, bytes_space]

theorem render_single (s : Section) : render [s] = renderSection s := by
  simp [render, Join]

theorem renderSection_head (s : Section) (hs : WellFormed s) :
    ∃ c r, renderSection s = c :: r ∧ c ≠ 40 := by
  obtain ⟨hn0, _, _, hn40, _⟩ := hs
  rcases s with ⟨name, version, comment⟩
  cases name with
  | nil => exact absurd rfl hn0
  | cons c n =>
    refine ⟨c, n ++ (if version = [] then [] else bytes "/" ++ version) ++
      (if comment = [] then [] else bytes " (" ++ Join comment (bytes "; ") ++ bytes ")"), ?_, ?_⟩
    · simp only [renderSection, List.cons_append]
    · intro e
      apply hn40
      simp [e]

theorem render_head (s : Section) (t : List Section) (hs : WellFormed s) :
    ∃ c r, render (s :: t) = c :: r ∧ c ≠ 40 := by
  obtain ⟨c, r, h1, h2⟩ := renderSection_head s hs
  cases t with
  | nil => exact ⟨c, r, by rw [render_single, h1], h2⟩
  | cons s2 t => exact ⟨c, r ++ 32 :: render (s2 :: t), by rw [render_cons_cons, h1]; rfl, h2⟩

theorem render_length (secs : List Section) (hwf : ∀ s ∈ secs, WellFormed s) :
    secs.length ≤ (render secs).length := by
  induction secs with
  | nil => simp
  | cons s t ih =>
    obtain ⟨c, r, h1, _⟩ := renderSection_head s (hwf s (by simp))
    cases t with
    | nil =>
      rw [render_single, h1]
      simp
    | cons s2 t =>
      have := ih (fun x hx => hwf x (by simp [hx]))
      rw [render_cons_cons, h1]
      simp only [List.length_cons, List.length_append] at this ⊢
      omega

theorem parseLoop_render (todo : List Section) (hne : todo ≠ [])
    (hwf : ∀ s ∈ todo, WellFormed s) :
    ∀ (pre : Str) (fuel : Nat) (p : UserAgent) (acc : List Section), todo.length ≤ fuel →
      ∃ q, parseLoop (pre ++ render todo) fuel pre.length p acc = Except.ok (q, acc ++ todo) := by
  induction todo with
  | nil => exact absurd rfl hne
  | cons s t ih =>
    intro pre fuel p acc hfuel
    have hs := hwf s (by simp)
    obtain ⟨c, r, hrs, _⟩ := renderSection_head s hs
    cases fuel with
    | zero => simp at hfuel
    | succ fuel =>
      cases t with
      | nil =>
        have hsec := sectionAt_render pre s [] hs (Or.inl rfl)
        rw [List.append_nil] at hsec
        have hlt : pre.length < (pre ++ renderSection s).length := by
          rw [hrs]; simp
        have hge : ¬ pre.length + (renderSection s).length + 1 < (pre ++ renderSection s).length := by
          simp
        rw [render_single]
        unfold parseLoop
        simp only [hlt, if_true, parseSection_eq, ok_bind, hsec]
        unfold parseLoop
        simp only [hge, if_false]
        exact ⟨_, rfl⟩
      | cons s2 t =>
        obtain ⟨c2, r2, hr2, hc2⟩ := render_head s2 t (hwf s2 (by simp))
        have hsec := sectionAt_render pre s (32 :: render (s2 :: t)) hs
          (Or.inr ⟨c2, r2, by rw [hr2], hc2⟩)
        have hua : pre ++ render (s :: s2 :: t) = pre ++ renderSection s ++ 32 :: render (s2 :: t) := by
          rw [render_cons_cons, List.append_assoc]
        have hlt : pre.length < (pre ++ renderSection s ++ 32 :: render (s2 :: t)).length := by
          simp
        rw [hua]
        unfold parseLoop
        simp only [hlt, if_true, parseSection_eq, ok_bind, hsec]
        have hpre : pre ++ renderSection s ++ 32 :: render (s2 :: t)
            = (pre ++ renderSection s ++ [32]) ++ render (s2 :: t) := by simp
        have hlen : pre.length + (renderSection s).length + 1
            = (pre ++ renderSection s ++ [32]).length := by
          simp only [List.length_append, List.length_singleton]
        rw [hpre, hlen]
        obtain ⟨q, hq⟩ := ih (List.cons_ne_nil _ _) (fun x hx => hwf x (by simp [hx]))
          (pre ++ renderSection s ++ [32]) fuel
          (if p.Mobile = false ∧ s.name = bytes "Mobile" then { p with Mobile := true } else p)
          (acc ++ [s]) (by simp at hfuel ⊢; omega)
        refine ⟨q, ?_⟩
        rw [hq]
        simp

/-- Claim C3: for a non-empty list of sections of the grammar, tokenizing the
header that renders them (name, `/` and version when there is one, ` (`
tokens joined by `; ` and `)` when there is a comment, sections separated by
one space) yields exactly that list, in the same order. -/
theorem tokenize_render (secs : List Section) (hne : secs ≠ [])
    (hwf : ∀ s ∈ secs, WellFormed s) :
    tokenize (render secs) = Except.ok secs := by
  unfold tokenize
  obtain ⟨q, hq⟩ := parseLoop_render secs hne hwf [] (render secs).length
    { initializeRecord zeroUserAgent with ua := render secs } [] (render_length secs hwf)
  simp only [List.nil_append, List.length_nil] at hq
  rw [hq]
  rfl

theorem tokenize_render_witness :
    render iphoneSections = iphoneHeader ∧
    (∀ s ∈ iphoneSections, WellFormed s) ∧
    tokenize (render iphoneSections) = Except.ok iphoneSections :=
  ⟨by decide, by decide, tokenize_render iphoneSections (by decide) (by decide)⟩

/-! ## `normalizeOS` is idempotent; `Parse` forgets the previous record -/

theorem normOS_cases (s : Str) : normOS s = s ∨ ∃ v, (v, normOS s) ∈ ntTable := by
  have h := normalizeOS_eq s
  by_cases hlen : (SplitN (bytes " ") s 3).length = 3
  · obtain ⟨a, b, c, habc⟩ := List.length_eq_three.mp hlen
    rw [normalizeOS_of_split _ _ _ _ habc] at h
    simp only [Except.ok.injEq] at h
    by_cases hb : b = bytes "NT"
    · simp only [hb, if_true] at h
      cases hl : ntTable.lookup c with
      | none =>
        left
        rw [← h, hl]
        rfl
      | some m =>
        right
        refine ⟨c, ?_⟩
        rw [← h, hl]
        exact lookup_mem _ _ _ hl
    · simp only [hb, if_false] at h
      exact Or.inl h.symm
  · rw [normalizeOS_of_not_split s hlen] at h
    simp only [Except.ok.injEq] at h
    exact Or.inl h.symm

theorem normalizeOS_marketing (v m : Str) (h : (v, m) ∈ ntTable) :
    normalizeOS m = Except.ok m := by
  simp only [ntTable, List.mem_cons, Prod.mk.injEq, List.mem_singleton, List.not_mem_nil,
    or_false] at h
  rcases h with h | h | h | h | h | h | h | h | h <;>
    (obtain ⟨_, h2⟩ := h; subst h2; decide)

/-- Claim C19: `normalizeOS` is idempotent: it returns a value for every string,
and applied to that value it returns it unchanged. -/
theorem normalizeOS_idempotent (s : Str) :
    ∃ r, normalizeOS s = Except.ok r ∧ normalizeOS r = Except.ok r ∧
      (normalizeOS s >>= normalizeOS) = normalizeOS s := by
  have key : normalizeOS (normOS s) = Except.ok (normOS s) := by
    rcases normOS_cases s with h | ⟨v, h⟩
    · rw [h]
      exact normalizeOS_eq s |>.trans (by rw [h])
    · exact normalizeOS_marketing v _ h
  refine ⟨normOS s, normalizeOS_eq s, key, ?_⟩
  rw [normalizeOS_eq s]
  exact key

theorem initializeRecord_eq (p : UserAgent) : initializeRecord p = zeroUserAgent := rfl

/-- Claim C20: `Parse` does not depend on the previous contents of the record:
`initialize` overwrites every field, so for the same bot checks two records
parsed from the same string are equal, and equal to `New` of that string. -/
theorem Parse_forgets_receiver (bot : BotChecks) (p1 p2 : UserAgent) (ua : Str) :
    initializeRecord p1 = initializeRecord p2 ∧
    Parse bot p1 ua = Parse bot p2 ua ∧ Parse bot p1 ua = New bot ua := by
  have h : ∀ p : UserAgent, Parse bot p ua = New bot ua := by
    intro p
    unfold New Parse
    simp only [initializeRecord_eq]
  exact ⟨(initializeRecord_eq p1).trans (initializeRecord_eq p2).symm,
    (h p1).trans (h p2).symm, h p1⟩
/-! ## Opera and Dalvik headers -/

theorem opera_frame (q : UserAgent) (comment : List Str) :
    Sat (opera q comment) (fun r =>
      r.Browser = q.Browser ∧ r.Undecided = q.Undecided ∧ r.Mozilla = q.Mozilla ∧
      (∀ c0 crest, comment = c0 :: crest → hasPrefix c0 (bytes "Windows") = true →
        r.Platform = bytes "Windows" ∧ r.Os = normOS c0)) := by
  intro r h
  rcases comment with _ | ⟨c0, _ | ⟨c1, _ | ⟨c2, _ | ⟨c3, rest⟩⟩⟩⟩ <;>
    simp [opera, normalizeOS_eq] at h <;>
    (try split_ifs at h) <;> (try simp at h) <;> subst h <;> simp_all

theorem detectBrowser_opera (q : UserAgent) (v0 : Str) (cm0 : List Str) (rest : List Section) :
    detectBrowser q (⟨bytes "Opera", v0, cm0⟩ :: rest)
      = Except.ok { q with Browser := ⟨bytes "Presto",
          ((rest.head?.map Section.version).getD q.Browser.EngineVersion),
          bytes "Opera", v0⟩ } := by
  rcases rest with _ | ⟨s1, rest2⟩ <;> simp [detectBrowser]

theorem classify_opera (bot : BotChecks) (q : UserAgent) (v0 : Str) (cm0 : List Str)
    (rest : List Section) (hu : q.Undecided = false) :
    ∃ r, classify bot q (⟨bytes "Opera", v0, cm0⟩ :: rest) = Except.ok r ∧
      r.Browser = ⟨bytes "Presto",
          ((rest.head?.map Section.version).getD q.Browser.EngineVersion),
          bytes "Opera", v0⟩ ∧
      (∀ c0 crest, cm0 = c0 :: crest → hasPrefix c0 (bytes "Windows") = true →
        r.Platform = bytes "Windows" ∧ r.Os = normOS c0) := by
  have e1 : ¬ bytes "Opera" = bytes "Mozilla" := by decide
  simp only [classify, List.length_cons, gt_iff_lt, Nat.zero_lt_succ, if_true, idx_cons_zero,
    ok_bind, e1, if_false, detectBrowser_opera, detectOS]
  generalize hqb : ({ q with Browser := ⟨bytes "Presto", ((rest.head?.map Section.version).getD q.Browser.EngineVersion), bytes "Opera", v0⟩ } : UserAgent) = qb
  have hqbu : qb.Undecided = false := by rw [← hqb]; exact hu
  have hqbb : qb.Browser = ⟨bytes "Presto",
      ((rest.head?.map Section.version).getD q.Browser.EngineVersion),
      bytes "Opera", v0⟩ := by rw [← hqb]
  by_cases hcm : cm0.length > 0
  · simp only [hcm, if_true]
    obtain ⟨r, hr⟩ := opera_ok qb cm0 (by intro e; rw [e] at hcm; simp at hcm)
    obtain ⟨hb, hu2, _, hw⟩ := opera_frame _ _ r hr
    rw [hr]
    have hu3 : r.Undecided = false := hu2.trans hqbu
    simp only [ok_bind, hu3, Bool.false_eq_true, if_false, pure_eq_ok]
    exact ⟨r, rfl, hb.trans hqbb, hw⟩
  · simp only [hcm, if_false, pure_eq_ok, ok_bind, hqbu, Bool.false_eq_true]
    refine ⟨qb, rfl, hqbb, ?_⟩
    intro c0 crest hc _
    rw [hc] at hcm
    simp at hcm

/-- Claim C11: for a header whose first section is named `Opera`, `Parse` yields
the browser `Opera` with the version of the first section, the engine `Presto`
with the version of the second section when there is one (empty otherwise);
when the first comment token starts with `Windows` the platform is `Windows`
and the operating system is `normalizeOS` of that token.  The Opera 12 header
of the specification gives `Windows 7`. -/
theorem Parse_opera (bot : BotChecks) (p : UserAgent) (ua : Str) (s0 : Section)
    (rest : List Section)
    (htok : tokenize ua = Except.ok (s0 :: rest))
    (h0 : s0.name = bytes "Opera") :
    (∃ r, Parse bot p ua = Except.ok r ∧
      r.Browser.Name = bytes "Opera" ∧ r.Browser.Version = s0.version ∧
      r.Browser.Engine = bytes "Presto" ∧
      (∀ s1 tl, rest = s1 :: tl → r.Browser.EngineVersion = s1.version) ∧
      (rest = [] → r.Browser.EngineVersion = []) ∧
      (∀ c0 crest, s0.comment = c0 :: crest → hasPrefix c0 (bytes "Windows") = true →
        r.Platform = bytes "Windows" ∧ normalizeOS c0 = Except.ok r.Os)) ∧
    (∃ r, Parse bot p (bytes "Opera/9.80 (Windows NT 6.1; U; en) Presto/2.12.388 Version/12.16")
        = Except.ok r ∧
      r.Browser.Name = bytes "Opera" ∧ r.Browser.Engine = bytes "Presto" ∧
      r.Platform = bytes "Windows" ∧ r.Os = bytes "Windows 7") := by
  constructor
  · rw [Parse_of_tokenize bot p ua _ htok]
    rcases s0 with ⟨n0, v0, cm0⟩
    simp only at h0
    subst h0
    obtain ⟨r, hr, hb, hw⟩ := classify_opera bot _ v0 cm0 rest
      (show ({ zeroUserAgent with ua := ua, Mobile := hasMobileSection (⟨bytes "Opera", v0, cm0⟩ :: rest) } : UserAgent).Undecided = false from rfl)
    refine ⟨r, hr, by rw [hb], by rw [hb], by rw [hb], ?_, ?_, ?_⟩
    · intro s1 tl h
      subst h
      rw [hb]
      rfl
    · intro h
      subst h
      rw [hb]
      rfl
    · intro c0 crest hc hp
      obtain ⟨h1, h2⟩ := hw c0 crest hc hp
      exact ⟨h1, by rw [h2]; exact normalizeOS_eq c0⟩
  · have e := Parse_of_tokenize bot p
      (bytes "Opera/9.80 (Windows NT 6.1; U; en) Presto/2.12.388 Version/12.16")
      [⟨bytes "Opera", bytes "9.80", [bytes "Windows NT 6.1", bytes "U", bytes "en"]⟩,
        ⟨bytes "Presto", bytes "2.12.388", []⟩, ⟨bytes "Version", bytes "12.16", []⟩]
      (by decide)
    rw [e]
    refine ⟨_, rfl, ?_, ?_, ?_, ?_⟩ <;> rfl

theorem Parse_opera_witness :
    tokenize (bytes "Opera/9.80 (Windows NT 6.1; U; en) Presto/2.12.388 Version/12.16")
      = Except.ok
        [⟨bytes "Opera", bytes "9.80", [bytes "Windows NT 6.1", bytes "U", bytes "en"]⟩,
          ⟨bytes "Presto", bytes "2.12.388", []⟩, ⟨bytes "Version", bytes "12.16", []⟩] ∧
    ∃ r, Parse noBot zeroUserAgent
        (bytes "Opera/9.80 (Windows NT 6.1; U; en) Presto/2.12.388 Version/12.16")
        = Except.ok r ∧
      r.Browser.Name = bytes "Opera" ∧ r.Browser.Version = bytes "9.80" ∧
      r.Browser.Engine = bytes "Presto" ∧ r.Browser.EngineVersion = bytes "2.12.388" :=
  ⟨by decide,
    match (Parse_opera noBot zeroUserAgent
      (bytes "Opera/9.80 (Windows NT 6.1; U; en) Presto/2.12.388 Version/12.16")
      ⟨bytes "Opera", bytes "9.80", [bytes "Windows NT 6.1", bytes "U", bytes "en"]⟩
      [⟨bytes "Presto", bytes "2.12.388", []⟩, ⟨bytes "Version", bytes "12.16", []⟩]
      (by decide) rfl).1 with
    | ⟨r, h1, h2, h3, h4, h5, _⟩ => ⟨r, h1, h2, h3, h4, h5 _ _ rfl⟩⟩
/-- Claim C12: for a header whose first section is named `Dalvik` and whose first
comment token starts with `Linux`, `Parse` yields `Mozilla = 5.0`, empty
browser fields, the first comment token as platform, the third comment token
as operating system when there are at least three tokens (empty otherwise),
`Mobile = true` and `Undecided = false`. -/
theorem Parse_dalvik (bot : BotChecks) (p : UserAgent) (ua : Str) (s0 : Section)
    (rest : List Section) (c0 : Str) (crest : List Str)
    (htok : tokenize ua = Except.ok (s0 :: rest))
    (h0 : s0.name = bytes "Dalvik") (hc : s0.comment = c0 :: crest)
    (hl : hasPrefix c0 (bytes "Linux") = true) :
    ∃ r, Parse bot p ua = Except.ok r ∧
      r.Mozilla = bytes "5.0" ∧
      r.Browser.Engine = [] ∧ r.Browser.EngineVersion = [] ∧
      r.Browser.Name = [] ∧ r.Browser.Version = [] ∧
      r.Platform = c0 ∧ r.Os = (s0.comment.get? 2).getD [] ∧
      r.Mobile = true ∧ r.Undecided = false := by
  rw [Parse_of_tokenize bot p ua _ htok]
  rcases s0 with ⟨n0, v0, cm0⟩
  simp only at h0 hc
  subst h0 hc
  have e1 : ¬ bytes "Dalvik" = bytes "Mozilla" := by decide
  have e2 : ¬ bytes "Dalvik" = bytes "Opera" := by decide
  rcases crest with _ | ⟨c1, _ | ⟨c2, cr⟩⟩ <;>
    simp [classify, detectBrowser, detectOS, dalvik, hl, e1, e2, zeroUserAgent]

theorem Parse_dalvik_witness :
    tokenize (bytes "Dalvik/1.6.0 (Linux; U; Android 4.0.3; GT-I9100 Build/IML74K)")
      = Except.ok
        [⟨bytes "Dalvik", bytes "1.6.0",
          [bytes "Linux", bytes "U", bytes "Android 4.0.3", bytes "GT-I9100 Build/IML74K"]⟩] ∧
    hasPrefix (bytes "Linux") (bytes "Linux") = true ∧
    ∃ r, Parse noBot zeroUserAgent
        (bytes "Dalvik/1.6.0 (Linux; U; Android 4.0.3; GT-I9100 Build/IML74K)") = Except.ok r ∧
      r.Mozilla = bytes "5.0" ∧
      r.Browser.Engine = [] ∧ r.Browser.EngineVersion = [] ∧
      r.Browser.Name = [] ∧ r.Browser.Version = [] ∧
      r.Platform = bytes "Linux" ∧ r.Os = bytes "Android 4.0.3" ∧
      r.Mobile = true ∧ r.Undecided = false :=
  ⟨by decide, by decide,
    Parse_dalvik noBot zeroUserAgent
      (bytes "Dalvik/1.6.0 (Linux; U; Android 4.0.3; GT-I9100 Build/IML74K)")
      ⟨bytes "Dalvik", bytes "1.6.0",
        [bytes "Linux", bytes "U", bytes "Android 4.0.3", bytes "GT-I9100 Build/IML74K"]⟩
      [] (bytes "Linux")
      [bytes "U", bytes "Android 4.0.3", bytes "GT-I9100 Build/IML74K"]
      (by decide) rfl rfl (by decide)⟩
/-! ## The WebKit family in `detectBrowser` -/

/-- Claim C13: for at least three sections, the first named neither `Opera` nor
`Dalvik` and the second named `AppleWebKit`, `detectBrowser` looks at the name
of the last section first: `Edge` gives the browser `Edge` with the version of
the last section, the engine `EdgeHTML` and no engine version; `OPR` gives
`Opera` with the version of the last section and the engine of the second
section; otherwise the version is that of the version-bearing section and the
name is `Chrome` or `Chromium` when that section is so named, `Safari` if not. -/
theorem detectBrowser_webkit_family (p : UserAgent) (s0 s1 s2 last : Section)
    (rest : List Section)
    (hn1 : s0.name ≠ bytes "Opera") (hn2 : s0.name ≠ bytes "Dalvik")
    (h1 : s1.name = bytes "AppleWebKit")
    (hl : (s0 :: s1 :: s2 :: rest).getLast? = some last) :
    ∃ r, detectBrowser p (s0 :: s1 :: s2 :: rest) = Except.ok r ∧
      (last.name = bytes "Edge" →
        r.Browser.Name = bytes "Edge" ∧ r.Browser.Version = last.version ∧
        r.Browser.Engine = bytes "EdgeHTML" ∧ r.Browser.EngineVersion = []) ∧
      (last.name = bytes "OPR" →
        r.Browser.Name = bytes "Opera" ∧ r.Browser.Version = last.version ∧
        r.Browser.Engine = s1.name ∧ r.Browser.EngineVersion = s1.version) ∧
      (last.name ≠ bytes "Edge" → last.name ≠ bytes "OPR" →
        r.Browser.Version = (versionBearing s2 rest).version ∧
        r.Browser.Name =
          (if (versionBearing s2 rest).name = bytes "Chrome" then bytes "Chrome"
           else if (versionBearing s2 rest).name = bytes "Chromium" then bytes "Chromium"
           else bytes "Safari") ∧
        r.Browser.Engine = s1.name ∧ r.Browser.EngineVersion = s1.version) := by
  have hlast := idx_getLast? _ _ hl
  simp only [List.length_cons] at hlast
  have e1 : ¬ bytes "OPR" = bytes "Edge" := by decide
  have hsv : ∃ sv, idx (s0 :: s1 :: s2 :: rest)
      (if s2.version = [] ∧ (s0 :: s1 :: s2 :: rest).length > 3 then 3 else 2) = Except.ok sv ∧
      sv = versionBearing s2 rest := by
    rcases rest with _ | ⟨s3, rest2⟩
    · exact ⟨s2, by simp, rfl⟩
    · by_cases hv : s2.version = []
      · exact ⟨s3, by simp [hv], by simp [versionBearing, hv]⟩
      · exact ⟨s2, by simp [hv], by simp [versionBearing, hv]⟩
  obtain ⟨sv, hsv1, hsv2⟩ := hsv
  simp only [List.length_cons] at hsv1
  rw [← hsv2]
  simp only [detectBrowser, List.length_cons, idx_cons_zero, idx_cons_succ, ok_bind, hn1, hn2,
    if_false, hsv1, h1, if_true, hlast, pure_eq_ok]
  simp only [gt_iff_lt, Nat.lt_add_left_iff_pos, Nat.zero_lt_succ, Nat.lt_add_one, if_true]
  by_cases hE : last.name = bytes "Edge"
  · simp [hE, (by decide : ¬ bytes "Edge" = bytes "OPR")]
  · by_cases hO : last.name = bytes "OPR"
    · simp [hO, e1]
    · by_cases hC : sv.name = bytes "Chrome"
      · simp [hE, hO, hC]
      · by_cases hC2 : sv.name = bytes "Chromium"
        · simp [hE, hO, hC, hC2, (by decide : ¬ bytes "Chromium" = bytes "Chrome")]
        · simp [hE, hO, hC, hC2]

theorem detectBrowser_webkit_family_witness :
    (bytes "Mozilla") ≠ bytes "Opera" ∧ (bytes "Mozilla") ≠ bytes "Dalvik" ∧
    ∃ r, detectBrowser zeroUserAgent
        [⟨bytes "Mozilla", bytes "5.0", [bytes "Windows NT 6.1", bytes "WOW64"]⟩,
          ⟨bytes "AppleWebKit", bytes "537.36", [bytes "KHTML, like Gecko"]⟩,
          ⟨bytes "Chrome", bytes "41.0.2228.0", []⟩, ⟨bytes "Safari", bytes "537.36", []⟩]
        = Except.ok r ∧
      r.Browser.Version = bytes "41.0.2228.0" ∧ r.Browser.Name = bytes "Chrome" :=
  ⟨by decide, by decide,
    match detectBrowser_webkit_family zeroUserAgent
      ⟨bytes "Mozilla", bytes "5.0", [bytes "Windows NT 6.1", bytes "WOW64"]⟩
      ⟨bytes "AppleWebKit", bytes "537.36", [bytes "KHTML, like Gecko"]⟩
      ⟨bytes "Chrome", bytes "41.0.2228.0", []⟩ ⟨bytes "Safari", bytes "537.36", []⟩
      [⟨bytes "Safari", bytes "537.36", []⟩]
      (by decide) (by decide) rfl rfl with
    | ⟨r, h, _, _, h3⟩ =>
      ⟨r, h, (h3 (by decide) (by decide)).1, (h3 (by decide) (by decide)).2.1⟩⟩

/-! ## Internet Explorer 11 -/

theorem ie11Loop_eq (comment : List Str) :
    ie11Loop comment
      = Except.ok ((comment.find? (fun c => decide (ie11FindStringSubmatch c ≠ []))).map
          (fun c => c.drop 3)) := by
  induction comment with
  | nil => rfl
  | cons c rest ih =>
    unfold ie11Loop
    by_cases h : hasPrefix c (bytes "rv:") = true ∧ c.drop 3 ≠ [] ∧ 10 ∉ c.drop 3
    · have hm : ie11FindStringSubmatch c = [c, c.drop 3] := by
        rw [ie11FindStringSubmatch, if_pos h]
      have hd : decide (ie11FindStringSubmatch c ≠ []) = true := by
        rw [hm]; simp
      have hf : (c :: rest).find? (fun c => decide (ie11FindStringSubmatch c ≠ [])) = some c := by
        rw [List.find?_cons, hd]
      rw [hf]
      simp only [hm, List.length_cons, List.length_nil, gt_iff_lt, Nat.zero_lt_succ, if_true,
        idx_cons_succ, idx_cons_zero, ok_bind, pure_eq_ok, Option.map_some']
    · have hm : ie11FindStringSubmatch c = [] := by
        rw [ie11FindStringSubmatch, if_neg h]
      have hd : decide (ie11FindStringSubmatch c ≠ []) = false := by
        rw [hm]; simp
      have hf : (c :: rest).find? (fun c => decide (ie11FindStringSubmatch c ≠ []))
          = rest.find? (fun c => decide (ie11FindStringSubmatch c ≠ [])) := by
        rw [List.find?_cons, hd]
      rw [hf]
      simp only [hm, List.length_nil, gt_iff_lt, Nat.lt_irrefl, if_false]
      exact ih

theorem ie11_matches_iff (c : Str) :
    ie11FindStringSubmatch c ≠ [] ↔ ∃ v, c = bytes "rv:" ++ v ∧ v ≠ [] ∧ 10 ∉ v := by
  unfold ie11FindStringSubmatch
  constructor
  · intro h
    split_ifs at h with hc
    · obtain ⟨h1, h2, h3⟩ := hc
      refine ⟨c.drop 3, ?_, h2, h3⟩
      unfold hasPrefix at h1
      rw [ List.isPrefixOf_iff_prefix] at h1
      obtain ⟨t, ht⟩ := h1
      rw [← ht]
      have : (bytes "rv:").length = 3 := by decide
      rw [← this, List.drop_left]
    · exact absurd rfl h
  · rintro ⟨v, hv, hne, hnl⟩
    subst hv
    have hp : hasPrefix (bytes "rv:" ++ v) (bytes "rv:") = true := by
      unfold hasPrefix
      rw [ List.isPrefixOf_iff_prefix]
      exact List.prefix_append _ _
    have hd : (bytes "rv:" ++ v).drop 3 = v := by
      have : (bytes "rv:").length = 3 := by decide
      rw [← this, List.drop_left]
    simp [hp, hd, hne, hnl]

/-- Claim C14: for at least three sections, the first named neither `Opera` nor
`Dalvik`, the second named `like` and the third named `Gecko`, `detectBrowser`
sets the engine `Trident`, the name `Internet Explorer`, and as version the
text after `rv:` of the first comment token of the first section that matches
the pattern (that is, `rv:` followed by at least one byte, none of them a line
feed); when no token matches, the version is empty.  The Internet Explorer 11
header of the specification gives `11.0`. -/
theorem detectBrowser_ie11 (p : UserAgent) (s0 s1 s2 : Section) (rest : List Section)
    (hn1 : s0.name ≠ bytes "Opera") (hn2 : s0.name ≠ bytes "Dalvik")
    (h1 : s1.name = bytes "like") (h2 : s2.name = bytes "Gecko") :
    (∃ r, detectBrowser p (s0 :: s1 :: s2 :: rest) = Except.ok r ∧
      r.Browser.Engine = bytes "Trident" ∧ r.Browser.Name = bytes "Internet Explorer" ∧
      (∀ c, s0.comment.find? (fun c => decide (ie11FindStringSubmatch c ≠ [])) = some c →
        r.Browser.Version = c.drop 3) ∧
      (s0.comment.find? (fun c => decide (ie11FindStringSubmatch c ≠ [])) = none →
        r.Browser.Version = [])) ∧
    (∀ c, ie11FindStringSubmatch c ≠ [] ↔ ∃ v, c = bytes "rv:" ++ v ∧ v ≠ [] ∧ 10 ∉ v) ∧
    (∀ (bot : BotChecks) (q : UserAgent), ∃ r,
      Parse bot q (bytes "Mozilla/5.0 (Windows NT 6.3; Trident/7.0; rv:11.0) like Gecko")
        = Except.ok r ∧
      r.Browser.Engine = bytes "Trident" ∧ r.Browser.Name = bytes "Internet Explorer" ∧
      r.Browser.Version = bytes "11.0") := by
  refine ⟨?_, ie11_matches_iff, ?_⟩
  · have e1 : ¬ bytes "like" = bytes "AppleWebKit" := by decide
    have e2 : ¬ bytes "like" = bytes "Gecko" := by decide
    have hsv : ∃ sv, idx (s0 :: s1 :: s2 :: rest)
        (if s2.version = [] ∧ (s0 :: s1 :: s2 :: rest).length > 3 then 3 else 2)
        = Except.ok sv := by
      rcases rest with _ | ⟨s3, rest2⟩
      · exact ⟨s2, by simp⟩
      · by_cases hv : s2.version = []
        · exact ⟨s3, by simp [hv]⟩
        · exact ⟨s2, by simp [hv]⟩
    obtain ⟨sv, hsv1⟩ := hsv
    simp only [List.length_cons] at hsv1
    simp only [detectBrowser, List.length_cons, idx_cons_zero, idx_cons_succ, ok_bind, hn1, hn2,
      if_false, hsv1, h1, h2, e1, e2, and_self, if_true, pure_eq_ok, ie11Loop_eq]
    simp only [gt_iff_lt, Nat.lt_add_left_iff_pos, Nat.zero_lt_succ, Nat.lt_add_one, if_true]
    cases hf : s0.comment.find? (fun c => decide (ie11FindStringSubmatch c ≠ [])) with
    | none => simp
    | some c => simp
  · intro bot q
    have e := Parse_of_tokenize bot q
      (bytes "Mozilla/5.0 (Windows NT 6.3; Trident/7.0; rv:11.0) like Gecko")
      [⟨bytes "Mozilla", bytes "5.0",
          [bytes "Windows NT 6.3", bytes "Trident/7.0", bytes "rv:11.0"]⟩,
        ⟨bytes "like", [], []⟩, ⟨bytes "Gecko", [], []⟩]
      (by decide)
    rw [e]
    refine ⟨_, rfl, ?_, ?_, ?_⟩ <;> rfl

theorem detectBrowser_ie11_witness :
    (bytes "Mozilla") ≠ bytes "Opera" ∧ (bytes "Mozilla") ≠ bytes "Dalvik" ∧
    ∃ r, detectBrowser zeroUserAgent
        [⟨bytes "Mozilla", bytes "5.0",
            [bytes "Windows NT 6.3", bytes "Trident/7.0", bytes "rv:11.0"]⟩,
          ⟨bytes "like", [], []⟩, ⟨bytes "Gecko", [], []⟩] = Except.ok r ∧
      r.Browser.Engine = bytes "Trident" ∧ r.Browser.Name = bytes "Internet Explorer" ∧
      r.Browser.Version = bytes "11.0" :=
  ⟨by decide, by decide,
    match (detectBrowser_ie11 zeroUserAgent
      ⟨bytes "Mozilla", bytes "5.0",
        [bytes "Windows NT 6.3", bytes "Trident/7.0", bytes "rv:11.0"]⟩
      ⟨bytes "like", [], []⟩ ⟨bytes "Gecko", [], []⟩ []
      (by decide) (by decide) rfl rfl).1 with
    | ⟨r, h, h1, h2, h3, _⟩ => ⟨r, h, h1, h2, h3 (bytes "rv:11.0") (by decide)⟩⟩
/-! ## The undecided flag -/

theorem gecko_undecided (q : UserAgent) (comment : List Str) :
    Sat (gecko q comment) (fun r => r.Undecided = q.Undecided) := by
  intro r h
  rcases comment with _ | ⟨c0, _ | ⟨c1, _ | ⟨c2, _ | ⟨c3, rest⟩⟩⟩⟩ <;>
    simp [gecko, normalizeOS_eq] at h <;>
    (try split_ifs at h) <;> (try simp at h) <;> subst h <;> rfl

theorem ieMobileLoop_undecided (q : UserAgent) (comment : List Str) :
    (ieMobileLoop q comment).Undecided = q.Undecided := by
  induction comment with
  | nil => rfl
  | cons v rest ih =>
    unfold ieMobileLoop
    split_ifs
    · rfl
    · exact ih

theorem trident_undecided (q : UserAgent) (comment : List Str) :
    Sat (trident q comment) (fun r => r.Undecided = q.Undecided) := by
  intro r h
  rcases comment with _ | ⟨c0, _ | ⟨c1, _ | ⟨c2, rest⟩⟩⟩ <;>
    simp [trident, normalizeOS_eq] at h <;>
    (try split_ifs at h) <;> (try simp at h) <;> subst h <;>
    exact ieMobileLoop_undecided _ _

theorem dalvik_undecided (q : UserAgent) (comment : List Str) :
    Sat (dalvik q comment) (fun r => r.Undecided = q.Undecided) := by
  intro r h
  rcases comment with _ | ⟨c0, _ | ⟨c1, _ | ⟨c2, rest⟩⟩⟩ <;>
    simp [dalvik] at h <;>
    (try split_ifs at h) <;> (try simp at h) <;> subst h <;> rfl

theorem webkit_undecided_bot (bot : BotChecks) (q : UserAgent) (comment : List Str) :
    Sat (webkit bot q comment) (fun r =>
      r.Undecided = q.Undecided ∨
      ∃ x, x.Undecided = q.Undecided ∧ r.Undecided = (bot.googleBot x).1.Undecided) := by
  intro r h
  by_cases h1 : q.Platform = bytes "Linux"
  · rcases comment with _ | ⟨c0, _ | ⟨c1, _ | ⟨c2, _ | ⟨c3, rest⟩⟩⟩⟩ <;>
      simp [webkit, h1, bytes] at h <;>
      (try split_ifs at h) <;> (try simp at h) <;> subst h <;>
      first
        | exact Or.inl rfl
        | (refine Or.inr ⟨_, ?_, rfl⟩; rfl)
  · by_cases h2 : q.Platform = bytes "webOS"
    · rcases comment with _ | ⟨c0, _ | ⟨c1, _ | ⟨c2, _ | ⟨c3, rest⟩⟩⟩⟩ <;>
        simp [webkit, h2, bytes] at h <;>
        subst h <;> exact Or.inl rfl
    · by_cases h3 : q.Platform = bytes "Symbian"
      · rcases comment with _ | ⟨c0, _ | ⟨c1, _ | ⟨c2, _ | ⟨c3, rest⟩⟩⟩⟩ <;>
          simp [webkit, h3, bytes] at h <;>
          subst h <;> exact Or.inl rfl
      · rcases comment with _ | ⟨c0, _ | ⟨c1, _ | ⟨c2, _ | ⟨c3, rest⟩⟩⟩⟩ <;>
          simp [webkit, h1, h2, h3, normalizeOS_eq] at h <;>
          (try split_ifs at h) <;> (try simp at h) <;> subst h <;>
          first
            | exact Or.inl rfl
            | (refine Or.inr ⟨_, ?_, rfl⟩; rfl)

theorem detectOS_sets_undecided (bot : BotChecks) (q : UserAgent) (s : Section)
    (hq : q.Undecided = false) :
    Sat (detectOS bot q s) (fun r =>
      (¬ (s.name = bytes "Mozilla" ∧ q.Browser.Engine = bytes "AppleWebKit") →
        (r.Undecided = true ↔
          (s.name = bytes "Mozilla" ∧ q.Browser.Engine = []) ∨
          (s.name ≠ bytes "Mozilla" ∧ s.name ≠ bytes "Opera" ∧ s.name ≠ bytes "Dalvik"))) ∧
      (r.Undecided = true → s.name = bytes "Mozilla" →
        q.Browser.Engine = bytes "AppleWebKit" →
        ∃ x, x.Undecided = false ∧ (bot.googleBot x).1.Undecided = true)) := by
  rcases s with ⟨name, version, comment⟩
  have e0 : ¬ bytes "AppleWebKit" = [] := by decide
  unfold detectOS
  simp only
  apply sat_ite
  · intro hm
    apply sat_bind
    intro pl hpl
    dsimp only
    have hdisp : ∀ y : UserAgent, y.Undecided = false → y.Browser = q.Browser →
        Sat (if y.Browser.Engine = [] then pure { y with Undecided := true }
          else if y.Browser.Engine = bytes "Gecko" then gecko y comment
          else if y.Browser.Engine = bytes "AppleWebKit" then webkit bot y comment
          else if y.Browser.Engine = bytes "Trident" then trident y comment
          else pure y)
        (fun r =>
          (¬ (name = bytes "Mozilla" ∧ q.Browser.Engine = bytes "AppleWebKit") →
            (r.Undecided = true ↔
              (name = bytes "Mozilla" ∧ q.Browser.Engine = []) ∨
              (name ≠ bytes "Mozilla" ∧ name ≠ bytes "Opera" ∧ name ≠ bytes "Dalvik"))) ∧
          (r.Undecided = true → name = bytes "Mozilla" →
            q.Browser.Engine = bytes "AppleWebKit" →
            ∃ x, x.Undecided = false ∧ (bot.googleBot x).1.Undecided = true)) := by
      intro y hy1 hy2
      rw [hy2]
      apply sat_ite
      · intro he
        apply sat_ok
        refine ⟨fun _ => by simp [he, hm], ?_⟩
        intro _ _ heA
        rw [he] at heA
        exact absurd heA.symm e0
      · intro he
        apply sat_ite
        · intro _
          refine sat_mono _ _ _ (gecko_undecided y comment) ?_
          intro a ha
          refine ⟨fun _ => by simp [ha, hy1, he, hm], ?_⟩
          intro hu
          rw [ha, hy1] at hu
          exact absurd hu (by decide)
        · intro _
          apply sat_ite
          · intro heA
            refine sat_mono _ _ _ (webkit_undecided_bot bot y comment) ?_
            intro a ha
            refine ⟨fun hnot => absurd ⟨hm, heA⟩ hnot, ?_⟩
            intro hu _ _
            rcases ha with ha | ⟨x, hx, hxa⟩
            · rw [ha, hy1] at hu
              exact absurd hu (by decide)
            · exact ⟨x, hx.trans hy1, hxa.symm.trans hu⟩
          · intro _
            apply sat_ite
            · intro _
              refine sat_mono _ _ _ (trident_undecided y comment) ?_
              intro a ha
              refine ⟨fun _ => by simp [ha, hy1, he, hm], ?_⟩
              intro hu
              rw [ha, hy1] at hu
              exact absurd hu (by decide)
            · intro _
              apply sat_ok
              refine ⟨fun _ => by simp [hy1, he, hm], ?_⟩
              intro hu
              rw [hy1] at hu
              exact absurd hu (by decide)
    apply sat_ite
    · intro _
      apply sat_bind
      intro c0 _
      apply sat_bind
      intro os _
      simp only [pure_eq_ok, ok_bind]
      exact hdisp { q with Platform := pl, Os := os } hq rfl
    · intro _
      simp only [pure_eq_ok, ok_bind]
      exact hdisp { q with Platform := pl } hq rfl
  · intro hm
    have e1 : ¬ bytes "Opera" = bytes "Mozilla" := by decide
    have e2 : ¬ bytes "Dalvik" = bytes "Mozilla" := by decide
    apply sat_ite
    · intro ho
      apply sat_ite
      · intro _
        refine sat_mono _ _ _ (opera_frame q comment) ?_
        intro a ha
        exact ⟨fun _ => by simp [ha.2.1, hq, ho, e1], fun _ hm2 => absurd hm2 hm⟩
      · intro _
        apply sat_ok
        exact ⟨fun _ => by simp [hq, ho, e1], fun _ hm2 => absurd hm2 hm⟩
    · intro ho
      apply sat_ite
      · intro hd
        apply sat_ite
        · intro _
          refine sat_mono _ _ _ (dalvik_undecided q comment) ?_
          intro a ha
          exact ⟨fun _ => by simp [ha, hq, hd, e2], fun _ hm2 => absurd hm2 hm⟩
        · intro _
          apply sat_ok
          exact ⟨fun _ => by simp [hq, hd, e2], fun _ hm2 => absurd hm2 hm⟩
      · intro hd
        apply sat_ok
        exact ⟨fun _ => by simp [hm, ho, hd], fun _ hm2 => absurd hm2 hm⟩

/-- Claim C15, as amended: on a record with `Undecided = false`, whatever the
bot checks do, `detectOS` returns a record, and unless the first section is
named `Mozilla` with the detected engine `AppleWebKit`, its `Undecided` is true
exactly when the first section is named `Mozilla` and no engine was detected,
or the first section is named none of `Mozilla`, `Opera` and `Dalvik`.  So a
first section named `Opera` or `Dalvik` leaves the flag false, and so does
`Mozilla` with a detected engine other than `AppleWebKit`.  With the engine
`AppleWebKit` the flag is true only if the Google bot check, which the WebKit
heuristic calls, set it on a record that had it false; a check that leaves the
flag alone gives the same equivalence for every engine, and a check that sets
it makes `detectOS` return `Undecided = true` for a first section `Mozilla`
with a comment of two tokens. -/
theorem detectOS_undecided (bot : BotChecks) (q : UserAgent) (s : Section)
    (hq : q.Undecided = false) :
    (∃ r, detectOS bot q s = Except.ok r ∧
      (¬ (s.name = bytes "Mozilla" ∧ q.Browser.Engine = bytes "AppleWebKit") →
        (r.Undecided = true ↔
          (s.name = bytes "Mozilla" ∧ q.Browser.Engine = []) ∨
          (s.name ≠ bytes "Mozilla" ∧ s.name ≠ bytes "Opera" ∧ s.name ≠ bytes "Dalvik"))) ∧
      (s.name = bytes "Opera" ∨ s.name = bytes "Dalvik" → r.Undecided = false) ∧
      (s.name = bytes "Mozilla" → q.Browser.Engine ≠ [] →
        q.Browser.Engine ≠ bytes "AppleWebKit" → r.Undecided = false) ∧
      (s.name = bytes "Mozilla" → q.Browser.Engine = bytes "AppleWebKit" →
        r.Undecided = true →
        ∃ x, x.Undecided = false ∧ (bot.googleBot x).1.Undecided = true) ∧
      ((∀ x, (bot.googleBot x).1.Undecided = x.Undecided) →
        (r.Undecided = true ↔
          (s.name = bytes "Mozilla" ∧ q.Browser.Engine = []) ∨
          (s.name ≠ bytes "Mozilla" ∧ s.name ≠ bytes "Opera" ∧
            s.name ≠ bytes "Dalvik")))) ∧
    (detectOS ⟨fun x => ({ x with Undecided := true }, true), fun x _ => x⟩
        { zeroUserAgent with Browser := ⟨bytes "AppleWebKit", bytes "536.26", bytes "Safari", bytes "6.0"⟩ }
        ⟨bytes "Mozilla", bytes "5.0", [bytes "iPhone", bytes "CPU iPhone OS 6_0 like Mac OS X"]⟩).map
      (fun r => r.Undecided) = Except.ok true := by
  refine ⟨?_, by decide⟩
  obtain ⟨r, hr⟩ := detectOS_ok bot q s
  obtain ⟨h, hbot⟩ := detectOS_sets_undecided bot q s hq r hr
  have e0 : ¬ bytes "AppleWebKit" = [] := by decide
  have hfalse : ∀ b : Bool, ¬ b = true → b = false := by
    intro b hb
    cases b
    · rfl
    · exact absurd rfl hb
  refine ⟨r, hr, h, ?_, ?_, ?_, ?_⟩
  · intro hn
    have hnot : ¬ (s.name = bytes "Mozilla" ∧ q.Browser.Engine = bytes "AppleWebKit") := by
      rintro ⟨hm, _⟩
      rcases hn with hn | hn
      · rw [hn] at hm; exact absurd hm (by decide)
      · rw [hn] at hm; exact absurd hm (by decide)
    apply hfalse
    intro hu
    rcases (h hnot).mp hu with ⟨hm, _⟩ | ⟨_, h2, h3⟩
    · rcases hn with hn | hn
      · rw [hn] at hm; exact absurd hm (by decide)
      · rw [hn] at hm; exact absurd hm (by decide)
    · rcases hn with hn | hn
      · exact h2 hn
      · exact h3 hn
  · intro hm he hne
    apply hfalse
    intro hu
    rcases (h (fun hc => hne hc.2)).mp hu with ⟨_, h1⟩ | ⟨h1, _⟩
    · exact he h1
    · exact h1 hm
  · intro hm he hu
    exact hbot hu hm he
  · intro hgb
    by_cases hc : s.name = bytes "Mozilla" ∧ q.Browser.Engine = bytes "AppleWebKit"
    · have hnu : ¬ r.Undecided = true := by
        intro hu
        obtain ⟨x, hx1, hx2⟩ := hbot hu hc.1 hc.2
        rw [hgb x, hx1] at hx2
        exact absurd hx2 (by decide)
      constructor
      · intro hu; exact absurd hu hnu
      · rintro (⟨_, h1⟩ | ⟨h1, _⟩)
        · rw [hc.2] at h1; exact absurd h1 e0
        · exact absurd hc.1 h1
    · exact h hc

theorem detectOS_undecided_witness :
    ∃ r, detectOS noBot
        { zeroUserAgent with Browser := ⟨bytes "Presto", bytes "2.12.388", bytes "Opera", bytes "9.80"⟩ }
        ⟨bytes "Opera", bytes "9.80", [bytes "Windows NT 6.1", bytes "U", bytes "en"]⟩
        = Except.ok r ∧ r.Undecided = false :=
  match (detectOS_undecided noBot
      { zeroUserAgent with Browser := ⟨bytes "Presto", bytes "2.12.388", bytes "Opera", bytes "9.80"⟩ }
      ⟨bytes "Opera", bytes "9.80", [bytes "Windows NT 6.1", bytes "U", bytes "en"]⟩
      rfl).1 with
  | ⟨r, h, _, h2, _⟩ => ⟨r, h, h2 (Or.inl rfl)⟩

/-- Claim C15 fails as stated: the header `Mozilla/5.0` has one section, named
`Mozilla`; `detectBrowser` detects no engine for it, and `detectOS` sets
`Undecided` to true.  With bot checks that change nothing, `Parse` returns the
record with `Undecided = true`. -/
theorem mozilla_alone_undecided :
    tokenize (bytes "Mozilla/5.0") = Except.ok [⟨bytes "Mozilla", bytes "5.0", []⟩] ∧
    detectBrowser { zeroUserAgent with Mozilla := bytes "5.0" }
        [⟨bytes "Mozilla", bytes "5.0", []⟩]
      = Except.ok { zeroUserAgent with Mozilla := bytes "5.0" } ∧
    (detectOS noBot { zeroUserAgent with Mozilla := bytes "5.0" }
        ⟨bytes "Mozilla", bytes "5.0", []⟩).map (fun r => r.Undecided) = Except.ok true ∧
    (Parse noBot zeroUserAgent (bytes "Mozilla/5.0")).map (fun r => r.Undecided)
      = Except.ok true := by
  decide
/-! ## What `detectBrowser` leaves alone -/

theorem tridentTokenLoop_rest (p a : UserAgent) (comment : List Str)
    (h : tridentTokenLoop p comment = Except.ok a) :
    a.ua = p.ua ∧ a.Platform = p.Platform ∧ a.Os = p.Os ∧ a.Localization = p.Localization ∧
      a.Bot = p.Bot ∧ a.Undecided = p.Undecided := by
  rw [tridentTokenLoop_eq] at h
  simp only [Except.ok.injEq] at h
  subst h
  split
  · split_ifs <;> exact ⟨rfl, rfl, rfl, rfl, rfl, rfl⟩
  · exact ⟨rfl, rfl, rfl, rfl, rfl, rfl⟩

theorem detectBrowser_frame (q : UserAgent) (secs : List Section) :
    Sat (detectBrowser q secs) (fun r =>
      r.ua = q.ua ∧ r.Platform = q.Platform ∧ r.Os = q.Os ∧ r.Localization = q.Localization ∧
      r.Bot = q.Bot ∧ r.Undecided = q.Undecided) := by
  rcases secs with _ | ⟨s0, _ | ⟨s1, _ | ⟨s2, _ | ⟨s3, _ | ⟨s4, rest⟩⟩⟩⟩⟩
  · intro r h
    simp [detectBrowser] at h
  · unfold detectBrowser
    simp only [List.length_cons, List.length_nil, idx_cons_zero, ok_bind, pure_eq_ok]
    apply sat_ite
    · intro _
      apply sat_ite
      · intro h; simp at h
      · intro _; apply sat_ok; exact ⟨rfl, rfl, rfl, rfl, rfl, rfl⟩
    · intro _
      apply sat_ite
      · intro _; apply sat_ok; exact ⟨rfl, rfl, rfl, rfl, rfl, rfl⟩
      · intro _
        apply sat_ite
        · intro h; simp at h
        · intro _
          apply sat_ite
          · intro _
            apply sat_bind
            intro c0 _
            apply sat_bind
            intro c1 _
            apply sat_ite
            · intro _
              apply sat_bind
              intro a ha
              have hf := tridentTokenLoop_rest _ _ _ ha
              apply sat_ite
              · intro _
                apply sat_bind
                intro t _
                apply sat_ok
                exact hf
              · intro _
                apply sat_ok
                exact hf
            · intro _; apply sat_ok; exact ⟨rfl, rfl, rfl, rfl, rfl, rfl⟩
          · intro _; apply sat_ok; exact ⟨rfl, rfl, rfl, rfl, rfl, rfl⟩
  case cons.cons.cons.cons.cons =>
    obtain ⟨o, ho⟩ := ie11Loop_ok s0.comment
    obtain ⟨l, hl⟩ := idx_cons_length rest s4
    cases o <;> simp [detectBrowser, ho, hl] <;>
      repeat' first
        | (apply sat_ite <;> intro _)
        | (apply sat_ok; exact ⟨rfl, rfl, rfl, rfl, rfl, rfl⟩)
        | (apply sat_bind; intro _ _)
  all_goals
    obtain ⟨o, ho⟩ := ie11Loop_ok s0.comment
    cases o <;> simp [detectBrowser, ho] <;>
      repeat' first
        | (apply sat_ite <;> intro _)
        | (apply sat_ok; exact ⟨rfl, rfl, rfl, rfl, rfl, rfl⟩)
        | (apply sat_bind; intro _ _)

theorem detectBrowser_gecko (q : UserAgent) (s0 s1 : Section) (rest : List Section)
    (hn1 : s0.name ≠ bytes "Opera") (hn2 : s0.name ≠ bytes "Dalvik")
    (h1 : s1.name = bytes "Gecko") :
    Sat (detectBrowser q (s0 :: s1 :: rest)) (fun r => r.Browser.Engine = bytes "Gecko") := by
  have e1 : ¬ bytes "Gecko" = bytes "AppleWebKit" := by decide
  rcases rest with _ | ⟨s2, _ | ⟨s3, _ | ⟨s4, rest⟩⟩⟩ <;>
    simp [detectBrowser, hn1, hn2, h1, e1] <;>
    repeat' first
      | (apply sat_ite <;> intro _)
      | (apply sat_ok; simp [h1])
      | (refine sat_bind (idx _ _) _ _ ?_; intro _ _)

theorem classify_decided (bot : BotChecks) (q0 q r : UserAgent) (s0 : Section)
    (rest : List Section)
    (hdb : detectBrowser
      (if s0.name = bytes "Mozilla" then { q0 with Mozilla := s0.version } else q0)
      (s0 :: rest) = Except.ok q)
    (hos : detectOS bot q s0 = Except.ok r) (hu : r.Undecided = false) :
    classify bot q0 (s0 :: rest) = Except.ok r := by
  simp only [classify, List.length_cons, gt_iff_lt, Nat.zero_lt_succ, if_true, idx_cons_zero,
    ok_bind, hdb, hos, hu, pure_eq_ok]
  rfl

/-! ## The Gecko heuristic -/

theorem detectOS_gecko_android (bot : BotChecks) (q : UserAgent) (s : Section)
    (c1 : Str) (crest : List Str)
    (h0 : s.name = bytes "Mozilla") (he : q.Browser.Engine = bytes "Gecko")
    (hc : s.comment = bytes "Android" :: c1 :: crest) (hu : c1 ≠ bytes "U") :
    ∃ r, detectOS bot q s = Except.ok r ∧ r.Mobile = true ∧ r.Platform = normOS c1 ∧
      r.Os = bytes "Android" ∧ r.Undecided = q.Undecided := by
  rcases s with ⟨n0, v0, cm0⟩
  simp only at h0 hc
  subst h0 hc
  have e1 : ¬ bytes "Android" = bytes "compatible" := by decide
  have e2 : hasPrefix (bytes "Android") (bytes "Windows") = false := by decide
  have e3 : hasPrefix (bytes "Android") (bytes "Symbian") = false := by decide
  have e4 : hasPrefix (bytes "Android") (bytes "webOS") = false := by decide
  have e5 : ¬ bytes "Android" = bytes "BB10" := by decide
  have e6 : ¬ bytes "Android" = bytes "Windows" := by decide
  have e7 : ¬ bytes "Gecko" = [] := by decide
  rcases crest with _ | ⟨c2, _ | ⟨c3, cr⟩⟩
  · simp [detectOS, getPlatform, gecko, normalizeOS_eq, he, hu, e1, e2, e3, e4, e5, e6, e7]
  · simp [detectOS, getPlatform, gecko, normalizeOS_eq, he, hu, e1, e2, e3, e4, e5, e6, e7]
  · by_cases hp : hasPrefix c3 (bytes "rv:") = true
    · simp [detectOS, getPlatform, gecko, normalizeOS_eq, he, hu, e1, e2, e3, e4, e5, e6, e7, hp]
    · simp [detectOS, getPlatform, gecko, normalizeOS_eq, he, hu, e1, e2, e3, e4, e5, e6, e7, hp]

/-- Claim C16: for a header whose first section is named `Mozilla`, whose second
section is named `Gecko` and whose first comment starts with the token
`Android` followed by a token other than `U`, `detectOS` (called by `Parse` on
the record `detectBrowser` returns) sets `Mobile = true`, the platform to
`normalizeOS` of the second comment token and the operating system to
`Android`, and `Parse` returns that record. -/
theorem Parse_gecko_android (bot : BotChecks) (p : UserAgent) (ua : Str) (s0 s1 : Section)
    (rest : List Section) (c1 : Str) (crest : List Str)
    (htok : tokenize ua = Except.ok (s0 :: s1 :: rest))
    (h0 : s0.name = bytes "Mozilla") (h1 : s1.name = bytes "Gecko")
    (hc : s0.comment = bytes "Android" :: c1 :: crest) (hu : c1 ≠ bytes "U") :
    ∃ q r,
      detectBrowser
        { zeroUserAgent with ua := ua, Mozilla := s0.version,
                             Mobile := hasMobileSection (s0 :: s1 :: rest) }
        (s0 :: s1 :: rest) = Except.ok q ∧
      detectOS bot q s0 = Except.ok r ∧ Parse bot p ua = Except.ok r ∧
      r.Mobile = true ∧ normalizeOS c1 = Except.ok r.Platform ∧ r.Os = bytes "Android" := by
  have hn1 : s0.name ≠ bytes "Opera" := by rw [h0]; decide
  have hn2 : s0.name ≠ bytes "Dalvik" := by rw [h0]; decide
  obtain ⟨q, hq⟩ := detectBrowser_ok
    { zeroUserAgent with ua := ua, Mozilla := s0.version,
                         Mobile := hasMobileSection (s0 :: s1 :: rest) }
    (s0 :: s1 :: rest) (List.cons_ne_nil _ _)
  have he := detectBrowser_gecko _ s0 s1 rest hn1 hn2 h1 q hq
  have hf := detectBrowser_frame _ _ q hq
  obtain ⟨r, hr, hm, hpl, hos, hun⟩ := detectOS_gecko_android bot q s0 c1 crest h0 he hc hu
  have hun2 : r.Undecided = false := by rw [hun, hf.2.2.2.2.2]; rfl
  refine ⟨q, r, hq, hr, ?_, hm, ?_, hos⟩
  · rw [Parse_of_tokenize bot p ua _ htok]
    refine classify_decided bot _ q r s0 _ ?_ hr hun2
    rw [if_pos h0]
    exact hq
  · rw [normalizeOS_eq, hpl]

theorem Parse_gecko_android_witness :
    tokenize (bytes "Mozilla/5.0 (Android; Mobile; rv:40.0) Gecko/40.0 Firefox/40.0")
      = Except.ok
        [⟨bytes "Mozilla", bytes "5.0", [bytes "Android", bytes "Mobile", bytes "rv:40.0"]⟩,
          ⟨bytes "Gecko", bytes "40.0", []⟩, ⟨bytes "Firefox", bytes "40.0", []⟩] ∧
    bytes "Mobile" ≠ bytes "U" ∧
    ∃ r, Parse noBot zeroUserAgent
        (bytes "Mozilla/5.0 (Android; Mobile; rv:40.0) Gecko/40.0 Firefox/40.0") = Except.ok r ∧
      r.Mobile = true ∧ normalizeOS (bytes "Mobile") = Except.ok r.Platform ∧
      r.Os = bytes "Android" :=
  ⟨by decide, by decide,
    match Parse_gecko_android noBot zeroUserAgent
      (bytes "Mozilla/5.0 (Android; Mobile; rv:40.0) Gecko/40.0 Firefox/40.0")
      ⟨bytes "Mozilla", bytes "5.0", [bytes "Android", bytes "Mobile", bytes "rv:40.0"]⟩
      ⟨bytes "Gecko", bytes "40.0", []⟩ [⟨bytes "Firefox", bytes "40.0", []⟩]
      (bytes "Mobile") [bytes "rv:40.0"]
      (by decide) rfl rfl rfl (by decide) with
    | ⟨_, r, _, _, h, h1, h2, h3⟩ => ⟨r, h, h1, h2, h3⟩⟩

theorem gecko_localization (q : UserAgent) (comment : List Str) :
    Sat (gecko q comment) (fun r =>
      (∀ c3, comment.get? 3 = some c3 → hasPrefix c3 (bytes "rv:") = false →
        r.Localization = c3) ∧
      ((∀ c3, comment.get? 3 = some c3 → hasPrefix c3 (bytes "rv:") = true) →
        r.Localization = q.Localization)) := by
  intro r h
  rcases comment with _ | ⟨c0, _ | ⟨c1, _ | ⟨c2, _ | ⟨c3, rest⟩⟩⟩⟩
  · simp [gecko] at h; subst h; simp
  · simp [gecko] at h; subst h; simp
  · simp [gecko, normalizeOS_eq] at h
    split_ifs at h <;> (try simp at h) <;> subst h <;> simp
  · simp [gecko, normalizeOS_eq] at h
    split_ifs at h <;> (try simp at h) <;> subst h <;> simp
  · by_cases hp : hasPrefix c3 (bytes "rv:") = true
    · simp [gecko, normalizeOS_eq, hp] at h
      split_ifs at h <;> (try simp at h) <;> subst h <;> simp [hp]
    · have hp2 : hasPrefix c3 (bytes "rv:") = false := by simpa using hp
      simp [gecko, normalizeOS_eq, hp2] at h
      split_ifs at h <;> (try simp at h) <;> subst h <;> simp [hp2]

theorem detectOS_gecko (bot : BotChecks) (q : UserAgent) (s : Section)
    (h0 : s.name = bytes "Mozilla") (he : q.Browser.Engine = bytes "Gecko") :
    Sat (detectOS bot q s) (fun r =>
      r.Undecided = q.Undecided ∧
      (∀ c3, s.comment.get? 3 = some c3 → hasPrefix c3 (bytes "rv:") = false →
        r.Localization = c3) ∧
      ((∀ c3, s.comment.get? 3 = some c3 → hasPrefix c3 (bytes "rv:") = true) →
        r.Localization = q.Localization)) := by
  have e7 : ¬ bytes "Gecko" = [] := by decide
  have hdisp : ∀ y : UserAgent, y.Undecided = q.Undecided → y.Localization = q.Localization →
      Sat (gecko y s.comment) (fun r =>
        r.Undecided = q.Undecided ∧
        (∀ c3, s.comment.get? 3 = some c3 → hasPrefix c3 (bytes "rv:") = false →
          r.Localization = c3) ∧
        ((∀ c3, s.comment.get? 3 = some c3 → hasPrefix c3 (bytes "rv:") = true) →
          r.Localization = q.Localization)) := by
    intro y hy1 hy2 r hr
    have h1 := gecko_undecided y s.comment r hr
    have h2 := gecko_localization y s.comment r hr
    exact ⟨h1.trans hy1, h2.1, fun h => (h2.2 h).trans hy2⟩
  unfold detectOS
  simp only [h0, if_true]
  apply sat_bind
  intro pl _
  dsimp only
  apply sat_ite
  · intro _
    apply sat_bind
    intro c0 _
    apply sat_bind
    intro os _
    simp only [pure_eq_ok, ok_bind, he, e7, if_false, if_true]
    exact hdisp { q with Platform := pl, Os := os } rfl rfl
  · intro _
    simp only [pure_eq_ok, ok_bind, he, e7, if_false, if_true]
    exact hdisp { q with Platform := pl } rfl rfl

/-- Claim C17: for a header whose first section is named `Mozilla` and for which
`detectBrowser` (on the record `Parse` calls it with) detects the engine
`Gecko`, the `Localization` of the record `Parse` returns is the fourth token
of the comment of the first section when there is one and it does not start
with `rv:`, and is empty otherwise. -/
theorem Parse_gecko_localization (bot : BotChecks) (p q : UserAgent) (ua : Str) (s0 : Section)
    (rest : List Section)
    (htok : tokenize ua = Except.ok (s0 :: rest))
    (h0 : s0.name = bytes "Mozilla")
    (hdb : detectBrowser
      { zeroUserAgent with ua := ua, Mozilla := s0.version,
                           Mobile := hasMobileSection (s0 :: rest) }
      (s0 :: rest) = Except.ok q)
    (he : q.Browser.Engine = bytes "Gecko") :
    ∃ r, Parse bot p ua = Except.ok r ∧
      (∀ c3, s0.comment.get? 3 = some c3 → hasPrefix c3 (bytes "rv:") = false →
        r.Localization = c3) ∧
      ((∀ c3, s0.comment.get? 3 = some c3 → hasPrefix c3 (bytes "rv:") = true) →
        r.Localization = []) := by
  have hf := detectBrowser_frame _ _ q hdb
  obtain ⟨r, hr⟩ := detectOS_ok bot q s0
  obtain ⟨hun, hl1, hl2⟩ := detectOS_gecko bot q s0 h0 he r hr
  have hun2 : r.Undecided = false := by rw [hun, hf.2.2.2.2.2]; rfl
  refine ⟨r, ?_, hl1, ?_⟩
  · rw [Parse_of_tokenize bot p ua _ htok]
    refine classify_decided bot _ q r s0 _ ?_ hr hun2
    rw [if_pos h0]
    exact hdb
  · intro h
    rw [hl2 h, hf.2.2.2.1]
    rfl

theorem Parse_gecko_localization_witness :
    tokenize (bytes "Mozilla/5.0 (X11; U; Linux i686; en-US; rv:1.9.1.8) Gecko/20100214 Firefox/3.5.8")
      = Except.ok
        [⟨bytes "Mozilla", bytes "5.0",
            [bytes "X11", bytes "U", bytes "Linux i686", bytes "en-US", bytes "rv:1.9.1.8"]⟩,
          ⟨bytes "Gecko", bytes "20100214", []⟩, ⟨bytes "Firefox", bytes "3.5.8", []⟩] ∧
    ∃ r, Parse noBot zeroUserAgent
        (bytes "Mozilla/5.0 (X11; U; Linux i686; en-US; rv:1.9.1.8) Gecko/20100214 Firefox/3.5.8")
        = Except.ok r ∧
      r.Localization = bytes "en-US" :=
  ⟨by decide,
    match Parse_gecko_localization noBot zeroUserAgent
      { zeroUserAgent with ua := bytes "Mozilla/5.0 (X11; U; Linux i686; en-US; rv:1.9.1.8) Gecko/20100214 Firefox/3.5.8", Mozilla := bytes "5.0", Browser := ⟨bytes "Gecko", bytes "20100214", bytes "Firefox", bytes "3.5.8"⟩ }
      (bytes "Mozilla/5.0 (X11; U; Linux i686; en-US; rv:1.9.1.8) Gecko/20100214 Firefox/3.5.8")
      ⟨bytes "Mozilla", bytes "5.0",
        [bytes "X11", bytes "U", bytes "Linux i686", bytes "en-US", bytes "rv:1.9.1.8"]⟩
      [⟨bytes "Gecko", bytes "20100214", []⟩, ⟨bytes "Firefox", bytes "3.5.8", []⟩]
      (by decide) rfl (by decide) rfl with
    | ⟨r, h, h1, _⟩ => ⟨r, h, h1 (bytes "en-US") rfl (by decide)⟩⟩

/-! ## The Trident heuristic -/

theorem normOS_ne_nil (s : Str) (h : s ≠ []) : normOS s ≠ [] := by
  rcases normOS_cases s with e | ⟨v, hv⟩
  · rw [e]; exact h
  · intro e
    rw [e] at hv
    revert hv
    simp [ntTable, bytes]

theorem getPlatform_windows (c0 pl : Str) (rest : List Str)
    (h : getPlatform (c0 :: rest) = Except.ok pl) :
    pl = bytes "Windows" ↔ hasPrefix c0 (bytes "Windows") = true := by
  simp only [getPlatform, List.length_cons, gt_iff_lt, Nat.zero_lt_succ, if_true, idx_cons_zero,
    ok_bind, pure_eq_ok] at h
  split_ifs at h with h1 h2 h3 h4 h5 <;> simp only [Except.ok.injEq] at h <;> subst h
  · exact ⟨fun _ => h2, fun _ => rfl⟩
  · constructor
    · intro e; exact absurd e (by decide)
    · intro e; exact absurd e h2
  · constructor
    · intro e; exact absurd e (by decide)
    · intro e; exact absurd e h2
  · constructor
    · intro e; exact absurd e (by decide)
    · intro e; exact absurd e h2
  · constructor
    · intro e; rw [e] at h2; exact absurd (by decide) h2
    · intro e; exact absurd e h2
  · constructor
    · intro e; exact absurd e (by decide)
    · intro e
      have : c0 = bytes "compatible" := by simpa using h1
      rw [this] at e
      revert e
      decide

theorem ieMobileLoop_eq (p : UserAgent) (comment : List Str) :
    ieMobileLoop p comment
      = if comment.any (fun v => hasPrefix v (bytes "IEMobile")) = true
        then { p with Mobile := true } else p := by
  induction comment with
  | nil => rfl
  | cons v rest ih =>
    unfold ieMobileLoop
    by_cases h : hasPrefix v (bytes "IEMobile") = true
    · simp [h]
    · have h2 : hasPrefix v (bytes "IEMobile") = false := by simpa using h
      simp only [h2, Bool.false_eq_true, if_false, List.any_cons, Bool.false_or]
      exact ih

theorem trident_spec (y : UserAgent) (comment : List Str) :
    Sat (trident y comment) (fun r =>
      r.Undecided = y.Undecided ∧ r.Platform = bytes "Windows" ∧
      (y.Os ≠ [] → r.Os = y.Os) ∧
      (y.Os = [] → (∀ c2, comment.get? 2 = some c2 → r.Os = normOS c2) ∧
        (comment.length < 3 → r.Os = bytes "Windows NT 4.0")) ∧
      ((∃ v ∈ comment, hasPrefix v (bytes "IEMobile") = true) → r.Mobile = true)) := by
  intro r h
  have hany : (∃ v ∈ comment, hasPrefix v (bytes "IEMobile") = true) →
      comment.any (fun v => hasPrefix v (bytes "IEMobile")) = true := by
    intro hv
    simpa using hv
  by_cases ho : y.Os = []
  · rcases comment with _ | ⟨c0, _ | ⟨c1, _ | ⟨c2, rest⟩⟩⟩
    · simp [trident, ho, ieMobileLoop_eq] at h
      subst h
      simp [ho]
    · simp only [trident, ho, if_true, List.length_cons, List.length_nil, pure_eq_ok, ok_bind,
        ieMobileLoop_eq] at h
      have h21 : ¬ (2 < 0 + 1) := by omega
      simp only [gt_iff_lt, h21, if_false, ok_bind, Except.ok.injEq] at h
      subst h
      refine ⟨?_, ?_, ?_, ?_, ?_⟩
      · split_ifs <;> rfl
      · split_ifs <;> rfl
      · intro hne; exact absurd ho hne
      · intro _
        refine ⟨by simp, ?_⟩
        intro _
        split_ifs <;> rfl
      · intro hv
        rw [if_pos (hany hv)]
    · simp only [trident, ho, if_true, List.length_cons, List.length_nil, pure_eq_ok, ok_bind,
        ieMobileLoop_eq] at h
      have h22 : ¬ (2 < 0 + 1 + 1) := by omega
      simp only [gt_iff_lt, h22, if_false, ok_bind, Except.ok.injEq] at h
      subst h
      refine ⟨?_, ?_, ?_, ?_, ?_⟩
      · split_ifs <;> rfl
      · split_ifs <;> rfl
      · intro hne; exact absurd ho hne
      · intro _
        refine ⟨by simp, ?_⟩
        intro _
        split_ifs <;> rfl
      · intro hv
        rw [if_pos (hany hv)]
    · simp only [trident, ho, if_true, List.length_cons, pure_eq_ok, ok_bind,
        ieMobileLoop_eq, idx_cons_succ, idx_cons_zero, normalizeOS_eq] at h
      have hlt : 2 < rest.length + 1 + 1 + 1 := by omega
      simp only [gt_iff_lt, hlt, if_true, ok_bind, Except.ok.injEq] at h
      subst h
      refine ⟨?_, ?_, ?_, ?_, ?_⟩
      · split_ifs <;> rfl
      · split_ifs <;> rfl
      · intro hne; exact absurd ho hne
      · intro _
        constructor
        · intro c hc
          simp only [List.get?_cons_succ, List.get?_cons_zero, Option.some.injEq] at hc
          subst hc
          split_ifs <;> rfl
        · intro hl
          simp only [List.length_cons] at hl
          omega
      · intro hv
        rw [if_pos (hany hv)]
  · simp only [trident, ho, if_false, pure_eq_ok, ok_bind, ieMobileLoop_eq, Except.ok.injEq] at h
    subst h
    refine ⟨?_, ?_, ?_, ?_, ?_⟩
    · split_ifs <;> rfl
    · split_ifs <;> rfl
    · intro _
      split_ifs <;> rfl
    · intro he; exact absurd he ho
    · intro hv
      rw [if_pos (hany hv)]

theorem detectOS_trident (bot : BotChecks) (q : UserAgent) (s : Section)
    (h0 : s.name = bytes "Mozilla") (he : q.Browser.Engine = bytes "Trident")
    (hos : q.Os = []) :
    Sat (detectOS bot q s) (fun r =>
      r.Undecided = q.Undecided ∧ r.Platform = bytes "Windows" ∧
      (∀ c0, s.comment.head? = some c0 → hasPrefix c0 (bytes "Windows") = true →
        r.Os = normOS c0) ∧
      ((∀ c0, s.comment.head? = some c0 → hasPrefix c0 (bytes "Windows") = false) →
        (∀ c2, s.comment.get? 2 = some c2 → r.Os = normOS c2) ∧
        (s.comment.length < 3 → r.Os = bytes "Windows NT 4.0")) ∧
      ((∃ v ∈ s.comment, hasPrefix v (bytes "IEMobile") = true) → r.Mobile = true)) := by
  have e1 : ¬ bytes "Trident" = [] := by decide
  have e2 : ¬ bytes "Trident" = bytes "Gecko" := by decide
  have e3 : ¬ bytes "Trident" = bytes "AppleWebKit" := by decide
  rcases s with ⟨name, version, comment⟩
  simp only at h0
  subst h0
  unfold detectOS
  simp only [if_true]
  apply sat_bind
  intro pl hpl
  dsimp only
  rcases comment with _ | ⟨c0, crest⟩
  · simp only [List.length_nil, gt_iff_lt, Nat.lt_irrefl, and_false, if_false, pure_eq_ok,
      ok_bind, he, e1, e2, e3, if_true]
    refine sat_mono _ _ _ (trident_spec { q with Platform := pl } []) ?_
    intro a ha
    obtain ⟨h1, h2, _, h4, h5⟩ := ha
    refine ⟨h1, h2, ?_, ?_, h5⟩
    · intro c hc; simp at hc
    · intro _; exact h4 hos
  · have hw := getPlatform_windows c0 pl crest hpl
    by_cases hp : hasPrefix c0 (bytes "Windows") = true
    · have hpl2 : pl = bytes "Windows" := hw.mpr hp
      simp only [hpl2, List.length_cons, gt_iff_lt, Nat.zero_lt_succ, and_self, if_true,
        idx_cons_zero, ok_bind, normalizeOS_eq, pure_eq_ok, he, e1, e2, e3, if_false]
      refine sat_mono _ _ _ (trident_spec { q with Platform := bytes "Windows", Os := normOS c0 }
        (c0 :: crest)) ?_
      intro a ha
      obtain ⟨h1, h2, h3, _, h5⟩ := ha
      have hc0 : c0 ≠ [] := by
        intro e; rw [e] at hp; revert hp; decide
      refine ⟨h1, h2, ?_, ?_, h5⟩
      · intro c hc _
        simp only [List.head?_cons, Option.some.injEq] at hc
        subst hc
        exact h3 (normOS_ne_nil _ hc0)
      · intro hall
        have := hall c0 rfl
        rw [hp] at this
        exact absurd this (by decide)
    · have hpl2 : ¬ pl = bytes "Windows" := fun e => hp (hw.mp e)
      simp only [hpl2, false_and, if_false, pure_eq_ok, ok_bind, he, e1, e2, e3, if_true]
      refine sat_mono _ _ _ (trident_spec { q with Platform := pl } (c0 :: crest)) ?_
      intro a ha
      obtain ⟨h1, h2, _, h4, h5⟩ := ha
      refine ⟨h1, h2, ?_, ?_, h5⟩
      · intro c hc hpc
        simp only [List.head?_cons, Option.some.injEq] at hc
        subst hc
        exact absurd hpc hp
      · intro _; exact h4 hos

/-- Claim C18: for a header whose first section is named `Mozilla` and for which
`detectBrowser` (on the record `Parse` calls it with) detects the engine
`Trident`, `detectOS` returns the record `Parse` returns, with the platform
`Windows`; its operating system is `normalizeOS` of the first comment token
when that token starts with `Windows`, otherwise `normalizeOS` of the third
comment token when there are at least three, otherwise `Windows NT 4.0`; and
`Mobile` is true when some comment token starts with `IEMobile`. -/
theorem Parse_trident (bot : BotChecks) (p q : UserAgent) (ua : Str) (s0 : Section)
    (rest : List Section)
    (htok : tokenize ua = Except.ok (s0 :: rest))
    (h0 : s0.name = bytes "Mozilla")
    (hdb : detectBrowser
      { zeroUserAgent with ua := ua, Mozilla := s0.version,
                           Mobile := hasMobileSection (s0 :: rest) }
      (s0 :: rest) = Except.ok q)
    (he : q.Browser.Engine = bytes "Trident") :
    ∃ r, detectOS bot q s0 = Except.ok r ∧ Parse bot p ua = Except.ok r ∧
      r.Platform = bytes "Windows" ∧
      (∀ c0, s0.comment.head? = some c0 → hasPrefix c0 (bytes "Windows") = true →
        normalizeOS c0 = Except.ok r.Os) ∧
      ((∀ c0, s0.comment.head? = some c0 → hasPrefix c0 (bytes "Windows") = false) →
        (∀ c2, s0.comment.get? 2 = some c2 → normalizeOS c2 = Except.ok r.Os) ∧
        (s0.comment.length < 3 → r.Os = bytes "Windows NT 4.0")) ∧
      ((∃ v ∈ s0.comment, hasPrefix v (bytes "IEMobile") = true) → r.Mobile = true) := by
  have hf := detectBrowser_frame _ _ q hdb
  have hos : q.Os = [] := by rw [hf.2.2.1]; rfl
  obtain ⟨r, hr⟩ := detectOS_ok bot q s0
  obtain ⟨hun, hpl, h1, h2, h3⟩ := detectOS_trident bot q s0 h0 he hos r hr
  have hun2 : r.Undecided = false := by rw [hun, hf.2.2.2.2.2]; rfl
  refine ⟨r, hr, ?_, hpl, ?_, ?_, h3⟩
  · rw [Parse_of_tokenize bot p ua _ htok]
    refine classify_decided bot _ q r s0 _ ?_ hr hun2
    rw [if_pos h0]
    exact hdb
  · intro c hc hp
    rw [normalizeOS_eq, h1 c hc hp]
  · intro hall
    refine ⟨?_, (h2 hall).2⟩
    intro c hc
    rw [normalizeOS_eq, (h2 hall).1 c hc]

theorem Parse_trident_witness :
    tokenize (bytes "Mozilla/5.0 (compatible; MSIE 10.0; Windows Phone 8.0; Trident/6.0; IEMobile/10.0)")
      = Except.ok
        [⟨bytes "Mozilla", bytes "5.0",
            [bytes "compatible", bytes "MSIE 10.0", bytes "Windows Phone 8.0",
              bytes "Trident/6.0", bytes "IEMobile/10.0"]⟩] ∧
    ∃ r, Parse noBot zeroUserAgent
        (bytes "Mozilla/5.0 (compatible; MSIE 10.0; Windows Phone 8.0; Trident/6.0; IEMobile/10.0)")
        = Except.ok r ∧
      r.Platform = bytes "Windows" ∧
      normalizeOS (bytes "Windows Phone 8.0") = Except.ok r.Os ∧ r.Mobile = true :=
  ⟨by decide,
    match Parse_trident noBot zeroUserAgent
      { zeroUserAgent with ua := bytes "Mozilla/5.0 (compatible; MSIE 10.0; Windows Phone 8.0; Trident/6.0; IEMobile/10.0)", Mozilla := bytes "5.0", Browser := ⟨bytes "Trident", [], bytes "Internet Explorer", bytes "10.0"⟩ }
      (bytes "Mozilla/5.0 (compatible; MSIE 10.0; Windows Phone 8.0; Trident/6.0; IEMobile/10.0)")
      ⟨bytes "Mozilla", bytes "5.0",
        [bytes "compatible", bytes "MSIE 10.0", bytes "Windows Phone 8.0",
          bytes "Trident/6.0", bytes "IEMobile/10.0"]⟩
      []
      (by decide) rfl (by decide) rfl with
    | ⟨r, _, h, h1, _, h3, h4⟩ =>
      ⟨r, h, h1,
        (h3 (fun c hc => by
          simp only [List.head?_cons, Option.some.injEq] at hc
          subst hc
          decide)).1 (bytes "Windows Phone 8.0") rfl,
        h4 ⟨bytes "IEMobile/10.0", by decide, by decide⟩⟩⟩
end UAParse
